import Mathlib

/-!
# pintrss: the feed-rewriting proxy (`handler.go`)

A shallow embedding of `handler.go` and proofs about it.

Go strings and byte buffers are modelled as `List Char`: the sequence of code
points of a (valid UTF-8) buffer.  Every marker, separator and pattern of the
program is ASCII, so cutting at a marker happens at the same place on bytes
and on code points.
-/

namespace Pintrss

set_option maxRecDepth 100000

/-! ## Strings -/

/-- Text of a Go string literal. -/
abbrev Str := List Char

/-- The constant `origin`. -/
def origin : Str := "https://www.pinterest.com/".toList

/-- The constant `repoURL`. -/
def repoURL : Str := "https://github.com/attilaolah/pinfeed".toList

/-- Go `strings.TrimSuffix(s, suffix)`: `s` without the trailing `suffix`, or `s`
itself when it does not end in `suffix`. -/
def trimSuffix (s suffix : Str) : Str :=
  if suffix.isSuffixOf s then s.take (s.length - suffix.length) else s

/-- Go `strings.Cut` for a one-character separator: the text before and after the
first occurrence of `sep`, or `none` when `sep` does not occur. -/
def cut (sep : Char) : Str → Option (Str × Str)
  | [] => none
  | c :: t =>
    if c = sep then some ([], t)
    else match cut sep t with
      | none => none
      | some (a, b) => some (c :: a, b)

/-- The loop of Go `strings.genSplit`: cut off at most `k` pieces, then the rest. -/
def splitLoop (sep : Char) : Nat → Str → List Str
  | 0, s => [s]
  | k + 1, s =>
    match cut sep s with
    | none => [s]
    | some (a, b) => a :: splitLoop sep k b

/-- Go `strings.SplitN(s, sep, n)` for a one-character `sep` and `n ≥ 0`: at most
`n` pieces, the last one being the unsplit remainder. -/
def splitN (s : Str) (sep : Char) (n : Nat) : List Str :=
  if n = 0 then []
  else splitLoop sep (min n (s.length + 1) - 1) s

/-! ## URL translator -/

/-- Source `userAndFeed`: the second and third `/`-separated pieces of the path
without its `.rss` suffix; each is empty when absent. -/
def userAndFeed (path : Str) : Str × Str :=
  let path := trimSuffix path ".rss".toList
  let parts := splitN path '/' 4
  let username := if 1 < parts.length then parts.getD 1 [] else []
  let feed := if 2 < parts.length then parts.getD 2 [] else []
  (username, feed)

/-- Source `feedURL`. -/
def feedURL (path : Str) : Str :=
  let (username, feed) := userAndFeed path
  let feed := if feed = [] then "feed".toList else feed
  origin ++ "/".toList ++ username ++ "/".toList ++ feed ++ ".rss".toList

/-! ## The regular-expression fragment used by the program

Go's `regexp` finds the leftmost match and, among the matches that start
there, the one a backtracking search would find first (greedy operators try
the longest repetition first, lazy ones the shortest).  The matcher below is
that backtracking search, written in continuation-passing style, for the
operators that occur in the program's patterns: literals, character classes,
`.`, `\b`, `x?`, `x*`, `x*?`, `x+` over a one-character `x`, concatenation and
capture groups. -/

/-- State of a match attempt: the character before the current position (for
`\b`), the unread text and the capture groups closed so far (latest first). -/
structure St where
  prev : Option Char
  rest : Str
  caps : List (Nat × Str)
deriving DecidableEq

/-- Regular expressions of the fragment. -/
inductive Re where
  | eps
  | chr (p : Char → Bool)
  | wordB
  | seq (a b : Re)
  | opt (p : Char → Bool)
  | star (p : Char → Bool)
  | lazyStar (p : Char → Bool)
  | group (i : Nat) (a : Re)

/-- Word characters of `\b`: `[0-9A-Za-z_]`. -/
def isWordChar (c : Char) : Bool := c.isAlphanum || c == '_'

/-- The assertion `\b`: exactly one of the neighbouring positions holds a word
character (the ends of the text count as non-word). -/
def wordBoundary (prev next : Option Char) : Bool :=
  prev.any isWordChar != next.any isWordChar

/-- Greedy `x*` followed by `k`: the longest repetition first. -/
def starLoop (p : Char → Bool) (k : St → Option St) (caps : List (Nat × Str)) :
    Option Char → Str → Option St
  | prev, [] => k ⟨prev, [], caps⟩
  | prev, c :: t =>
    if p c then
      match starLoop p k caps (some c) t with
      | some r => some r
      | none => k ⟨prev, c :: t, caps⟩
    else k ⟨prev, c :: t, caps⟩

/-- Lazy `x*?` followed by `k`: the shortest repetition first. -/
def lazyLoop (p : Char → Bool) (k : St → Option St) (caps : List (Nat × Str)) :
    Option Char → Str → Option St
  | prev, [] => k ⟨prev, [], caps⟩
  | prev, c :: t =>
    match k ⟨prev, c :: t, caps⟩ with
    | some r => some r
    | none => if p c then lazyLoop p k caps (some c) t else none

/-- Backtracking match of `re` at the current position, then `k`. -/
def Re.run : Re → (St → Option St) → St → Option St
  | .eps, k, st => k st
  | .chr p, k, st =>
    match st.rest with
    | [] => none
    | c :: t => if p c then k ⟨some c, t, st.caps⟩ else none
  | .wordB, k, st => if wordBoundary st.prev st.rest.head? then k st else none
  | .seq a b, k, st => a.run (b.run k) st
  | .opt p, k, st =>
    match st.rest with
    | [] => k st
    | c :: t =>
      if p c then
        match k ⟨some c, t, st.caps⟩ with
        | some r => some r
        | none => k st
      else k st
  | .star p, k, st => starLoop p k st.caps st.prev st.rest
  | .lazyStar p, k, st => lazyLoop p k st.caps st.prev st.rest
  | .group i a, k, st =>
    a.run (fun st' =>
      k ⟨st'.prev, st'.rest,
        (i, st.rest.take (st.rest.length - st'.rest.length)) :: st'.caps⟩) st

/-- Number of capture groups (`NumSubexp`): the largest group index. -/
def Re.numSubexp : Re → Nat
  | .seq a b => max a.numSubexp b.numSubexp
  | .group i a => max i a.numSubexp
  | _ => 0

/-- A literal string. -/
def Re.lit : Str → Re
  | [] => .eps
  | c :: cs => .seq (.chr (fun x => x == c)) (Re.lit cs)

/-- Concatenation of a list of expressions. -/
def Re.cat : List Re → Re
  | [] => .eps
  | a :: as => .seq a (Re.cat as)

/-- The repetition `x+`. -/
def Re.plus (p : Char → Bool) : Re := .seq (.chr p) (.star p)

/-- The class `.`: any character but a line break. -/
def isDot (c : Char) : Bool := c != '\n'

/-- One leftmost match: the text before it, the submatches (index 0 the whole
match, index `i` group `i`) and the text after it. -/
structure Found where
  pre : Str
  sub : List Str
  rest : Str
deriving DecidableEq

/-- Submatches of a finished attempt that started on `s`. -/
def Re.subs (re : Re) (s : Str) (st : St) : List Str :=
  s.take (s.length - st.rest.length) ::
    (List.range re.numSubexp).map (fun i => (st.caps.lookup (i + 1)).getD [])

/-- Leftmost match of `re` in `s`, the character before `s` being `prev`. -/
def Re.search (re : Re) : Option Char → Str → Option Found
  | prev, [] =>
    match re.run some ⟨prev, [], []⟩ with
    | some st => some ⟨[], re.subs [] st, st.rest⟩
    | none => none
  | prev, c :: t =>
    match re.run some ⟨prev, c :: t, []⟩ with
    | some st => some ⟨[], re.subs (c :: t) st, st.rest⟩
    | none =>
      match re.search (some c) t with
      | some f => some ⟨c :: f.pre, f.sub, f.rest⟩
      | none => none

/-- Last character of `cs`, or `prev` when `cs` is empty. -/
def lastOr (prev : Option Char) (cs : Str) : Option Char :=
  match cs.getLast? with
  | some c => some c
  | none => prev

/-- Go `(*Regexp).FindSubmatch`: the submatches of the leftmost match, or the
empty slice (`nil`) when there is none. -/
def Re.FindSubmatch (re : Re) (b : Str) : List Str :=
  match re.search none b with
  | some f => f.sub
  | none => []

/-- Go `(*Regexp).Match`. -/
def Re.Match (re : Re) (b : Str) : Bool := (re.search none b).isSome

/-- Loop of `FindAllSubmatch`: successive leftmost matches, each search starting
where the previous match ended.  Every pattern of the program contains a
literal, so a match is never empty; the loop stops on an empty one. -/
def Re.findAllLoop (re : Re) : Nat → Option Char → Str → List (List Str)
  | 0, _, _ => []
  | fuel + 1, prev, s =>
    match re.search prev s with
    | none => []
    | some f =>
      if f.sub.headD [] = [] then []
      else f.sub :: re.findAllLoop fuel (lastOr prev (f.pre ++ f.sub.headD [])) f.rest

/-- Go `(*Regexp).FindAllSubmatch(b, -1)`. -/
def Re.FindAllSubmatch (re : Re) (b : Str) : List (List Str) :=
  re.findAllLoop (b.length + 1) none b

/-! ### Replacement templates -/

/-- Characters of a template variable name: letters, digits and `_`.  `uni`
stands for the Unicode tables `unicode.IsLetter` and `unicode.IsDigit` outside
ASCII. -/
def isNameRune (uni : Char → Bool) (c : Char) : Bool :=
  c.isAlphanum || c == '_' || (decide (128 ≤ c.toNat) && uni c)

/-- The number loop of `extract`: the value of an all-digit name below `10^8`
digits by digit, `none` (Go `-1`) otherwise. -/
def parseNumLoop : Nat → Str → Option Nat
  | num, [] => some num
  | num, c :: t =>
    if c < '0' ∨ '9' < c ∨ 100000000 ≤ num then none
    else parseNumLoop (num * 10 + (c.toNat - '0'.toNat)) t

/-- Go `extract`: the variable name at the start of a template (the `$` already
removed), written `name` or `{name}`; its number, if it is one without leading
zero; the rest of the template.  `none` when there is no well-formed name. -/
def extract (uni : Char → Bool) (str : Str) : Option (Str × Option Nat × Str) :=
  if str = [] then none
  else
    let brace := str.head? = some '{'
    let str := if brace then str.tail else str
    let name := str.takeWhile (isNameRune uni)
    let after := str.dropWhile (isNameRune uni)
    if name = [] then none
    else if brace ∧ after.head? ≠ some '}' then none
    else
      let rest := if brace then after.tail else after
      let num := parseNumLoop 0 name
      let num := if name.head? = some '0' ∧ 1 < name.length then none else num
      some (name, num, rest)

/-- Go `(*Regexp).expand` for a pattern without named groups: the template with
`$$` read as `$`, `$n` and `${n}` replaced by submatch `n` (nothing when there is
no such group), any other variable replaced by nothing and a `$` that starts no
variable kept. -/
def expandLoop (uni : Char → Bool) (sub : List Str) : Nat → Str → Str
  | 0, template => template
  | fuel + 1, template =>
    match cut '$' template with
    | none => template
    | some (before, after) =>
      match after with
      | '$' :: t => before ++ '$' :: expandLoop uni sub fuel t
      | _ =>
        match extract uni after with
        | none => before ++ '$' :: expandLoop uni sub fuel after
        | some (_, some num, rest) =>
          before ++ sub.getD num [] ++ expandLoop uni sub fuel rest
        | some (_, none, rest) => before ++ expandLoop uni sub fuel rest

/-- Expansion of a whole template. -/
def expand (uni : Char → Bool) (sub : List Str) (template : Str) : Str :=
  expandLoop uni sub (template.length + 1) template

/-- Loop of `ReplaceAll`: copy the text before each leftmost match, append the
expanded template, continue after the match. -/
def Re.replaceAllLoop (re : Re) (uni : Char → Bool) (repl : Str) :
    Nat → Option Char → Str → Str
  | 0, _, s => s
  | fuel + 1, prev, s =>
    match re.search prev s with
    | none => s
    | some f =>
      if f.sub.headD [] = [] then s
      else f.pre ++ expand uni f.sub repl ++
        re.replaceAllLoop uni repl fuel (lastOr prev (f.pre ++ f.sub.headD [])) f.rest

/-- Go `(*Regexp).ReplaceAll(src, repl)`. -/
def Re.ReplaceAll (re : Re) (uni : Char → Bool) (src repl : Str) : Str :=
  re.replaceAllLoop uni repl (src.length + 1) none src

/-! ## The program's patterns -/

/-- Class `[0-9a-z-]`. -/
def hostCls (c : Char) : Bool := c.isDigit || c.isLower || c == '-'

/-- Class `[/0-9a-f]`. -/
def pathCls (c : Char) : Bool :=
  c == '/' || c.isDigit || (decide ('a' ≤ c) && decide (c ≤ 'f'))

/-- Pattern `\b(https?://[0-9a-z-]+.pinimg.com/)(\d+x)(/[/0-9a-f]+.jpg)\b`. -/
def thumb : Re :=
  .cat [.wordB,
    .group 1 (.cat [.lit "http".toList, .opt (fun c => c == 's'), .lit "://".toList,
      .plus hostCls, .chr isDot, .lit "pinimg".toList, .chr isDot, .lit "com/".toList]),
    .group 2 (.cat [.plus Char.isDigit, .lit "x".toList]),
    .group 3 (.cat [.lit "/".toList, .plus pathCls, .chr isDot, .lit "jpg".toList]),
    .wordB]

/-- Pattern `&gt;&lt;/a&gt;(.*?)</description>`. -/
def fullTitleBoard : Re :=
  .cat [.lit "&gt;&lt;/a&gt;".toList, .group 1 (.lazyStar isDot), .lit "</description>".toList]

/-- Pattern `/a&gt;&lt;/p&gt;&lt;p&gt;(.*?)&lt;/p&gt;`. -/
def fullTitleChannel : Re :=
  .cat [.lit "/a&gt;&lt;/p&gt;&lt;p&gt;".toList, .group 1 (.lazyStar isDot),
    .lit "&lt;/p&gt;".toList]

/-- Pattern `</lastBuildDate>(.*?)</channel>`. -/
def itemsPat : Re :=
  .cat [.lit "</lastBuildDate>".toList, .group 1 (.lazyStar isDot), .lit "</channel>".toList]

/-- Pattern `<item>(.*?)</item>`. -/
def itemPat : Re :=
  .cat [.lit "<item>".toList, .group 1 (.lazyStar isDot), .lit "</item>".toList]

/-- Pattern `(<title>)(.*?)(</title>)`. -/
def titlePat : Re :=
  .cat [.group 1 (.lit "<title>".toList), .group 2 (.lazyStar isDot),
    .group 3 (.lit "</title>".toList)]

/-- Pattern `(.*?)<item>(?:.*)(</channel></rss>)`. -/
def feedPat : Re :=
  .cat [.group 1 (.lazyStar isDot), .lit "<item>".toList, .star isDot,
    .group 2 (.lit "</channel></rss>".toList)]

/-- The template `urlReplacement`. -/
def urlReplacement : Str := "${1}1200x${3}".toList

/-! ## Body rewriting -/

/-- Go `error` values. -/
abbrev Error := String

/-- Source `replaceThumbs`.  `r` is what `ioutil.ReadAll` gives for the reader:
the bytes read and the error, if any. -/
def replaceThumbs (uni : Char → Bool) (r : Str × Option Error) : Str × Option Error :=
  match r with
  | (buf, none) => (thumb.ReplaceAll uni buf urlReplacement, none)
  | (buf, some err) => (buf, some err)

/-- Source `getFullTitle`: the channel pattern first, then the board pattern.
`none` is a run-time panic (index out of range); the first component of the
result is `buf` (`nil` read as the empty text), the second the error. -/
def getFullTitle (r : Str) : Option (Str × Option Error) :=
  if fullTitleChannel.Match r then do
    let buf ← (fullTitleChannel.FindSubmatch r)[1]?
    pure (buf, none)
  else if fullTitleBoard.Match r then do
    let buf ← (fullTitleBoard.FindSubmatch r)[1]?
    pure (buf, none)
  else pure ([], none)

/-- Body of the loop of `replaceTitles` for one match `sk` of `itemPat`. -/
def replaceTitlesStep (uni : Char → Bool) (buf : Str) (sk : List Str) : Option Str := do
  let item ← sk[0]?
  let (fullTitle, _) ← getFullTitle item
  let title := titlePat.FindSubmatch item
  let titlePre ← title[1]?
  let titleMid := fullTitle
  let titlePost ← title[3]?
  let replacementTitle := titlePre ++ titleMid ++ titlePost
  let correctedItem := titlePat.ReplaceAll uni item replacementTitle
  pure (buf ++ correctedItem)

/-- Source `replaceTitles`.  `none` is a run-time panic (index out of range on a
missing match); otherwise the returned buffer and error. -/
def replaceTitles (uni : Char → Bool) (r : Str) : Option (Str × Option Error) := do
  let feedElements := feedPat.FindSubmatch r
  let feedHead ← feedElements[1]?
  let feedTail ← feedElements[2]?
  let itemsElements ← (itemsPat.FindSubmatch r)[1]?
  let s := itemPat.FindAllSubmatch itemsElements
  let buf ← s.foldlM (replaceTitlesStep uni) []
  pure (feedHead ++ buf ++ feedTail, none)

/-! ## The request handler

The handler is modelled by explicit state passing.  The response writer is the
state `Writer`: the header map, the first status code written and the bytes
written.  What the handler gets from outside is collected in `Env`: the outcome
of `http.NewRequest`, of `http.DefaultClient.Do`, of `http.Redirect`, and the
function `decodeBody`, which is not part of `handler.go`. -/

/-- Go `http.Header`: the entries of a map from header names to lists of values.
The order of the entries has no meaning; an inbound map is given in the order in
which a `range` loop visits it. -/
abbrev Header := List (Str × List Str)

/-- Go `validHeaderFieldByte`: letters, digits and the characters
``!#$%&'*+-.^_`|~``, given by their codes. -/
def validHeaderFieldByte (c : Char) : Bool :=
  c.isAlphanum ||
    [33, 35, 36, 37, 38, 39, 42, 43, 45, 46, 94, 95, 96, 124, 126].contains c.toNat

/-- The loop of Go `canonicalMIMEHeaderKey`: upper case for the first letter and
for a letter after `-`, lower case for the other letters. -/
def canonLoop : Bool → Str → Str
  | _, [] => []
  | upper, c :: t =>
    let d := if upper && c.isLower then c.toUpper
      else if !upper && c.isUpper then c.toLower else c
    d :: canonLoop (d == '-') t

/-- Go `textproto.CanonicalMIMEHeaderKey`: the canonical form of a header name; a
name with a character that is no token character is left as it is. -/
def canonicalHeaderKey (s : Str) : Str :=
  if s.all validHeaderFieldByte then canonLoop true s else s

/-- The map access `h[key]`: the values of `key`, none when the key is absent. -/
def Header.values (h : Header) (key : Str) : List Str := (h.lookup key).getD []

/-- The map assignment `h[key] = vals`. -/
def Header.put (h : Header) (key : Str) (vals : List Str) : Header :=
  (key, vals) :: h.filter (fun e => e.1 != key)

/-- Go `Header.Get`: the first value of the canonical key, or the empty string. -/
def Header.Get (h : Header) (key : Str) : Str :=
  (Header.values h (canonicalHeaderKey key)).headD []

/-- Go `Header.Set`: the canonical key gets the single value `val`. -/
def Header.Set (h : Header) (key val : Str) : Header :=
  Header.put h (canonicalHeaderKey key) [val]

/-- Go `Header.Add`: `val` is appended to the values of the canonical key. -/
def Header.Add (h : Header) (key val : Str) : Header :=
  Header.put h (canonicalHeaderKey key) (Header.values h (canonicalHeaderKey key) ++ [val])

/-- The list `headers` of the response headers that are copied. -/
def headers : List Str :=
  ["Age".toList, "Cache-Control".toList, "Content-Type".toList, "Date".toList, "Etag".toList,
    "Last-Modified".toList, "Vary".toList, "Pinterest-Breed".toList,
    "Pinterest-Generated-By".toList, "Pinterest-Version".toList]

/-- The inbound request: method, `URL.Path` and header map. -/
structure Request where
  method : Str
  path : Str
  header : Header

/-- The outbound request: method, URL and header map. -/
structure OutRequest where
  method : Str
  url : Str
  header : Header

/-- The upstream response: status code, header map, and what reading the body
gives (the bytes read and the error, if any). -/
structure Response where
  statusCode : Nat
  header : Header
  body : Str × Option Error

/-- State of the `http.ResponseWriter`: the header map `w.Header()`, the first
status code written and the body bytes written. -/
structure Writer where
  header : Header
  status : Option Nat
  body : Str

/-- `w.WriteHeader(code)`: the first status code written is the one that counts. -/
def Writer.WriteHeader (w : Writer) (code : Nat) : Writer :=
  match w.status with
  | some _ => w
  | none => { w with status := some code }

/-- `w.Write(b)`: writes status 200 when no status was written, then the bytes. -/
def Writer.Write (w : Writer) (b : Str) : Writer :=
  let w := w.WriteHeader 200
  { w with body := w.body ++ b }

/-- What the handler gets from outside `handler.go`. -/
structure Env where
  /-- The Unicode tables used by template expansion. -/
  uni : Char → Bool
  /-- The error of `http.NewRequest(method, url, nil)`, if any. -/
  newRequestErr : Str → Str → Option Error
  /-- The outcome of `http.DefaultClient.Do(req)`. -/
  doRequest : OutRequest → Except Error Response
  /-- The repository's `decodeBody(res)`: the response as it leaves it, and its
  error, if any. -/
  decodeBody : Response → Response × Option Error
  /-- The effect of `http.Redirect(w, r, url, code)` on the writer. -/
  redirect : Writer → Request → Str → Nat → Writer

/-- The helpers of the handler whose calls are recorded. -/
inductive Call where
  | decodeBody
  | replaceThumbs
  | replaceTitles
deriving DecidableEq

/-- What a run of the handler leaves: the writer, the recorded calls in order,
and whether the run ended in a panic. -/
structure Outcome where
  w : Writer
  calls : List Call
  panicked : Bool

/-- The loop of `pinFeed` that passes the inbound headers along, and the
`Accept-Encoding` it sets after the loop; the outbound header map is empty at
the start. -/
def forwardHeaders (inbound : Header) : Header :=
  let h := inbound.foldl
    (fun acc e => e.2.foldl (fun acc val => Header.Add acc e.1 val) acc) []
  Header.Set h "Accept-Encoding".toList "gzip, deflate".toList

/-- The outbound request `pinFeed` builds for `r`. -/
def outboundRequest (r : Request) : OutRequest :=
  ⟨r.method, feedURL r.path, forwardHeaders r.header⟩

/-- The loop of `pinFeed` that copies the listed headers of the response into
the header map `out` of the writer. -/
def copyHeaders (resHeader : Header) (out : Header) : Header :=
  headers.foldl
    (fun out key =>
      let val := Header.Get resHeader key
      if val ≠ [] then Header.Set out key val else out) out

/-- Source `pinFeed`. -/
def pinFeed (env : Env) (w : Writer) (r : Request) : Outcome :=
  if r.path = "/".toList then
    ⟨env.redirect w r repoURL 301, [], false⟩
  else
    match env.newRequestErr r.method (feedURL r.path) with
    | some _ => ⟨w.WriteHeader 500, [], false⟩
    | none =>
      match env.doRequest (outboundRequest r) with
      | .error _ => ⟨w.WriteHeader 500, [], false⟩
      | .ok res =>
        if res.statusCode = 304 then ⟨w.WriteHeader 304, [], false⟩
        else
          match env.decodeBody res with
          | (_, some _) => ⟨w.WriteHeader 500, [.decodeBody], false⟩
          | (res, none) =>
            let w := { w with header := copyHeaders res.header w.header }
            let w := w.WriteHeader res.statusCode
            match replaceThumbs env.uni res.body with
            | (_, some _) => ⟨w.WriteHeader 500, [.decodeBody, .replaceThumbs], false⟩
            | (buf, none) =>
              match replaceTitles env.uni buf with
              | none => ⟨w, [.decodeBody, .replaceThumbs, .replaceTitles], true⟩
              | some (_, some _) =>
                ⟨w.WriteHeader 500, [.decodeBody, .replaceThumbs, .replaceTitles], false⟩
              | some (buf2, none) =>
                ⟨w.Write buf2, [.decodeBody, .replaceThumbs, .replaceTitles], false⟩

/-! ## Vocabulary of the statements -/

/-- The address read from a path whose text, once the suffix is removed, is `p`. -/
def addressOf (p : Str) : Str × Str :=
  ((if 1 < (splitN p '/' 4).length then (splitN p '/' 4).getD 1 [] else []),
   (if 2 < (splitN p '/' 4).length then (splitN p '/' 4).getD 2 [] else []))

/-- No occurrence of `L` in `x ++ y` starts inside `x`. -/
def NoOcc (L x y : Str) : Prop := ∀ u v, x = u ++ v → v ≠ [] → ¬ L <+: v ++ y

/-- The text of an item `<item>a<title>t</title>b</item>`, given as `(a, t, b)`. -/
def itemText (it : Str × Str × Str) : Str :=
  "<item>".toList ++ it.1 ++ "<title>".toList ++ it.2.1 ++ "</title>".toList ++ it.2.2
    ++ "</item>".toList

/-- The text between `<item>` and `</item>` of the item `(a, t, b)`. -/
def itemInner (it : Str × Str × Str) : Str :=
  it.1 ++ "<title>".toList ++ it.2.1 ++ "</title>".toList ++ it.2.2

/-- The item `(a, t, b)` with `title` as the inner text of its title element. -/
def itemWithTitle (it : Str × Str × Str) (title : Str) : Str :=
  "<item>".toList ++ it.1 ++ "<title>".toList ++ title ++ "</title>".toList ++ it.2.2
    ++ "</item>".toList

/-- The single-line feed `H I_1 ... I_N </channel></rss>`. -/
def feedText (H : Str) (items : List (Str × Str × Str)) : Str :=
  H ++ (items.map itemText).flatten ++ "</channel></rss>".toList

/-- The text `getFullTitle` returns for `r` (empty should it not return). -/
def fullTitleOf (r : Str) : Str := ((getFullTitle r).getD ([], none)).1

/-- What the loop of `replaceTitles` makes of the item `(a, t, b)`: the title
element replaced by the expansion of the template `<title>` + full title +
`</title>`. -/
def rewriteItem (uni : Char → Bool) (it : Str × Str × Str) : Str :=
  "<item>".toList ++ it.1 ++
    expand uni ["<title>".toList ++ it.2.1 ++ "</title>".toList, "<title>".toList, it.2.1,
      "</title>".toList]
      ("<title>".toList ++ fullTitleOf (itemText it) ++ "</title>".toList)
    ++ it.2.2 ++ "</item>".toList

/-- The shape of an item that the claims call well-formed: no line break and no
`</channel>` in the item, no `</item>` in `a`, `t`, `b`, no `<title>` in `a`, `b`
and no `</title>` in `t`. -/
structure WfItem (it : Str × Str × Str) : Prop where
  noBreak : '\n' ∉ itemText it
  noChannel : ¬ "</channel>".toList <:+: itemText it
  a_item : ¬ "</item>".toList <:+: it.1
  t_item : ¬ "</item>".toList <:+: it.2.1
  b_item : ¬ "</item>".toList <:+: it.2.2
  a_title : ¬ "<title>".toList <:+: it.1
  b_title : ¬ "<title>".toList <:+: it.2.2
  t_title : ¬ "</title>".toList <:+: it.2.1

/-- The shape of the head of a well-formed single-line feed: no line break, no
`</channel>`, no `<item>`, and a `</lastBuildDate>`. -/
structure WfHead (H : Str) : Prop where
  noBreak : '\n' ∉ H
  noChannel : ¬ "</channel>".toList <:+: H
  noItem : ¬ "<item>".toList <:+: H
  lastBuild : "</lastBuildDate>".toList <:+: H

/-- Group 1 of a match of `thumb`: `http` or `https`, `://`, a non-empty run of
`[0-9a-z-]`, any character, `pinimg`, any character, `com/` ("any character"
excludes the line break). -/
def IsG1 (g1 : Str) : Prop :=
  ∃ sch h w1 w2, (sch = "http".toList ∨ sch = "https".toList) ∧ h ≠ [] ∧
    (∀ c ∈ h, hostCls c = true) ∧ isDot w1 = true ∧ isDot w2 = true ∧
    g1 = sch ++ "://".toList ++ h ++ w1 :: "pinimg".toList ++ w2 :: "com/".toList

/-- Group 2 of a match of `thumb`: a non-empty run of digits and `x`. -/
def IsG2 (g2 : Str) : Prop :=
  ∃ d, d ≠ [] ∧ (∀ c ∈ d, Char.isDigit c = true) ∧ g2 = d ++ "x".toList

/-- Group 3 of a match of `thumb`: `/`, a non-empty run of `[/0-9a-f]`, any
character and `jpg`. -/
def IsG3 (g3 : Str) : Prop :=
  ∃ p w3, p ≠ [] ∧ (∀ c ∈ p, pathCls c = true) ∧ isDot w3 = true ∧
    g3 = '/' :: p ++ w3 :: "jpg".toList

/-- The three groups of a match of `thumb`. -/
def IsThumb (g1 g2 g3 : Str) : Prop := IsG1 g1 ∧ IsG2 g2 ∧ IsG3 g3

/-- First group of `thumb`. -/
def thumbG1 : Re :=
  .group 1 (.cat [.lit "http".toList, .opt (fun c => c == 's'), .lit "://".toList,
    .plus hostCls, .chr isDot, .lit "pinimg".toList, .chr isDot, .lit "com/".toList])

/-- Second group of `thumb`. -/
def thumbG2 : Re := .group 2 (.cat [.plus Char.isDigit, .lit "x".toList])

/-- Third group of `thumb`. -/
def thumbG3 : Re :=
  .group 3 (.cat [.lit "/".toList, .plus pathCls, .chr isDot, .lit "jpg".toList])

/-- A word character stands at the head of the text. -/
def headIsWord (s : Str) : Bool := s.head?.any isWordChar

/-- `ReplaceAll` continued in the middle of a buffer: the replacement loop on `s`,
the character before `s` being `prev`. -/
def Re.replaceFrom (re : Re) (uni : Char → Bool) (repl : Str) (prev : Option Char)
    (s : Str) : Str :=
  re.replaceAllLoop uni repl (s.length + 1) prev s

/-- The URL `scheme://h.pinimg.com/dx/p.jpg`. -/
def urlText (sch h d p : Str) : Str :=
  sch ++ "://".toList ++ h ++ ".pinimg.com/".toList ++ d ++ "x/".toList ++ p ++ ".jpg".toList

/-- The URL given by its parts `(scheme, h, d, p)`. -/
def urlOf (u : Str × Str × Str × Str) : Str := urlText u.1 u.2.1 u.2.2.1 u.2.2.2

/-- The upgrade of the URL `(scheme, h, d, p)`: `d` replaced by `1200`. -/
def upgradeOf (u : Str × Str × Str × Str) : Str := urlText u.1 u.2.1 "1200".toList u.2.2.2

/-- Well-shaped URL parts: the scheme is `http` or `https`, `h` is a non-empty
string over `[0-9a-z-]`, `d` a non-empty string of digits, `p` a non-empty string
over `[/0-9a-f]`. -/
structure WellShaped (u : Str × Str × Str × Str) : Prop where
  scheme : u.1 = "http".toList ∨ u.1 = "https".toList
  host_ne : u.2.1 ≠ []
  host : ∀ c ∈ u.2.1, hostCls c = true
  digits_ne : u.2.2.1 ≠ []
  digits : ∀ c ∈ u.2.2.1, Char.isDigit c = true
  path_ne : u.2.2.2 ≠ []
  path : ∀ c ∈ u.2.2.2, pathCls c = true

/-- Texts joined by single spaces. -/
def joinSpaces : List Str → Str
  | [] => []
  | [x] => x
  | x :: y :: r => x ++ ' ' :: joinSpaces (y :: r)

/-- The marker `op` stands at the head of `s` and is followed on the same line by
`cl`. -/
def MarkerAt (op cl s : Str) : Prop :=
  ∃ mid post, s = op ++ mid ++ cl ++ post ∧ '\n' ∉ mid

/-- The text `r` contains the marker `op` followed on the same line by `cl`. -/
def HasMarker (op cl r : Str) : Prop :=
  ∃ pre mid post, r = pre ++ (op ++ mid ++ cl ++ post) ∧ '\n' ∉ mid

/-- In `r`, `mid` is the text between the first marker `op` that is followed on
the same line by `cl`, and the nearest `cl` that follows this marker. -/
def FirstBetween (op cl r mid : Str) : Prop :=
  ∃ pre post, r = pre ++ (op ++ mid ++ cl ++ post) ∧ '\n' ∉ mid ∧
    NoOcc cl mid (cl ++ post) ∧
    ∀ u v, pre = u ++ v → v ≠ [] → ¬ MarkerAt op cl (v ++ (op ++ mid ++ cl ++ post))

/-- The text `I_1 w_1 ... I_N w_N` of the items `I_k = <item>x_k</item>`, each
followed by the text `w_k`; the items are given as the pairs `(x_k, w_k)`. -/
def itemsRun : List (Str × Str) → Str
  | [] => []
  | p :: rest => "<item>".toList ++ p.1 ++ "</item>".toList ++ p.2 ++ itemsRun rest

/-- The body `H </lastBuildDate> w_0 I_1 w_1 ... I_N w_N </channel></rss>`. -/
def spacedFeed (H w0 : Str) (items : List (Str × Str)) : Str :=
  H ++ "</lastBuildDate>".toList ++ w0 ++ itemsRun items ++ "</channel></rss>".toList

/-! ## Lemmas on strings -/

theorem trimSuffix_append (s suffix : Str) : trimSuffix (s ++ suffix) suffix = s := by
  have h : suffix.isSuffixOf (s ++ suffix) = true := by
    exact List.isSuffixOf_iff_suffix.mpr (List.suffix_append s suffix)
  simp [trimSuffix, h]

theorem trimSuffix_of_not_suffix (s suffix : Str) (h : ¬ suffix <:+ s) :
    trimSuffix s suffix = s := by
  have h' : suffix.isSuffixOf s = false := by
    cases hb : suffix.isSuffixOf s
    · rfl
    · exact absurd (List.isSuffixOf_iff_suffix.mp hb) h
  simp [trimSuffix, h']

theorem cut_of_not_mem (sep : Char) (s : Str) (h : sep ∉ s) : cut sep s = none := by
  induction s with
  | nil => rfl
  | cons c t ih =>
    have hc : c ≠ sep := fun e => h (by simp [e])
    have ht : sep ∉ t := fun e => h (by simp [e])
    simp [cut, hc, ih ht]

theorem cut_append (sep : Char) (a b : Str) (h : sep ∉ a) :
    cut sep (a ++ sep :: b) = some (a, b) := by
  induction a with
  | nil => simp [cut]
  | cons c t ih =>
    have hc : c ≠ sep := fun e => h (by simp [e])
    have ht : sep ∉ t := fun e => h (by simp [e])
    simp [cut, hc, ih ht]

theorem splitLoop_of_not_mem (sep : Char) (k : Nat) (s : Str) (h : sep ∉ s) :
    splitLoop sep k s = [s] := by
  cases k <;> simp [splitLoop, cut_of_not_mem sep s h]

theorem splitLoop_succ_append (sep : Char) (k : Nat) (a b : Str) (h : sep ∉ a) :
    splitLoop sep (k + 1) (a ++ sep :: b) = a :: splitLoop sep k b := by
  simp [splitLoop, cut_append sep a b h]

theorem splitN_one (u : Str) (hu : '/' ∉ u) : splitN ('/' :: u) '/' 4 = [[], u] := by
  have hk : min 4 (('/' :: u).length + 1) - 1 = (min 2 u.length) + 1 := by
    simp only [List.length_cons]; omega
  have e := splitLoop_succ_append '/' (min 2 u.length) [] u (by simp)
  simp only [List.nil_append] at e
  simp only [splitN, hk, e, splitLoop_of_not_mem '/' _ u hu]
  simp

theorem splitN_two (u f : Str) (hu : '/' ∉ u) (hf : '/' ∉ f) :
    splitN ('/' :: (u ++ '/' :: f)) '/' 4 = [[], u, f] := by
  have hk : min 4 (('/' :: (u ++ '/' :: f)).length + 1) - 1
      = (min 1 (u.length + f.length)) + 1 + 1 := by
    simp only [List.length_cons, List.length_append]; omega
  have e := splitLoop_succ_append '/' (min 1 (u.length + f.length) + 1) [] (u ++ '/' :: f)
    (by simp)
  simp only [List.nil_append] at e
  simp only [splitN, hk, e, splitLoop_succ_append '/' _ u f hu,
    splitLoop_of_not_mem '/' _ f hf]
  simp

theorem userAndFeed_rss (p : Str) : userAndFeed (p ++ ".rss".toList) = addressOf p := by
  simp only [userAndFeed, trimSuffix_append, addressOf]

theorem userAndFeed_plain (p : Str) (h : ¬ ".rss".toList <:+ p) :
    userAndFeed p = addressOf p := by
  unfold userAndFeed
  rw [trimSuffix_of_not_suffix _ _ h]
  rfl

theorem addressOf_one (u : Str) (hu : '/' ∉ u) : addressOf ('/' :: u) = (u, []) := by
  simp [addressOf, splitN_one u hu]

theorem addressOf_two (u f : Str) (hu : '/' ∉ u) (hf : '/' ∉ f) :
    addressOf ('/' :: (u ++ '/' :: f)) = (u, f) := by
  simp [addressOf, splitN_two u f hu hf]

theorem feedURL_of_address (p u f : Str) (h : userAndFeed p = (u, f)) :
    feedURL p = origin ++ "/".toList ++ u ++ "/".toList
      ++ (if f = [] then "feed".toList else f) ++ ".rss".toList := by
  simp only [feedURL, h]

/-! ## Lemmas on the matcher -/

@[simp] theorem lastOr_nil (prev : Option Char) : lastOr prev [] = prev := rfl

@[simp] theorem lastOr_cons (prev : Option Char) (c : Char) (cs : Str) :
    lastOr prev (c :: cs) = lastOr (some c) cs := by
  cases cs with
  | nil => rfl
  | cons d ds =>
    unfold lastOr
    rw [List.getLast?_cons_cons]
    cases h : (d :: ds).getLast? with
    | none => simp at h
    | some x => rfl

theorem lastOr_append (prev : Option Char) (a b : Str) :
    lastOr prev (a ++ b) = lastOr (lastOr prev a) b := by
  induction a generalizing prev with
  | nil => rfl
  | cons c cs ih => simp [ih]

@[simp] theorem run_eps (k : St → Option St) : Re.eps.run k = k := rfl

@[simp] theorem run_seq (a b : Re) (k : St → Option St) :
    (Re.seq a b).run k = a.run (b.run k) := rfl

@[simp] theorem run_chr_cons (p : Char → Bool) (k : St → Option St) (prev : Option Char)
    (c : Char) (t : Str) (caps : List (Nat × Str)) :
    (Re.chr p).run k ⟨prev, c :: t, caps⟩ = if p c then k ⟨some c, t, caps⟩ else none := rfl

@[simp] theorem run_chr_nil (p : Char → Bool) (k : St → Option St) (prev : Option Char)
    (caps : List (Nat × Str)) : (Re.chr p).run k ⟨prev, [], caps⟩ = none := rfl

@[simp] theorem run_star (p : Char → Bool) (k : St → Option St) :
    (Re.star p).run k = fun st => starLoop p k st.caps st.prev st.rest := rfl

@[simp] theorem run_lazyStar (p : Char → Bool) (k : St → Option St) :
    (Re.lazyStar p).run k = fun st => lazyLoop p k st.caps st.prev st.rest := rfl

@[simp] theorem run_wordB (k : St → Option St) :
    Re.wordB.run k = fun st => if wordBoundary st.prev st.rest.head? then k st else none :=
  rfl

@[simp] theorem run_group (i : Nat) (a : Re) (k : St → Option St) :
    (Re.group i a).run k = fun st => a.run (fun st' =>
      k ⟨st'.prev, st'.rest,
        (i, st.rest.take (st.rest.length - st'.rest.length)) :: st'.caps⟩) st := rfl

/-- A literal consumes exactly itself. -/
theorem run_lit_append (L : Str) (k : St → Option St) (prev : Option Char) (s : Str)
    (caps : List (Nat × Str)) :
    (Re.lit L).run k ⟨prev, L ++ s, caps⟩ = k ⟨lastOr prev L, s, caps⟩ := by
  induction L generalizing prev with
  | nil => rfl
  | cons c cs ih => simp [Re.lit, ih]

/-- A literal fails where the text does not start with it. -/
theorem run_lit_none (L : Str) (k : St → Option St) (prev : Option Char) (s : Str)
    (caps : List (Nat × Str)) (h : ¬ L <+: s) :
    (Re.lit L).run k ⟨prev, s, caps⟩ = none := by
  induction L generalizing prev s with
  | nil => exact absurd (List.nil_prefix) h
  | cons c cs ih =>
    cases s with
    | nil => rfl
    | cons d t =>
      by_cases hcd : d = c
      · subst hcd
        have h' : ¬ cs <+: t := fun hp => h ((List.prefix_cons_inj d).mpr hp)
        simp [Re.lit, ih _ _ h']
      · simp [Re.lit, hcd]

/-- A literal that succeeds was a prefix of the text. -/
theorem run_lit_some (L : Str) (k : St → Option St) (prev : Option Char) (s : Str)
    (caps : List (Nat × Str)) (r : St) (h : (Re.lit L).run k ⟨prev, s, caps⟩ = some r) :
    ∃ t, s = L ++ t ∧ k ⟨lastOr prev L, t, caps⟩ = some r := by
  by_cases hp : L <+: s
  · obtain ⟨t, rfl⟩ := hp
    exact ⟨t, rfl, (run_lit_append L k prev t caps).symm.trans h⟩
  · rw [run_lit_none L k prev s caps hp] at h
    exact absurd h (by simp)

theorem lazyLoop_cons (p : Char → Bool) (k : St → Option St) (caps : List (Nat × Str))
    (prev : Option Char) (c : Char) (t : Str) :
    lazyLoop p k caps prev (c :: t) =
      match k ⟨prev, c :: t, caps⟩ with
      | some r => some r
      | none => if p c then lazyLoop p k caps (some c) t else none := rfl

theorem starLoop_cons (p : Char → Bool) (k : St → Option St) (caps : List (Nat × Str))
    (prev : Option Char) (c : Char) (t : Str) :
    starLoop p k caps prev (c :: t) =
      if p c then
        match starLoop p k caps (some c) t with
        | some r => some r
        | none => k ⟨prev, c :: t, caps⟩
      else k ⟨prev, c :: t, caps⟩ := rfl

/-- A lazy repetition skips a run of admissible characters at which the
continuation fails. -/
theorem lazyLoop_skip (p : Char → Bool) (k : St → Option St) (caps : List (Nat × Str))
    (pre rest : Str) (prev : Option Char) (hp : ∀ c ∈ pre, p c = true)
    (hk : ∀ u v, pre = u ++ v → v ≠ [] → k ⟨lastOr prev u, v ++ rest, caps⟩ = none) :
    lazyLoop p k caps prev (pre ++ rest) = lazyLoop p k caps (lastOr prev pre) rest := by
  induction pre generalizing prev with
  | nil => rfl
  | cons c cs ih =>
    have h0 := hk [] (c :: cs) rfl (by simp)
    simp only [lastOr_nil, List.cons_append] at h0
    have hc : p c = true := hp c (by simp)
    have ih' := ih (some c) (fun d hd => hp d (by simp [hd]))
      (fun u v e hv => by
        have := hk (c :: u) v (by simp [e]) hv
        simpa using this)
    rw [List.cons_append, lazyLoop_cons, h0]
    simp only [hc, if_true]
    rw [ih', lastOr_cons]

/-- A lazy repetition stops at once where the continuation succeeds. -/
theorem lazyLoop_here (p : Char → Bool) (k : St → Option St) (caps : List (Nat × Str))
    (prev : Option Char) (s : Str) (r : St) (h : k ⟨prev, s, caps⟩ = some r) :
    lazyLoop p k caps prev s = some r := by
  cases s with
  | nil => simpa [lazyLoop] using h
  | cons c t => simp [lazyLoop, h]

/-- A lazy repetition that succeeds consumed a run of admissible characters, the
continuation failing at every earlier position of the run. -/
theorem lazyLoop_some (p : Char → Bool) (k : St → Option St) (caps : List (Nat × Str))
    (prev : Option Char) (s : Str) (r : St) (h : lazyLoop p k caps prev s = some r) :
    ∃ pre rest, s = pre ++ rest ∧ (∀ c ∈ pre, p c = true) ∧
      k ⟨lastOr prev pre, rest, caps⟩ = some r ∧
      ∀ u v, pre = u ++ v → v ≠ [] → k ⟨lastOr prev u, v ++ rest, caps⟩ = none := by
  induction s generalizing prev with
  | nil =>
    refine ⟨[], [], rfl, by simp, by simpa [lazyLoop] using h, ?_⟩
    intro u v e hv
    have : v = [] := by
      have := congrArg List.length e
      simp at this
      exact List.eq_nil_of_length_eq_zero (by omega)
    exact absurd this hv
  | cons c t ih =>
    simp only [lazyLoop] at h
    cases hk : k ⟨prev, c :: t, caps⟩ with
    | some r' =>
      rw [hk] at h
      refine ⟨[], c :: t, rfl, by simp, by simpa [hk] using h, ?_⟩
      intro u v e hv
      have : v = [] := by
        have := congrArg List.length e
        simp at this
        exact List.eq_nil_of_length_eq_zero (by omega)
      exact absurd this hv
    | none =>
      rw [hk] at h
      by_cases hc : p c = true
      · simp only [hc, if_true] at h
        obtain ⟨pre, rest, e, hp, hr, hmin⟩ := ih (some c) h
        refine ⟨c :: pre, rest, by simp [e], ?_, by simpa using hr, ?_⟩
        · intro d hd
          rcases List.mem_cons.mp hd with rfl | hd
          · exact hc
          · exact hp d hd
        · intro u v e' hv
          cases u with
          | nil =>
            simp only [List.nil_append] at e'
            subst e'
            simpa [e] using hk
          | cons d u' =>
            simp only [List.cons_append, List.cons.injEq] at e'
            obtain ⟨rfl, e'⟩ := e'
            simpa using hmin u' v e' hv
      · simp [hc] at h

/-- A greedy repetition that succeeds consumed a run of admissible characters. -/
theorem starLoop_some (p : Char → Bool) (k : St → Option St) (caps : List (Nat × Str))
    (prev : Option Char) (s : Str) (r : St) (h : starLoop p k caps prev s = some r) :
    ∃ pre rest, s = pre ++ rest ∧ (∀ c ∈ pre, p c = true) ∧
      k ⟨lastOr prev pre, rest, caps⟩ = some r := by
  induction s generalizing prev with
  | nil => exact ⟨[], [], rfl, by simp, by simpa [starLoop] using h⟩
  | cons c t ih =>
    simp only [starLoop] at h
    by_cases hc : p c = true
    · simp only [hc, if_true] at h
      cases hs : starLoop p k caps (some c) t with
      | some r' =>
        rw [hs] at h
        obtain ⟨pre, rest, e, hp, hr⟩ := ih (some c) (by rw [hs]; exact h)
        refine ⟨c :: pre, rest, by simp [e], ?_, by simpa using hr⟩
        intro d hd
        rcases List.mem_cons.mp hd with rfl | hd
        · exact hc
        · exact hp d hd
      | none =>
        rw [hs] at h
        exact ⟨[], c :: t, rfl, by simp, by simpa using h⟩
    · simp only [hc] at h
      exact ⟨[], c :: t, rfl, by simp, by simpa using h⟩

/-- A greedy repetition succeeds whenever the continuation succeeds after some
run of admissible characters. -/
theorem starLoop_isSome (p : Char → Bool) (k : St → Option St) (caps : List (Nat × Str))
    (prev : Option Char) (pre rest : Str) (r : St) (hp : ∀ c ∈ pre, p c = true)
    (hk : k ⟨lastOr prev pre, rest, caps⟩ = some r) :
    ∃ r', starLoop p k caps prev (pre ++ rest) = some r' := by
  induction pre generalizing prev with
  | nil =>
    cases rest with
    | nil => exact ⟨r, by simpa [starLoop] using hk⟩
    | cons c t =>
      simp only [List.nil_append, starLoop]
      by_cases hc : p c = true
      · simp only [hc, if_true]
        cases starLoop p k caps (some c) t with
        | some r' => exact ⟨r', rfl⟩
        | none => exact ⟨r, by simpa using hk⟩
      · simp only [hc]
        exact ⟨r, by simpa using hk⟩
  | cons c cs ih =>
    obtain ⟨r', hr'⟩ := ih (some c) (fun d hd => hp d (by simp [hd])) (by simpa using hk)
    have hc : p c = true := hp c (by simp)
    exact ⟨r', by simp [starLoop, hc, hr']⟩

/-- A greedy repetition takes the whole run when the continuation succeeds after
it and the run cannot be extended. -/
theorem starLoop_max (p : Char → Bool) (k : St → Option St) (caps : List (Nat × Str))
    (prev : Option Char) (pre rest : Str) (r : St) (hp : ∀ c ∈ pre, p c = true)
    (hstop : ∀ c, rest.head? = some c → p c = false)
    (hk : k ⟨lastOr prev pre, rest, caps⟩ = some r) :
    starLoop p k caps prev (pre ++ rest) = some r := by
  induction pre generalizing prev with
  | nil =>
    cases rest with
    | nil => simpa [starLoop] using hk
    | cons c t =>
      have hc : p c = false := hstop c rfl
      simpa [starLoop, hc] using hk
  | cons c cs ih =>
    have hc : p c = true := hp c (by simp)
    have := ih (some c) (fun d hd => hp d (by simp [hd])) (by simpa using hk)
    simp [starLoop, hc, this]

/-! ### Leftmost search -/

theorem search_cons (re : Re) (prev : Option Char) (c : Char) (t : Str) :
    re.search prev (c :: t) =
      match re.run some ⟨prev, c :: t, []⟩ with
      | some st => some ⟨[], re.subs (c :: t) st, st.rest⟩
      | none =>
        match re.search (some c) t with
        | some f => some ⟨c :: f.pre, f.sub, f.rest⟩
        | none => none := rfl

/-- The search stops at once where the pattern matches. -/
theorem search_here (re : Re) (prev : Option Char) (s : Str) (st : St)
    (h : re.run some ⟨prev, s, []⟩ = some st) :
    re.search prev s = some ⟨[], re.subs s st, st.rest⟩ := by
  cases s with
  | nil => simp [Re.search, h]
  | cons c t => simp [search_cons, h]

/-- The search skips a stretch of text at no position of which the pattern
matches. -/
theorem search_skip (re : Re) (pre s : Str) (prev : Option Char)
    (hk : ∀ u v, pre = u ++ v → v ≠ [] → re.run some ⟨lastOr prev u, v ++ s, []⟩ = none) :
    re.search prev (pre ++ s) =
      (re.search (lastOr prev pre) s).map (fun f => ⟨pre ++ f.pre, f.sub, f.rest⟩) := by
  induction pre generalizing prev with
  | nil =>
    cases h : re.search prev s with
    | none => simp [h]
    | some f => simp [h]
  | cons c cs ih =>
    have h0 := hk [] (c :: cs) rfl (by simp)
    simp only [lastOr_nil, List.cons_append] at h0
    have ih' := ih (some c) (fun u v e hv => by
      have := hk (c :: u) v (by simp [e]) hv
      simpa using this)
    rw [List.cons_append, search_cons, h0]
    simp only [ih', lastOr_cons]
    cases re.search (lastOr (some c) cs) s with
    | none => rfl
    | some f => rfl

/-- What a successful search found: the pattern matches where the match starts
and at no earlier position. -/
theorem search_some (re : Re) (prev : Option Char) (s : Str) (f : Found)
    (h : re.search prev s = some f) :
    ∃ s' st, s = f.pre ++ s' ∧ re.run some ⟨lastOr prev f.pre, s', []⟩ = some st ∧
      f.sub = re.subs s' st ∧ f.rest = st.rest ∧
      ∀ u v, f.pre = u ++ v → v ≠ [] → re.run some ⟨lastOr prev u, v ++ s', []⟩ = none := by
  induction s generalizing prev f with
  | nil =>
    simp only [Re.search] at h
    cases hr : re.run some ⟨prev, [], []⟩ with
    | none => simp [hr] at h
    | some st =>
      simp only [hr, Option.some.injEq] at h
      subst h
      refine ⟨[], st, rfl, hr, rfl, rfl, ?_⟩
      intro u v e hv
      have : v = [] := by
        have := congrArg List.length e
        simp at this
        exact List.eq_nil_of_length_eq_zero (by omega)
      exact absurd this hv
  | cons c t ih =>
    rw [search_cons] at h
    cases hr : re.run some ⟨prev, c :: t, []⟩ with
    | some st =>
      simp only [hr, Option.some.injEq] at h
      subst h
      refine ⟨c :: t, st, rfl, hr, rfl, rfl, ?_⟩
      intro u v e hv
      have : v = [] := by
        have := congrArg List.length e
        simp at this
        exact List.eq_nil_of_length_eq_zero (by omega)
      exact absurd this hv
    | none =>
      simp only [hr] at h
      cases hs : re.search (some c) t with
      | none => simp [hs] at h
      | some g =>
        simp only [hs, Option.some.injEq] at h
        subst h
        obtain ⟨s', st, e, hrun, hsub, hrest, hmin⟩ := ih (some c) g hs
        refine ⟨s', st, by simp [e], by simpa using hrun, hsub, hrest, ?_⟩
        intro u v e' hv
        cases u with
        | nil =>
          simp only [List.nil_append] at e'
          subst e'
          simpa [e] using hr
        | cons d u' =>
          simp only [List.cons_append, List.cons.injEq] at e'
          obtain ⟨rfl, e'⟩ := e'
          simpa using hmin u' v e' hv

/-- The search fails when the pattern matches at no position. -/
theorem search_none (re : Re) (prev : Option Char) (s : Str)
    (hk : ∀ u v, s = u ++ v → re.run some ⟨lastOr prev u, v, []⟩ = none) :
    re.search prev s = none := by
  induction s generalizing prev with
  | nil =>
    have := hk [] [] rfl
    simp only [lastOr_nil] at this
    simp [Re.search, this]
  | cons c t ih =>
    have h0 := hk [] (c :: t) rfl
    simp only [lastOr_nil] at h0
    have ih' := ih (some c) (fun u v e => by
      have := hk (c :: u) v (by simp [e])
      simpa using this)
    rw [search_cons, h0]
    simp [ih']

@[simp] theorem numSubexp_lit (L : Str) : (Re.lit L).numSubexp = 0 := by
  induction L with
  | nil => rfl
  | cons c cs ih => simp [Re.lit, Re.numSubexp, ih]

/-! ### Occurrences -/

theorem noOcc_nil (L y : Str) : NoOcc L [] y := by
  intro u v e hv
  have : v = [] := by
    have := congrArg List.length e
    simp at this
    exact List.eq_nil_of_length_eq_zero (by omega)
  exact absurd this hv

theorem noOcc_cons (L : Str) (c : Char) (x y : Str) :
    NoOcc L (c :: x) y ↔ ¬ L <+: c :: (x ++ y) ∧ NoOcc L x y := by
  constructor
  · intro h
    refine ⟨by simpa using h [] (c :: x) rfl (by simp), ?_⟩
    intro u v e hv
    exact h (c :: u) v (by simp [e]) hv
  · rintro ⟨h0, h⟩ u v e hv
    cases u with
    | nil =>
      simp only [List.nil_append] at e
      subst e
      simpa using h0
    | cons d u' =>
      simp only [List.cons_append, List.cons.injEq] at e
      exact h u' v e.2 hv

theorem noOcc_append (L x x' y : Str) :
    NoOcc L (x ++ x') y ↔ NoOcc L x (x' ++ y) ∧ NoOcc L x' y := by
  induction x with
  | nil => simp [noOcc_nil]
  | cons c cs ih =>
    rw [List.cons_append, noOcc_cons, noOcc_cons, ih]
    simp [and_assoc]

/-- A text without `L` holds no start of an occurrence of `L`, provided the
character that follows it does not occur in `L` after its first character. -/
theorem noOcc_of_absent (L x y : Str) (hx : ¬ L <:+: x)
    (hy : ∀ c, y.head? = some c → c ∉ L.tail) : NoOcc L x y := by
  intro u v e hv hpre
  obtain ⟨w, hw⟩ := hpre
  -- either `L` lies inside `v`, or it runs over the boundary
  rcases Nat.lt_or_ge v.length L.length with hlt | hge
  · -- `L = v ++ z` with `z` a non-empty prefix of `y`
    have hvL : v <+: L :=
      List.prefix_of_prefix_length_le (List.prefix_append v y) ⟨w, hw⟩ (by omega)
    obtain ⟨z, hz⟩ := hvL
    rw [← hz, List.append_assoc] at hw
    have hzy : z ++ w = y := List.append_cancel_left hw
    have hzne : z ≠ [] := by
      intro h0
      rw [h0, List.append_nil] at hz
      rw [hz] at hlt
      omega
    cases z with
    | nil => exact absurd rfl hzne
    | cons d z' =>
      have hd : y.head? = some d := by rw [← hzy]; rfl
      apply hy d hd
      cases v with
      | nil => exact absurd rfl hv
      | cons c v' =>
        rw [← hz]
        simp
  · have hLv : L <+: v :=
      List.prefix_of_prefix_length_le ⟨w, hw⟩ (List.prefix_append v y) (by omega)
    obtain ⟨z, hz⟩ := hLv
    exact hx ⟨u, z, by rw [e, ← hz, List.append_assoc]⟩

/-! ### Patterns of the shape `o(.*?)c` -/

theorem isDot_of_not_mem (s : Str) (h : '\n' ∉ s) : ∀ c ∈ s, isDot c = true := by
  intro c hc
  have : c ≠ '\n' := fun e => h (e ▸ hc)
  simp [isDot, this]

theorem not_mem_of_isDot (s : Str) (h : ∀ c ∈ s, isDot c = true) : '\n' ∉ s := by
  intro hm
  have := h _ hm
  simp [isDot] at this

theorem take_length_sub (a b : Str) : (a ++ b).take ((a ++ b).length - b.length) = a := by
  have : (a ++ b).length - b.length = a.length := by simp
  rw [this, List.take_left']
  rfl

/-- `o(.*?)c` at the start of `o ++ mid ++ c ++ post`: group 1 is `mid` when `mid`
holds no line break and no earlier occurrence of `c`. -/
theorem run_between (o c : Str) (k : St → Option St) (prev : Option Char) (mid post : Str)
    (caps : List (Nat × Str)) (r : St) (hmid : '\n' ∉ mid) (hc : NoOcc c mid (c ++ post))
    (hk : k ⟨lastOr prev (o ++ mid ++ c), post, (1, mid) :: caps⟩ = some r) :
    (Re.cat [.lit o, .group 1 (.lazyStar isDot), .lit c]).run k
      ⟨prev, o ++ mid ++ c ++ post, caps⟩ = some r := by
  simp only [Re.cat, run_seq, run_eps, run_group, run_lazyStar]
  rw [List.append_assoc, List.append_assoc, run_lit_append]
  rw [lazyLoop_skip _ _ _ mid (c ++ post) _ (isDot_of_not_mem mid hmid)]
  · apply lazyLoop_here
    simp only []
    rw [run_lit_append, take_length_sub]
    rw [← hk]
    simp [lastOr_append]
  · intro u v e hv
    exact run_lit_none _ _ _ _ _ (hc u v e hv)

/-- `o(.*?)c` fails where the text does not start with `o`. -/
theorem run_between_none (o c : Str) (k : St → Option St) (prev : Option Char) (s : Str)
    (caps : List (Nat × Str)) (h : ¬ o <+: s) :
    (Re.cat [.lit o, .group 1 (.lazyStar isDot), .lit c]).run k ⟨prev, s, caps⟩ = none := by
  simp only [Re.cat, run_seq]
  exact run_lit_none _ _ _ _ _ h

/-- What a match of `o(.*?)c` consumed. -/
theorem run_between_some (o c : Str) (k : St → Option St) (prev : Option Char) (s : Str)
    (caps : List (Nat × Str)) (r : St)
    (h : (Re.cat [.lit o, .group 1 (.lazyStar isDot), .lit c]).run k ⟨prev, s, caps⟩
      = some r) :
    ∃ mid post, s = o ++ mid ++ c ++ post ∧ '\n' ∉ mid ∧
      k ⟨lastOr prev (o ++ mid ++ c), post, (1, mid) :: caps⟩ = some r := by
  simp only [Re.cat, run_seq, run_eps, run_group, run_lazyStar] at h
  obtain ⟨t, rfl, h1⟩ := run_lit_some _ _ _ _ _ _ h
  simp only [] at h1
  obtain ⟨mid, rest, rfl, hdot, h2, -⟩ := lazyLoop_some _ _ _ _ _ _ h1
  simp only [] at h2
  obtain ⟨post, rfl, h3⟩ := run_lit_some _ _ _ _ _ _ h2
  refine ⟨mid, post, by simp, not_mem_of_isDot mid hdot, ?_⟩
  rw [← h3, take_length_sub]
  simp [lastOr_append]

theorem numSubexp_between (o c : Str) :
    (Re.cat [.lit o, .group 1 (.lazyStar isDot), .lit c]).numSubexp = 1 := by
  simp [Re.cat, Re.numSubexp]

/-- Leftmost match of `o(.*?)c`: the first `o`, then the text up to the nearest
`c`. -/
theorem search_between (o c : Str) (prev : Option Char) (pre mid post : Str)
    (ho : NoOcc o pre (o ++ mid ++ c ++ post)) (hmid : '\n' ∉ mid)
    (hc : NoOcc c mid (c ++ post)) :
    (Re.cat [.lit o, .group 1 (.lazyStar isDot), .lit c]).search prev
      (pre ++ (o ++ mid ++ c ++ post)) = some ⟨pre, [o ++ mid ++ c, mid], post⟩ := by
  rw [search_skip]
  · rw [search_here _ _ _ _ (run_between o c some _ mid post [] _ hmid hc rfl)]
    simp only [Option.map_some', List.append_nil, Re.subs, numSubexp_between]
    rw [take_length_sub]
    rfl
  · intro u v e hv
    exact run_between_none _ _ _ _ _ _ (ho u v e hv)

/-- A successful search for `o(.*?)c` found `o`, a stretch without line break
and `c`. -/
theorem search_between_some (o c : Str) (prev : Option Char) (s : Str) (f : Found)
    (h : (Re.cat [.lit o, .group 1 (.lazyStar isDot), .lit c]).search prev s = some f) :
    ∃ mid, s = f.pre ++ (o ++ mid ++ c ++ f.rest) ∧ '\n' ∉ mid ∧
      f.sub = [o ++ mid ++ c, mid] := by
  obtain ⟨s', st, e, hrun, hsub, hrest, -⟩ := search_some _ _ _ _ h
  obtain ⟨mid, post, rfl, hmid, hk⟩ := run_between_some _ _ _ _ _ _ _ hrun
  simp only [Option.some.injEq] at hk
  subst hk
  simp only at hrest
  refine ⟨mid, by rw [e, hrest], hmid, ?_⟩
  rw [hsub]
  simp only [Re.subs, numSubexp_between]
  rw [take_length_sub]
  rfl

/-- The search for `o(.*?)c` fails on a text in which no `o` is followed, before
the next line break, by `c`. -/
theorem search_between_none (o c : Str) (prev : Option Char) (s : Str)
    (h : ¬ ∃ pre mid post, s = pre ++ (o ++ mid ++ c ++ post) ∧ '\n' ∉ mid) :
    (Re.cat [.lit o, .group 1 (.lazyStar isDot), .lit c]).search prev s = none := by
  cases hs : (Re.cat [.lit o, .group 1 (.lazyStar isDot), .lit c]).search prev s with
  | none => rfl
  | some f =>
    obtain ⟨mid, e, hmid, -⟩ := search_between_some o c prev s f hs
    exact absurd ⟨f.pre, mid, f.rest, e, hmid⟩ h

/-! ### Patterns of the shape `(o)(.*?)(c)` -/

/-- `(o)(.*?)(c)` at the start of `o ++ mid ++ c ++ post`: the groups are `o`, `mid`
and `c` when `mid` holds no line break and no earlier occurrence of `c`. -/
theorem run_groups3 (o c : Str) (k : St → Option St) (prev : Option Char) (mid post : Str)
    (caps : List (Nat × Str)) (r : St) (hmid : '\n' ∉ mid) (hc : NoOcc c mid (c ++ post))
    (hk : k ⟨lastOr prev (o ++ mid ++ c), post, (3, c) :: (2, mid) :: (1, o) :: caps⟩
      = some r) :
    (Re.cat [.group 1 (.lit o), .group 2 (.lazyStar isDot), .group 3 (.lit c)]).run k
      ⟨prev, o ++ mid ++ c ++ post, caps⟩ = some r := by
  simp only [Re.cat, run_seq, run_eps, run_group, run_lazyStar]
  rw [List.append_assoc, List.append_assoc, run_lit_append]
  simp only []
  rw [lazyLoop_skip _ _ _ mid (c ++ post) _ (isDot_of_not_mem mid hmid)]
  · apply lazyLoop_here
    simp only []
    rw [run_lit_append, take_length_sub, take_length_sub, take_length_sub]
    rw [← hk]
    simp [lastOr_append]
  · intro u v e hv
    exact run_lit_none _ _ _ _ _ (hc u v e hv)

/-- `(o)(.*?)(c)` fails where the text does not start with `o`. -/
theorem run_groups3_none (o c : Str) (k : St → Option St) (prev : Option Char) (s : Str)
    (caps : List (Nat × Str)) (h : ¬ o <+: s) :
    (Re.cat [.group 1 (.lit o), .group 2 (.lazyStar isDot), .group 3 (.lit c)]).run k
      ⟨prev, s, caps⟩ = none := by
  simp only [Re.cat, run_seq, run_group]
  exact run_lit_none _ _ _ _ _ h

/-- What a match of `(o)(.*?)(c)` consumed. -/
theorem run_groups3_some (o c : Str) (k : St → Option St) (prev : Option Char) (s : Str)
    (caps : List (Nat × Str)) (r : St)
    (h : (Re.cat [.group 1 (.lit o), .group 2 (.lazyStar isDot), .group 3 (.lit c)]).run k
      ⟨prev, s, caps⟩ = some r) :
    ∃ mid post, s = o ++ mid ++ c ++ post ∧ '\n' ∉ mid ∧
      k ⟨lastOr prev (o ++ mid ++ c), post, (3, c) :: (2, mid) :: (1, o) :: caps⟩
        = some r := by
  simp only [Re.cat, run_seq, run_eps, run_group, run_lazyStar] at h
  obtain ⟨t, rfl, h1⟩ := run_lit_some _ _ _ _ _ _ h
  simp only [] at h1
  obtain ⟨mid, rest, rfl, hdot, h2, -⟩ := lazyLoop_some _ _ _ _ _ _ h1
  simp only [] at h2
  obtain ⟨post, rfl, h3⟩ := run_lit_some _ _ _ _ _ _ h2
  refine ⟨mid, post, by simp, not_mem_of_isDot mid hdot, ?_⟩
  rw [← h3, take_length_sub, take_length_sub, take_length_sub]
  simp [lastOr_append]

theorem numSubexp_groups3 (o c : Str) :
    (Re.cat [.group 1 (.lit o), .group 2 (.lazyStar isDot), .group 3 (.lit c)]).numSubexp
      = 3 := by
  simp [Re.cat, Re.numSubexp]

/-- Leftmost match of `(o)(.*?)(c)`. -/
theorem search_groups3 (o c : Str) (prev : Option Char) (pre mid post : Str)
    (ho : NoOcc o pre (o ++ mid ++ c ++ post)) (hmid : '\n' ∉ mid)
    (hc : NoOcc c mid (c ++ post)) :
    (Re.cat [.group 1 (.lit o), .group 2 (.lazyStar isDot), .group 3 (.lit c)]).search prev
      (pre ++ (o ++ mid ++ c ++ post)) = some ⟨pre, [o ++ mid ++ c, o, mid, c], post⟩ := by
  rw [search_skip]
  · rw [search_here _ _ _ _ (run_groups3 o c some _ mid post [] _ hmid hc rfl)]
    simp only [Option.map_some', List.append_nil, Re.subs, numSubexp_groups3]
    rw [take_length_sub]
    rfl
  · intro u v e hv
    exact run_groups3_none _ _ _ _ _ _ (ho u v e hv)

/-- A successful search for `(o)(.*?)(c)` found `o`, a stretch without line break
and `c`. -/
theorem search_groups3_some (o c : Str) (prev : Option Char) (s : Str) (f : Found)
    (h : (Re.cat [.group 1 (.lit o), .group 2 (.lazyStar isDot), .group 3 (.lit c)]).search
      prev s = some f) :
    ∃ mid, s = f.pre ++ (o ++ mid ++ c ++ f.rest) ∧ '\n' ∉ mid ∧
      f.sub = [o ++ mid ++ c, o, mid, c] := by
  obtain ⟨s', st, e, hrun, hsub, hrest, -⟩ := search_some _ _ _ _ h
  obtain ⟨mid, post, rfl, hmid, hk⟩ := run_groups3_some _ _ _ _ _ _ _ hrun
  simp only [Option.some.injEq] at hk
  subst hk
  simp only at hrest
  refine ⟨mid, by rw [e, hrest], hmid, ?_⟩
  rw [hsub]
  simp only [Re.subs, numSubexp_groups3]
  rw [take_length_sub]
  rfl

/-- The search for `(o)(.*?)(c)` fails on a text without `o`. -/
theorem search_groups3_none (o c : Str) (prev : Option Char) (s : Str) (h : ¬ o <:+: s) :
    (Re.cat [.group 1 (.lit o), .group 2 (.lazyStar isDot), .group 3 (.lit c)]).search
      prev s = none := by
  apply search_none
  intro u v e
  apply run_groups3_none
  rintro ⟨w, hw⟩
  exact h ⟨u, w, by rw [e, ← hw, List.append_assoc]⟩

/-- The search for `o(.*?)c` fails on a text without `o`. -/
theorem search_between_none_of_absent (o c : Str) (prev : Option Char) (s : Str)
    (h : ¬ o <:+: s) :
    (Re.cat [.lit o, .group 1 (.lazyStar isDot), .lit c]).search prev s = none := by
  apply search_none
  intro u v e
  apply run_between_none
  rintro ⟨w, hw⟩
  exact h ⟨u, w, by rw [e, ← hw, List.append_assoc]⟩

/-! ### Patterns of the shape `(.*?)o(?:.*)(c)` -/

/-- What a match of `(.*?)o(?:.*)(c)` consumed: group 1 is the text before an
`o`, group 2 is `c`. -/
theorem run_headTail_some (o c : Str) (prev : Option Char) (s : Str) (r : St)
    (h : (Re.cat [.group 1 (.lazyStar isDot), .lit o, .star isDot, .group 2 (.lit c)]).run
      some ⟨prev, s, []⟩ = some r) :
    ∃ H X, s = H ++ o ++ X ++ c ++ r.rest ∧ '\n' ∉ H ∧ '\n' ∉ X ∧
      r.caps = [(2, c), (1, H)] := by
  simp only [Re.cat, run_seq, run_eps, run_group, run_lazyStar, run_star] at h
  obtain ⟨H, rest, rfl, hH, h1, -⟩ := lazyLoop_some _ _ _ _ _ _ h
  simp only [] at h1
  obtain ⟨t, rfl, h2⟩ := run_lit_some _ _ _ _ _ _ h1
  simp only [] at h2
  obtain ⟨X, rest', rfl, hX, h3⟩ := starLoop_some _ _ _ _ _ _ h2
  simp only [] at h3
  obtain ⟨Y, rfl, h4⟩ := run_lit_some _ _ _ _ _ _ h3
  simp only [Option.some.injEq] at h4
  subst h4
  refine ⟨H, X, by simp, not_mem_of_isDot H hH, not_mem_of_isDot X hX, ?_⟩
  simp only [take_length_sub]

/-- `(.*?)o(?:.*)(c)` matches at the start of a line that holds an `o` and, later,
a `c`; group 1 is the text before the first `o`. -/
theorem run_headTail (o c : Str) (prev : Option Char) (H X Y : Str) (hH : '\n' ∉ H)
    (hX : '\n' ∉ X) (ho : NoOcc o H (o ++ X ++ c ++ Y)) :
    ∃ r, (Re.cat [.group 1 (.lazyStar isDot), .lit o, .star isDot, .group 2 (.lit c)]).run
      some ⟨prev, H ++ (o ++ X ++ c ++ Y), []⟩ = some r ∧ r.caps = [(2, c), (1, H)] := by
  simp only [Re.cat, run_seq, run_eps, run_group, run_lazyStar, run_star]
  rw [lazyLoop_skip _ _ _ H _ _ (isDot_of_not_mem H hH)]
  · -- after the head: the literal, then the greedy repetition
    have hstar := starLoop_isSome isDot
      (fun st3 => (Re.lit c).run (fun st4 => some ⟨st4.prev, st4.rest,
        (2, st3.rest.take (st3.rest.length - st4.rest.length)) :: st4.caps⟩) st3)
      [(1, H)] (lastOr (lastOr prev H) o) X (c ++ Y)
      ⟨lastOr (lastOr (lastOr (lastOr prev H) o) X) c, Y, [(2, c), (1, H)]⟩
      (isDot_of_not_mem X hX)
      (by simp only []; rw [run_lit_append, take_length_sub])
    obtain ⟨r, hr⟩ := hstar
    refine ⟨r, ?_, ?_⟩
    · apply lazyLoop_here
      simp only []
      rw [List.append_assoc, List.append_assoc, run_lit_append, take_length_sub]
      simp only []
      rw [← hr]
    · obtain ⟨X', rest', -, -, h3⟩ := starLoop_some _ _ _ _ _ _ hr
      simp only [] at h3
      obtain ⟨Y', rfl, h4⟩ := run_lit_some _ _ _ _ _ _ h3
      simp only [Option.some.injEq] at h4
      subst h4
      simp only [take_length_sub]
  · intro u v e hv
    simp only []
    exact run_lit_none _ _ _ _ _ (ho u v e hv)

theorem numSubexp_headTail (o c : Str) :
    (Re.cat [.group 1 (.lazyStar isDot), .lit o, .star isDot, .group 2 (.lit c)]).numSubexp
      = 2 := by
  simp [Re.cat, Re.numSubexp]

/-- `FindSubmatch` for `(.*?)o(?:.*)(c)` on a line that holds an `o` and, later, a
`c`: the text before the first `o`, and `c`. -/
theorem findSubmatch_headTail (o c : Str) (H X Y : Str) (hH : '\n' ∉ H) (hX : '\n' ∉ X)
    (ho : NoOcc o H (o ++ X ++ c ++ Y)) :
    ∃ w, (Re.cat [.group 1 (.lazyStar isDot), .lit o, .star isDot,
      .group 2 (.lit c)]).FindSubmatch (H ++ (o ++ X ++ c ++ Y)) = [w, H, c] := by
  obtain ⟨r, hr, hcaps⟩ := run_headTail o c none H X Y hH hX ho
  refine ⟨(H ++ (o ++ X ++ c ++ Y)).take ((H ++ (o ++ X ++ c ++ Y)).length - r.rest.length), ?_⟩
  simp only [Re.FindSubmatch, search_here _ _ _ _ hr, Re.subs, numSubexp_headTail, hcaps]
  rfl

/-- A match of `(.*?)o(?:.*)(c)` found by `FindSubmatch` has the text before some
`o` as group 1 and `c` as group 2; without a match the result is empty. -/
theorem findSubmatch_headTail_cases (o c : Str) (s : Str) :
    (Re.cat [.group 1 (.lazyStar isDot), .lit o, .star isDot,
      .group 2 (.lit c)]).FindSubmatch s = [] ∨
    ∃ w pre H X Y, s = pre ++ (H ++ o ++ X ++ c ++ Y) ∧ '\n' ∉ H ∧ '\n' ∉ X ∧
      (Re.cat [.group 1 (.lazyStar isDot), .lit o, .star isDot,
        .group 2 (.lit c)]).FindSubmatch s = [w, H, c] := by
  unfold Re.FindSubmatch
  cases hs : (Re.cat [.group 1 (.lazyStar isDot), .lit o, .star isDot,
      .group 2 (.lit c)]).search none s with
  | none => exact Or.inl rfl
  | some f =>
    right
    obtain ⟨s', st, e, hrun, hsub, hrest, -⟩ := search_some _ _ _ _ hs
    obtain ⟨H, X, e', hH, hX, hcaps⟩ := run_headTail_some _ _ _ _ _ hrun
    refine ⟨s'.take (s'.length - st.rest.length), f.pre, H, X, st.rest, by rw [e, e'],
      hH, hX, ?_⟩
    simp only [hsub, Re.subs, numSubexp_headTail, hcaps]
    rfl

/-! ### Templates and the replacement loops -/

/-- A template without `$` is copied as it is. -/
theorem expand_of_no_dollar (uni : Char → Bool) (sub : List Str) (template : Str)
    (h : '$' ∉ template) : expand uni sub template = template := by
  simp [expand, expandLoop, cut_of_not_mem '$' template h]

theorem replaceAllLoop_succ (re : Re) (uni : Char → Bool) (repl : Str) (fuel : Nat)
    (prev : Option Char) (s : Str) :
    re.replaceAllLoop uni repl (fuel + 1) prev s =
      match re.search prev s with
      | none => s
      | some f =>
        if f.sub.headD [] = [] then s
        else f.pre ++ expand uni f.sub repl ++
          re.replaceAllLoop uni repl fuel (lastOr prev (f.pre ++ f.sub.headD [])) f.rest :=
  rfl

theorem findAllLoop_succ (re : Re) (fuel : Nat) (prev : Option Char) (s : Str) :
    re.findAllLoop (fuel + 1) prev s =
      match re.search prev s with
      | none => []
      | some f =>
        if f.sub.headD [] = [] then []
        else f.sub :: re.findAllLoop fuel (lastOr prev (f.pre ++ f.sub.headD [])) f.rest :=
  rfl

/-- `ReplaceAll` for `(o)(.*?)(c)` on a text with a single `o`: the one match is
replaced by the expanded template. -/
theorem replaceAll_groups3_once (o c : Str) (uni : Char → Bool) (repl pre mid post : Str)
    (hne : o ≠ []) (ho : NoOcc o pre (o ++ mid ++ c ++ post)) (hmid : '\n' ∉ mid)
    (hc : NoOcc c mid (c ++ post)) (hpost : ¬ o <:+: post) :
    (Re.cat [.group 1 (.lit o), .group 2 (.lazyStar isDot), .group 3 (.lit c)]).ReplaceAll
      uni (pre ++ (o ++ mid ++ c ++ post)) repl
      = pre ++ expand uni [o ++ mid ++ c, o, mid, c] repl ++ post := by
  have hlen : (pre ++ (o ++ mid ++ c ++ post)).length + 1
      = (pre.length + mid.length + c.length + post.length + (o.length - 1)) + 1 + 1 := by
    have : 0 < o.length := List.length_pos.mpr hne
    simp only [List.length_append]
    omega
  unfold Re.ReplaceAll
  rw [hlen, replaceAllLoop_succ, search_groups3 o c none pre mid post ho hmid hc]
  have hhead : ¬ (o ++ mid ++ c = []) := by
    intro h
    simp only [List.append_eq_nil] at h
    exact hne h.1.1
  simp only [List.headD_cons, hhead, if_false]
  rw [replaceAllLoop_succ, search_groups3_none o c _ post hpost]

/-- `FindAllSubmatch` loop for `o(.*?)c` on a run of adjacent `o m c` fragments
after a stretch without `o`: one match per fragment, in order. -/
theorem findAllLoop_between (o c : Str) (hne : o ≠ [])
    (hhead : ∀ d, o.head? = some d → d ∉ o.tail) (mids : List Str)
    (hm : ∀ m ∈ mids, '\n' ∉ m ∧ ∀ post, NoOcc c m (c ++ post)) (x : Str)
    (hx : ¬ o <:+: x) (prev : Option Char) (fuel : Nat) (hfuel : mids.length < fuel) :
    (Re.cat [.lit o, .group 1 (.lazyStar isDot), .lit c]).findAllLoop fuel prev
      (x ++ (mids.map (fun m => o ++ m ++ c)).flatten)
      = mids.map (fun m => [o ++ m ++ c, m]) := by
  induction mids generalizing x prev fuel with
  | nil =>
    obtain ⟨n, rfl⟩ : ∃ n, fuel = n + 1 := ⟨fuel - 1, by omega⟩
    simp only [List.map_nil, List.flatten_nil, List.append_nil]
    rw [findAllLoop_succ, search_between_none_of_absent o c prev x hx]
  | cons m ms ih =>
    obtain ⟨n, rfl⟩ : ∃ n, fuel = n + 1 := ⟨fuel - 1, by omega⟩
    have hm0 := hm m (by simp)
    have htext : x ++ ((m :: ms).map (fun m => o ++ m ++ c)).flatten
        = x ++ (o ++ m ++ c ++ (ms.map (fun m => o ++ m ++ c)).flatten) := by
      simp
    have hocc : NoOcc o x (o ++ m ++ c ++ (ms.map (fun m => o ++ m ++ c)).flatten) := by
      apply noOcc_of_absent _ _ _ hx
      intro d hd
      apply hhead d
      cases o with
      | nil => exact absurd rfl hne
      | cons e o' => simpa using hd
    rw [htext, findAllLoop_succ, search_between o c prev x m _ hocc hm0.1 (hm0.2 _)]
    have hhd : ¬ (o ++ m ++ c = []) := by
      intro h
      simp only [List.append_eq_nil] at h
      exact hne h.1.1
    simp only [List.headD_cons, hhd, if_false, List.map_cons]
    have := ih (fun m' hm' => hm m' (by simp [hm'])) [] (by
        intro h
        exact hne (List.infix_nil.mp h))
      (lastOr prev (x ++ (o ++ m ++ c))) n (by simp only [List.length_cons] at hfuel; omega)
    simp only [List.nil_append] at this
    rw [this]

/-! ### Occurrences of the markers in a well-formed feed -/

theorem not_infix_append_of_noOcc (L x y : Str) (hx : NoOcc L x y) (hy : ¬ L <:+: y) :
    ¬ L <:+: x ++ y := by
  induction x with
  | nil => simpa using hy
  | cons c cs ih =>
    rw [noOcc_cons] at hx
    rw [List.cons_append, List.infix_cons_iff]
    rintro (h | h)
    · exact hx.1 h
    · exact ih hx.2 h

theorem not_infix_append (L x y : Str) (hx : ¬ L <:+: x) (hy : ¬ L <:+: y)
    (hh : ∀ d, y.head? = some d → d ∉ L.tail) : ¬ L <:+: x ++ y :=
  not_infix_append_of_noOcc L x y (noOcc_of_absent L x y hx hh) hy

theorem not_infix_flatten (L : Str) (hL : L ≠ []) (ss : List Str)
    (h : ∀ s ∈ ss, ¬ L <:+: s ∧ ∃ d t, s = d :: t ∧ d ∉ L.tail) : ¬ L <:+: ss.flatten := by
  induction ss with
  | nil =>
    intro hi
    exact hL (List.infix_nil.mp hi)
  | cons s ss ih =>
    rw [List.flatten_cons]
    apply not_infix_append L s _ (h s (by simp)).1 (ih (fun s' hs' => h s' (by simp [hs'])))
    intro d hd
    cases ss with
    | nil => simp at hd
    | cons s' ss' =>
      obtain ⟨-, d', t', rfl, hd'⟩ := h s' (by simp)
      simp only [List.flatten_cons, List.cons_append, List.head?_cons, Option.some.injEq] at hd
      exact hd ▸ hd'

theorem itemText_eq (it : Str × Str × Str) :
    itemText it = "<item>".toList ++ itemInner it ++ "</item>".toList := by
  simp [itemText, itemInner]

theorem not_mem_of_append_left {c : Char} {x y : Str} (h : c ∉ x ++ y) : c ∉ x :=
  fun hx => h (List.mem_append.mpr (Or.inl hx))

theorem not_mem_of_append_right {c : Char} {x y : Str} (h : c ∉ x ++ y) : c ∉ y :=
  fun hy => h (List.mem_append.mpr (Or.inr hy))

theorem WfItem.inner_noBreak {it : Str × Str × Str} (h : WfItem it) : '\n' ∉ itemInner it := by
  have := h.noBreak
  rw [itemText_eq] at this
  exact not_mem_of_append_right (not_mem_of_append_left this)

/-- In a well-formed item the first `</item>` after the opening tag is the closing
tag. -/
theorem WfItem.inner_noOcc {it : Str × Str × Str} (h : WfItem it) (post : Str) :
    NoOcc "</item>".toList (itemInner it) ("</item>".toList ++ post) := by
  have e : itemInner it = it.1 ++ ("<title>".toList ++ (it.2.1 ++ ("</title>".toList
      ++ it.2.2))) := by simp [itemInner]
  rw [e, noOcc_append, noOcc_append, noOcc_append, noOcc_append]
  refine ⟨?_, ?_, ?_, ?_, ?_⟩
  · exact noOcc_of_absent _ _ _ h.a_item (by simp)
  · simp [noOcc_cons, noOcc_nil]
  · exact noOcc_of_absent _ _ _ h.t_item (by simp)
  · simp [noOcc_cons, noOcc_nil]
  · exact noOcc_of_absent _ _ _ h.b_item (by simp)

/-- In a well-formed item the first `<title>` is the one after `a`. -/
theorem WfItem.title_noOcc {it : Str × Str × Str} (h : WfItem it) (post : Str) :
    NoOcc "<title>".toList ("<item>".toList ++ it.1) ("<title>".toList ++ post) := by
  rw [noOcc_append]
  refine ⟨?_, ?_⟩
  · simp [noOcc_cons, noOcc_nil]
  · exact noOcc_of_absent _ _ _ h.a_title (by simp)

/-- In a well-formed item the first `</title>` after the opening tag is the closing
tag. -/
theorem WfItem.titleEnd_noOcc {it : Str × Str × Str} (h : WfItem it) (post : Str) :
    NoOcc "</title>".toList it.2.1 ("</title>".toList ++ post) :=
  noOcc_of_absent _ _ _ h.t_title (by simp)

/-- In a well-formed item no `<title>` follows the title element. -/
theorem WfItem.after_title {it : Str × Str × Str} (h : WfItem it) :
    ¬ "<title>".toList <:+: it.2.2 ++ "</item>".toList :=
  not_infix_append _ _ _ h.b_title (by decide) (by simp)

theorem WfItem.t_noBreak {it : Str × Str × Str} (h : WfItem it) : '\n' ∉ it.2.1 := by
  have := h.noBreak
  unfold itemText at this
  exact not_mem_of_append_right (not_mem_of_append_left (not_mem_of_append_left
    (not_mem_of_append_left this)))

theorem itemText_split (it : Str × Str × Str) :
    itemText it = ("<item>".toList ++ it.1) ++ ("<title>".toList ++ it.2.1
      ++ "</title>".toList ++ (it.2.2 ++ "</item>".toList)) := by
  simp [itemText]

/-- The title element of a well-formed item, as `titlePat` finds it. -/
theorem findSubmatch_title {it : Str × Str × Str} (h : WfItem it) :
    titlePat.FindSubmatch (itemText it) =
      ["<title>".toList ++ it.2.1 ++ "</title>".toList, "<title>".toList, it.2.1,
        "</title>".toList] := by
  unfold Re.FindSubmatch titlePat
  rw [itemText_split, search_groups3 _ _ none _ _ _ (h.title_noOcc _) h.t_noBreak
    (h.titleEnd_noOcc _)]

/-- `titlePat.ReplaceAll` on a well-formed item replaces its one title element by
the expanded template. -/
theorem replaceAll_title {it : Str × Str × Str} (h : WfItem it) (uni : Char → Bool)
    (repl : Str) :
    titlePat.ReplaceAll uni (itemText it) repl =
      "<item>".toList ++ it.1 ++ expand uni ["<title>".toList ++ it.2.1 ++ "</title>".toList,
        "<title>".toList, it.2.1, "</title>".toList] repl ++ it.2.2 ++ "</item>".toList := by
  unfold titlePat
  rw [itemText_split, replaceAll_groups3_once _ _ uni repl _ _ _ (by decide)
    (h.title_noOcc _) h.t_noBreak (h.titleEnd_noOcc _) h.after_title]
  simp

/-! ### `getFullTitle` and one step of the loop -/

theorem getFullTitle_channel (r : Str) (f : Found)
    (h : fullTitleChannel.search none r = some f) :
    ∃ mid, f.sub = ["/a&gt;&lt;/p&gt;&lt;p&gt;".toList ++ mid ++ "&lt;/p&gt;".toList, mid] ∧
      getFullTitle r = some (mid, none) := by
  obtain ⟨mid, -, -, hsub⟩ := search_between_some _ _ _ _ _ h
  refine ⟨mid, hsub, ?_⟩
  simp [getFullTitle, Re.Match, Re.FindSubmatch, h, hsub]

theorem getFullTitle_board (r : Str) (f : Found)
    (hc : fullTitleChannel.search none r = none)
    (h : fullTitleBoard.search none r = some f) :
    ∃ mid, f.sub = ["&gt;&lt;/a&gt;".toList ++ mid ++ "</description>".toList, mid] ∧
      getFullTitle r = some (mid, none) := by
  obtain ⟨mid, -, -, hsub⟩ := search_between_some _ _ _ _ _ h
  refine ⟨mid, hsub, ?_⟩
  simp [getFullTitle, Re.Match, Re.FindSubmatch, h, hc, hsub]

theorem getFullTitle_neither (r : Str) (hc : fullTitleChannel.search none r = none)
    (hb : fullTitleBoard.search none r = none) : getFullTitle r = some ([], none) := by
  simp [getFullTitle, Re.Match, hc, hb]

/-- `getFullTitle` always returns, with a nil error. -/
theorem getFullTitle_eq (r : Str) : getFullTitle r = some (fullTitleOf r, none) := by
  have key : ∃ ft, getFullTitle r = some (ft, none) := by
    cases hc : fullTitleChannel.search none r with
    | some f =>
      obtain ⟨mid, -, h⟩ := getFullTitle_channel r f hc
      exact ⟨mid, h⟩
    | none =>
      cases hb : fullTitleBoard.search none r with
      | some f =>
        obtain ⟨mid, -, h⟩ := getFullTitle_board r f hc hb
        exact ⟨mid, h⟩
      | none => exact ⟨[], getFullTitle_neither r hc hb⟩
  obtain ⟨ft, h⟩ := key
  simp [fullTitleOf, h]

/-- One step of the loop of `replaceTitles` on a well-formed item. -/
theorem replaceTitlesStep_wf (uni : Char → Bool) (buf : Str) {it : Str × Str × Str}
    (h : WfItem it) :
    replaceTitlesStep uni buf [itemText it, itemInner it] = some (buf ++ rewriteItem uni it) := by
  simp [replaceTitlesStep, getFullTitle_eq, findSubmatch_title h, replaceAll_title h,
    rewriteItem]

theorem foldlM_replaceTitlesStep (uni : Char → Bool) (items : List (Str × Str × Str))
    (hI : ∀ it ∈ items, WfItem it) (buf : Str) :
    (items.map (fun it => [itemText it, itemInner it])).foldlM (replaceTitlesStep uni) buf
      = some (buf ++ (items.map (rewriteItem uni)).flatten) := by
  induction items generalizing buf with
  | nil => simp
  | cons it items ih =>
    simp only [List.map_cons, List.foldlM_cons, replaceTitlesStep_wf uni buf (hI it (by simp))]
    simp only [Option.bind_eq_bind, Option.some_bind]
    rw [ih (fun it' h' => hI it' (by simp [h']))]
    simp

/-! ### The three searches of `replaceTitles` on a well-formed feed -/

/-- The first occurrence of a text that occurs. -/
theorem exists_first_occurrence (L s : Str) (h : L <:+: s) :
    ∃ x y, s = x ++ L ++ y ∧ ∀ z, NoOcc L x (L ++ z) := by
  induction s with
  | nil =>
    have := List.infix_nil.mp h
    subst this
    exact ⟨[], [], rfl, fun z => noOcc_nil _ _⟩
  | cons c t ih =>
    by_cases hp : L <+: c :: t
    · obtain ⟨y, hy⟩ := hp
      exact ⟨[], y, by simp [hy], fun z => noOcc_nil _ _⟩
    · have ht : L <:+: t := by
        rcases List.infix_cons_iff.mp h with h' | h'
        · exact absurd h' hp
        · exact h'
      obtain ⟨x, y, e, hx⟩ := ih ht
      refine ⟨c :: x, y, by simp [e], fun z => ?_⟩
      rw [noOcc_cons]
      refine ⟨?_, hx z⟩
      intro hpre
      apply hp
      have h2 : c :: (x ++ L) <+: c :: (x ++ (L ++ z)) := ⟨z, by simp⟩
      have h1 : L <+: c :: (x ++ L) :=
        List.prefix_of_prefix_length_le hpre h2
          (by simp only [List.length_cons, List.length_append]; omega)
      rw [e]
      exact h1.trans ⟨y, by simp⟩

theorem itemText_head (it : Str × Str × Str) :
    ∃ t, itemText it = '<' :: t := ⟨_, rfl⟩

theorem length_le_flatten_items (items : List (Str × Str × Str)) :
    items.length ≤ ((items.map itemText).flatten).length := by
  induction items with
  | nil => simp
  | cons it items ih =>
    obtain ⟨t, ht⟩ := itemText_head it
    simp only [List.map_cons, List.flatten_cons, List.length_append, List.length_cons, ht]
    omega

theorem not_mem_flatten_items (items : List (Str × Str × Str))
    (hI : ∀ it ∈ items, WfItem it) : '\n' ∉ (items.map itemText).flatten := by
  intro h
  obtain ⟨s, hs, hc⟩ := List.mem_flatten.mp h
  obtain ⟨it, hit, rfl⟩ := List.mem_map.mp hs
  exact (hI it hit).noBreak hc

theorem not_channel_flatten_items (items : List (Str × Str × Str))
    (hI : ∀ it ∈ items, WfItem it) :
    ¬ "</channel>".toList <:+: (items.map itemText).flatten := by
  apply not_infix_flatten _ (by decide)
  intro s hs
  obtain ⟨it, hit, rfl⟩ := List.mem_map.mp hs
  refine ⟨(hI it hit).noChannel, ?_⟩
  obtain ⟨t, ht⟩ := itemText_head it
  exact ⟨'<', t, ht, by decide⟩

theorem flatten_items_eq (items : List (Str × Str × Str)) :
    (items.map itemText).flatten =
      ((items.map itemInner).map
        (fun m => "<item>".toList ++ m ++ "</item>".toList)).flatten := by
  rw [List.map_map]
  congr 1

/-- `itemPat` finds the items of a well-formed run of items, one by one. -/
theorem findAll_items (x : Str) (hx : ¬ "<item>".toList <:+: x)
    (items : List (Str × Str × Str)) (hI : ∀ it ∈ items, WfItem it) :
    itemPat.FindAllSubmatch (x ++ (items.map itemText).flatten)
      = items.map (fun it => [itemText it, itemInner it]) := by
  have hm : ∀ m ∈ items.map itemInner,
      '\n' ∉ m ∧ ∀ post, NoOcc "</item>".toList m ("</item>".toList ++ post) := by
    intro m hm
    obtain ⟨it, hit, rfl⟩ := List.mem_map.mp hm
    exact ⟨(hI it hit).inner_noBreak, (hI it hit).inner_noOcc⟩
  have hfuel : (items.map itemInner).length
      < (x ++ (items.map itemText).flatten).length + 1 := by
    have := length_le_flatten_items items
    simp only [List.length_map, List.length_append]
    omega
  have key := findAllLoop_between "<item>".toList "</item>".toList (by decide) (by decide)
    (items.map itemInner) hm x hx none _ hfuel
  rw [← flatten_items_eq] at key
  unfold Re.FindAllSubmatch itemPat
  simp only [Re.cat] at key ⊢
  rw [key, List.map_map]
  apply List.map_congr_left
  intro it _
  simp [itemText_eq]

theorem not_infix_of_append_right {L x y : Str} (h : ¬ L <:+: x ++ y) : ¬ L <:+: y := by
  rintro ⟨u, v, e⟩
  exact h ⟨x ++ u, v, by rw [← e]; simp⟩

theorem not_infix_of_append_left {L x y : Str} (h : ¬ L <:+: x ++ y) : ¬ L <:+: x := by
  rintro ⟨u, v, e⟩
  exact h ⟨u, v ++ y, by rw [← e]; simp⟩

/-- `feedPat` on a well-formed feed: the head and the closing marker. -/
theorem findSubmatch_feed (H : Str) (items : List (Str × Str × Str)) (hN : items ≠ [])
    (hH : WfHead H) (hI : ∀ it ∈ items, WfItem it) :
    ∃ w, feedPat.FindSubmatch (feedText H items) = [w, H, "</channel></rss>".toList] := by
  cases items with
  | nil => exact absurd rfl hN
  | cons it rest =>
    have e : feedText H (it :: rest) = H ++ ("<item>".toList
        ++ (itemInner it ++ "</item>".toList ++ (rest.map itemText).flatten)
        ++ "</channel></rss>".toList ++ []) := by
      simp [feedText, itemText_eq]
    have hX : '\n' ∉ itemInner it ++ "</item>".toList ++ (rest.map itemText).flatten := by
      have h1 := (hI it (by simp)).inner_noBreak
      have h2 := not_mem_flatten_items rest (fun it' h' => hI it' (by simp [h']))
      simp only [List.mem_append, not_or]
      exact ⟨⟨h1, by decide⟩, h2⟩
    rw [e]
    unfold feedPat
    exact findSubmatch_headTail _ _ H _ [] hH.noBreak hX
      (noOcc_of_absent _ _ _ hH.noItem (by simp))

/-- `itemsPat` on a well-formed feed: the text from the first `</lastBuildDate>`
to the closing `</channel>`, which ends with the items. -/
theorem findSubmatch_items (H : Str) (items : List (Str × Str × Str)) (hH : WfHead H)
    (hI : ∀ it ∈ items, WfItem it) :
    ∃ w x, ¬ "<item>".toList <:+: x ∧
      itemsPat.FindSubmatch (feedText H items) = [w, x ++ (items.map itemText).flatten] := by
  obtain ⟨H1, H2, eH, hfirst⟩ := exists_first_occurrence _ _ hH.lastBuild
  have hH2i : ¬ "<item>".toList <:+: H2 := by
    have := hH.noItem
    rw [eH] at this
    exact not_infix_of_append_right this
  have hH2c : ¬ "</channel>".toList <:+: H2 := by
    have := hH.noChannel
    rw [eH] at this
    exact not_infix_of_append_right this
  have hH2n : '\n' ∉ H2 := by
    have := hH.noBreak
    rw [eH] at this
    exact not_mem_of_append_right this
  have e : feedText H items = H1 ++ ("</lastBuildDate>".toList
      ++ (H2 ++ (items.map itemText).flatten) ++ "</channel>".toList ++ "</rss>".toList) := by
    have ht : "</channel></rss>".toList = "</channel>".toList ++ "</rss>".toList := by decide
    rw [feedText, eH, ht]
    simp
  have hmid : '\n' ∉ H2 ++ (items.map itemText).flatten := by
    simp only [List.mem_append, not_or]
    exact ⟨hH2n, not_mem_flatten_items items hI⟩
  have hch : NoOcc "</channel>".toList (H2 ++ (items.map itemText).flatten)
      ("</channel>".toList ++ "</rss>".toList) := by
    apply noOcc_of_absent _ _ _ _ (by simp)
    apply not_infix_append _ _ _ hH2c (not_channel_flatten_items items hI)
    intro d hd
    cases items with
    | nil => simp at hd
    | cons it rest =>
      obtain ⟨t, ht⟩ := itemText_head it
      simp only [List.map_cons, List.flatten_cons, ht, List.cons_append, List.head?_cons,
        Option.some.injEq] at hd
      rw [← hd]
      decide
  refine ⟨"</lastBuildDate>".toList ++ (H2 ++ (items.map itemText).flatten)
    ++ "</channel>".toList, H2, hH2i, ?_⟩
  unfold Re.FindSubmatch itemsPat
  rw [e, search_between _ _ none H1 _ _ (hfirst _) hmid hch]

/-- `replaceTitles` on a well-formed single-line feed: the head, the rewritten
items in order, the closing marker. -/
theorem replaceTitles_wf (uni : Char → Bool) (H : Str) (items : List (Str × Str × Str))
    (hN : items ≠ []) (hH : WfHead H) (hI : ∀ it ∈ items, WfItem it) :
    replaceTitles uni (feedText H items) =
      some (H ++ (items.map (rewriteItem uni)).flatten ++ "</channel></rss>".toList, none) := by
  obtain ⟨w, hfeed⟩ := findSubmatch_feed H items hN hH hI
  obtain ⟨w', x, hx, hitems⟩ := findSubmatch_items H items hH hI
  simp [replaceTitles, hfeed, hitems, findAll_items x hx items hI,
    foldlM_replaceTitlesStep uni items hI]

/-! ### The pattern `thumb` -/

theorem run_chr_some (p : Char → Bool) (k : St → Option St) (prev : Option Char) (s : Str)
    (caps : List (Nat × Str)) (r : St) (h : (Re.chr p).run k ⟨prev, s, caps⟩ = some r) :
    ∃ c t, s = c :: t ∧ p c = true ∧ k ⟨some c, t, caps⟩ = some r := by
  cases s with
  | nil => simp at h
  | cons c t =>
    rw [run_chr_cons] at h
    by_cases hc : p c = true
    · rw [if_pos hc] at h
      exact ⟨c, t, rfl, hc, h⟩
    · rw [if_neg hc] at h
      exact absurd h (by simp)

theorem run_opt_some (p : Char → Bool) (k : St → Option St) (prev : Option Char) (s : Str)
    (caps : List (Nat × Str)) (r : St) (h : (Re.opt p).run k ⟨prev, s, caps⟩ = some r) :
    k ⟨prev, s, caps⟩ = some r ∨ ∃ c t, s = c :: t ∧ p c = true ∧ k ⟨some c, t, caps⟩ = some r := by
  cases s with
  | nil => exact Or.inl h
  | cons c t =>
    simp only [Re.run] at h
    by_cases hc : p c = true
    · simp only [hc, if_true] at h
      cases hk : k ⟨some c, t, caps⟩ with
      | none =>
        rw [hk] at h
        exact Or.inl h
      | some r' =>
        rw [hk] at h
        exact Or.inr ⟨c, t, rfl, hc, by rw [hk]; exact h⟩
    · simp only [hc] at h
      exact Or.inl h

theorem run_opt_isSome_skip (p : Char → Bool) (k : St → Option St) (st : St) (r : St)
    (h : k st = some r) : ∃ r', (Re.opt p).run k st = some r' := by
  obtain ⟨prev, s, caps⟩ := st
  cases s with
  | nil => exact ⟨r, h⟩
  | cons c t =>
    simp only [Re.run]
    by_cases hc : p c = true
    · simp only [hc, if_true]
      cases k ⟨some c, t, caps⟩ with
      | none => exact ⟨r, h⟩
      | some r' => exact ⟨r', rfl⟩
    · simp only [hc]
      exact ⟨r, h⟩

theorem run_opt_isSome_take (p : Char → Bool) (k : St → Option St) (prev : Option Char)
    (c : Char) (t : Str) (caps : List (Nat × Str)) (r : St) (hc : p c = true)
    (h : k ⟨some c, t, caps⟩ = some r) :
    (Re.opt p).run k ⟨prev, c :: t, caps⟩ = some r := by
  simp only [Re.run, hc, if_true, h]

theorem thumb_eq : thumb = .cat [.wordB, thumbG1, thumbG2, thumbG3, .wordB] := rfl

theorem run_plus_some (p : Char → Bool) (k : St → Option St) (prev : Option Char) (s : Str)
    (caps : List (Nat × Str)) (r : St) (h : (Re.plus p).run k ⟨prev, s, caps⟩ = some r) :
    ∃ run rest, run ≠ [] ∧ (∀ c ∈ run, p c = true) ∧ s = run ++ rest ∧
      k ⟨lastOr prev run, rest, caps⟩ = some r := by
  simp only [Re.plus, run_seq, run_star] at h
  obtain ⟨c, t, rfl, hc, h1⟩ := run_chr_some _ _ _ _ _ _ h
  simp only [] at h1
  obtain ⟨run, rest, rfl, hrun, h2⟩ := starLoop_some _ _ _ _ _ _ h1
  refine ⟨c :: run, rest, by simp, ?_, by simp, by simpa using h2⟩
  intro d hd
  rcases List.mem_cons.mp hd with rfl | hd
  · exact hc
  · exact hrun d hd

theorem run_plus_isSome (p : Char → Bool) (k : St → Option St) (prev : Option Char)
    (run rest : Str) (caps : List (Nat × Str)) (r : St) (hne : run ≠ [])
    (hrun : ∀ c ∈ run, p c = true) (hk : k ⟨lastOr prev run, rest, caps⟩ = some r) :
    ∃ r', (Re.plus p).run k ⟨prev, run ++ rest, caps⟩ = some r' := by
  cases run with
  | nil => exact absurd rfl hne
  | cons c t =>
    simp only [Re.plus, run_seq, run_star, List.cons_append, run_chr_cons,
      hrun c (by simp), if_true]
    exact starLoop_isSome p k caps (some c) t rest r (fun d hd => hrun d (by simp [hd]))
      (by simpa using hk)

/-- What group 1 of `thumb` consumed. -/
theorem thumbG1_some (k : St → Option St) (prev : Option Char) (s : Str)
    (caps : List (Nat × Str)) (r : St) (h : thumbG1.run k ⟨prev, s, caps⟩ = some r) :
    ∃ g1 rest, IsG1 g1 ∧ s = g1 ++ rest ∧ k ⟨some '/', rest, (1, g1) :: caps⟩ = some r := by
  simp only [thumbG1, Re.cat, run_seq, run_eps, run_group] at h
  obtain ⟨t1, rfl, h1⟩ := run_lit_some _ _ _ _ _ _ h
  have key : ∀ sch t (p0 : Option Char), (sch = "http".toList ∨ sch = "https".toList) →
      (Re.lit "://".toList).run ((Re.plus hostCls).run ((Re.chr isDot).run
        ((Re.lit "pinimg".toList).run ((Re.chr isDot).run ((Re.lit "com/".toList).run
          fun st' => k ⟨st'.prev, st'.rest,
            (1, (sch ++ t).take ((sch ++ t).length - st'.rest.length)) :: st'.caps⟩)))))
        ⟨p0, t, caps⟩ = some r →
      ∃ g1 rest, IsG1 g1 ∧ sch ++ t = g1 ++ rest ∧
        k ⟨some '/', rest, (1, g1) :: caps⟩ = some r := by
    intro sch t p0 hsch h2
    obtain ⟨t3, rfl, h3⟩ := run_lit_some _ _ _ _ _ _ h2
    obtain ⟨hh, t4, hne, hhost, rfl, h4⟩ := run_plus_some _ _ _ _ _ _ h3
    obtain ⟨w1, t5, rfl, hw1, h5⟩ := run_chr_some _ _ _ _ _ _ h4
    obtain ⟨t6, rfl, h6⟩ := run_lit_some _ _ _ _ _ _ h5
    obtain ⟨w2, t7, rfl, hw2, h7⟩ := run_chr_some _ _ _ _ _ _ h6
    obtain ⟨t8, rfl, h8⟩ := run_lit_some _ _ _ _ _ _ h7
    simp only [] at h8
    have e : sch ++ ("://".toList ++ (hh ++ w1 :: ("pinimg".toList ++ w2 :: ("com/".toList ++ t8))))
        = (sch ++ "://".toList ++ hh ++ w1 :: "pinimg".toList ++ w2 :: "com/".toList) ++ t8 := by
      simp
    rw [e, take_length_sub] at h8
    refine ⟨_, t8, ⟨sch, hh, w1, w2, hsch, hne, hhost, hw1, hw2, rfl⟩, e, ?_⟩
    rw [← h8]
    simp
  rcases run_opt_some _ _ _ _ _ _ h1 with h2 | ⟨c, t2, rfl, hc, h2⟩
  · exact key "http".toList t1 _ (Or.inl rfl) h2
  · have hc' : c = 's' := by simpa using hc
    subst hc'
    have := key "https".toList t2 _ (Or.inr rfl) h2
    simpa using this

/-- What group 2 of `thumb` consumed. -/
theorem thumbG2_some (k : St → Option St) (prev : Option Char) (s : Str)
    (caps : List (Nat × Str)) (r : St) (h : thumbG2.run k ⟨prev, s, caps⟩ = some r) :
    ∃ g2 rest, IsG2 g2 ∧ s = g2 ++ rest ∧ k ⟨some 'x', rest, (2, g2) :: caps⟩ = some r := by
  simp only [thumbG2, Re.cat, run_seq, run_eps, run_group] at h
  obtain ⟨d, t1, hne, hd, rfl, h1⟩ := run_plus_some _ _ _ _ _ _ h
  obtain ⟨t2, rfl, h2⟩ := run_lit_some _ _ _ _ _ _ h1
  simp only [] at h2
  have e : d ++ ("x".toList ++ t2) = (d ++ "x".toList) ++ t2 := by simp
  rw [e, take_length_sub] at h2
  refine ⟨_, t2, ⟨d, hne, hd, rfl⟩, e, ?_⟩
  rw [← h2]
  simp

/-- What group 3 of `thumb` consumed. -/
theorem thumbG3_some (k : St → Option St) (prev : Option Char) (s : Str)
    (caps : List (Nat × Str)) (r : St) (h : thumbG3.run k ⟨prev, s, caps⟩ = some r) :
    ∃ g3 rest, IsG3 g3 ∧ s = g3 ++ rest ∧ k ⟨some 'g', rest, (3, g3) :: caps⟩ = some r := by
  simp only [thumbG3, Re.cat, run_seq, run_eps, run_group] at h
  obtain ⟨t0, rfl, h0⟩ := run_lit_some _ _ _ _ _ _ h
  obtain ⟨p, t1, hne, hp, rfl, h1⟩ := run_plus_some _ _ _ _ _ _ h0
  obtain ⟨w3, t2, rfl, hw3, h2⟩ := run_chr_some _ _ _ _ _ _ h1
  obtain ⟨t3, rfl, h3⟩ := run_lit_some _ _ _ _ _ _ h2
  simp only [] at h3
  have e : "/".toList ++ (p ++ w3 :: ("jpg".toList ++ t3))
      = ('/' :: p ++ w3 :: "jpg".toList) ++ t3 := by simp
  rw [e, take_length_sub] at h3
  refine ⟨_, t3, ⟨p, w3, hne, hp, hw3, rfl⟩, e, ?_⟩
  rw [← h3]
  simp

/-- Group 1 of `thumb` matches a text of its shape when the continuation
succeeds after it. -/
theorem thumbG1_isSome (k : St → Option St) (prev : Option Char) (g1 rest : Str)
    (caps : List (Nat × Str)) (r : St) (hg : IsG1 g1)
    (hk : k ⟨some '/', rest, (1, g1) :: caps⟩ = some r) :
    ∃ r', thumbG1.run k ⟨prev, g1 ++ rest, caps⟩ = some r' := by
  obtain ⟨sch, hh, w1, w2, hsch, hne, hhost, hw1, hw2, rfl⟩ := hg
  simp only [thumbG1, Re.cat, run_seq, run_eps, run_group]
  have key : ∀ (p0 : Option Char) (s0 : Str),
      s0 = (sch ++ "://".toList ++ hh ++ w1 :: "pinimg".toList ++ w2 :: "com/".toList) ++ rest →
      ∃ r', (Re.lit "://".toList).run ((Re.plus hostCls).run ((Re.chr isDot).run
        ((Re.lit "pinimg".toList).run ((Re.chr isDot).run ((Re.lit "com/".toList).run
          fun st' => k ⟨st'.prev, st'.rest,
            (1, s0.take (s0.length - st'.rest.length)) :: st'.caps⟩)))))
        ⟨p0, "://".toList ++ (hh ++ w1 :: ("pinimg".toList ++ w2 :: ("com/".toList ++ rest))),
          caps⟩ = some r' := by
    intro p0 s0 hs0
    rw [run_lit_append]
    apply run_plus_isSome _ _ _ _ _ _ r hne hhost
    rw [run_chr_cons, if_pos hw1, run_lit_append, run_chr_cons, if_pos hw2, run_lit_append]
    simp only []
    rw [hs0, take_length_sub, ← hk]
    simp
  rcases hsch with rfl | rfl
  · have e : "http".toList ++ "://".toList ++ hh ++ w1 :: "pinimg".toList ++ w2 :: "com/".toList
        ++ rest = "http".toList ++ ("://".toList ++ (hh ++ w1 :: ("pinimg".toList
          ++ w2 :: ("com/".toList ++ rest)))) := by simp
    rw [e, run_lit_append]
    obtain ⟨r', hr'⟩ := key (lastOr prev "http".toList) _ e.symm
    exact run_opt_isSome_skip _ _ _ r' hr'
  · have e : "https".toList ++ "://".toList ++ hh ++ w1 :: "pinimg".toList ++ w2 :: "com/".toList
        ++ rest = "http".toList ++ ('s' :: ("://".toList ++ (hh ++ w1 :: ("pinimg".toList
          ++ w2 :: ("com/".toList ++ rest))))) := by simp
    rw [e, run_lit_append]
    obtain ⟨r', hr'⟩ := key (some 's') _ e.symm
    exact ⟨r', run_opt_isSome_take _ _ _ _ _ _ r' (by simp) hr'⟩

/-- Group 2 of `thumb` matches a text of its shape when the continuation
succeeds after it. -/
theorem thumbG2_isSome (k : St → Option St) (prev : Option Char) (g2 rest : Str)
    (caps : List (Nat × Str)) (r : St) (hg : IsG2 g2)
    (hk : k ⟨some 'x', rest, (2, g2) :: caps⟩ = some r) :
    ∃ r', thumbG2.run k ⟨prev, g2 ++ rest, caps⟩ = some r' := by
  obtain ⟨d, hne, hd, rfl⟩ := hg
  simp only [thumbG2, Re.cat, run_seq, run_eps, run_group]
  have e : d ++ "x".toList ++ rest = d ++ ("x".toList ++ rest) := by simp
  rw [e]
  apply run_plus_isSome _ _ _ _ _ _ r hne hd
  rw [run_lit_append]
  simp only []
  rw [← e, take_length_sub, ← hk]
  simp

/-- Group 3 of `thumb` matches a text of its shape when the continuation
succeeds after it. -/
theorem thumbG3_isSome (k : St → Option St) (prev : Option Char) (g3 rest : Str)
    (caps : List (Nat × Str)) (r : St) (hg : IsG3 g3)
    (hk : k ⟨some 'g', rest, (3, g3) :: caps⟩ = some r) :
    ∃ r', thumbG3.run k ⟨prev, g3 ++ rest, caps⟩ = some r' := by
  obtain ⟨p, w3, hne, hp, hw3, rfl⟩ := hg
  simp only [thumbG3, Re.cat, run_seq, run_eps, run_group]
  have e : '/' :: p ++ w3 :: "jpg".toList ++ rest
      = "/".toList ++ (p ++ w3 :: ("jpg".toList ++ rest)) := by simp
  rw [e, run_lit_append]
  apply run_plus_isSome _ _ _ _ _ _ r hne hp
  rw [run_chr_cons, if_pos hw3, run_lit_append]
  simp only []
  rw [← e, take_length_sub, ← hk]
  simp

theorem isG1_head (g1 : Str) (h : IsG1 g1) : ∃ t, g1 = 'h' :: t := by
  obtain ⟨sch, hh, w1, w2, hsch, -, -, -, -, rfl⟩ := h
  rcases hsch with rfl | rfl <;> exact ⟨_, rfl⟩

/-- What a match of `thumb` consumed. -/
theorem thumb_sound (prev : Option Char) (s : Str) (st : St)
    (h : thumb.run some ⟨prev, s, []⟩ = some st) :
    ∃ g1 g2 g3, IsThumb g1 g2 g3 ∧ s = g1 ++ g2 ++ g3 ++ st.rest ∧
      st.caps = [(3, g3), (2, g2), (1, g1)] ∧ st.prev = some 'g' ∧
      prev.any isWordChar = false ∧ headIsWord st.rest = false := by
  rw [thumb_eq] at h
  simp only [Re.cat, run_seq, run_eps, run_wordB] at h
  by_cases hb : wordBoundary prev s.head? = true
  · rw [if_pos hb] at h
    obtain ⟨g1, t1, hg1, rfl, h1⟩ := thumbG1_some _ _ _ _ _ h
    obtain ⟨g2, t2, hg2, rfl, h2⟩ := thumbG2_some _ _ _ _ _ h1
    obtain ⟨g3, t3, hg3, rfl, h3⟩ := thumbG3_some _ _ _ _ _ h2
    simp only [] at h3
    by_cases hb2 : wordBoundary (some 'g') t3.head? = true
    · rw [if_pos hb2, Option.some.injEq] at h3
      subst h3
      refine ⟨g1, g2, g3, ⟨hg1, hg2, hg3⟩, by simp, rfl, rfl, ?_, ?_⟩
      · obtain ⟨t, rfl⟩ := isG1_head g1 hg1
        simp only [List.cons_append, List.head?_cons, wordBoundary, Option.any_some] at hb
        have : isWordChar 'h' = true := by decide
        rw [this] at hb
        cases hp : prev.any isWordChar
        · rfl
        · rw [hp] at hb
          simp at hb
      · simp only [wordBoundary, Option.any_some] at hb2
        have : isWordChar 'g' = true := by decide
        rw [this] at hb2
        simp only [headIsWord]
        cases hp : t3.head?.any isWordChar
        · rfl
        · rw [hp] at hb2
          simp at hb2
    · rw [if_neg hb2] at h3
      exact absurd h3 (by simp)
  · rw [if_neg hb] at h
    exact absurd h (by simp)

/-- The pattern `thumb` matches a text of its shape that stands between two
non-word positions. -/
theorem thumb_complete (prev : Option Char) (g1 g2 g3 rest : Str) (hg : IsThumb g1 g2 g3)
    (hprev : prev.any isWordChar = false) (hrest : headIsWord rest = false) :
    ∃ st, thumb.run some ⟨prev, g1 ++ g2 ++ g3 ++ rest, []⟩ = some st := by
  rw [thumb_eq]
  simp only [Re.cat, run_seq, run_eps, run_wordB]
  obtain ⟨t, ht⟩ := isG1_head g1 hg.1
  have hb : wordBoundary prev (g1 ++ g2 ++ g3 ++ rest).head? = true := by
    rw [ht]
    simp only [List.cons_append, List.head?_cons, wordBoundary, Option.any_some, hprev]
    decide
  rw [if_pos hb]
  have e : g1 ++ g2 ++ g3 ++ rest = g1 ++ (g2 ++ (g3 ++ rest)) := by simp
  rw [e]
  have hb2 : wordBoundary (some 'g') rest.head? = true := by
    simp only [headIsWord] at hrest
    simp only [wordBoundary, Option.any_some, hrest]
    decide
  obtain ⟨r3, h3⟩ := thumbG3_isSome
    (fun st => if wordBoundary st.prev st.rest.head? = true then some st else none)
    (some 'x') g3 rest [(2, g2), (1, g1)] _ hg.2.2 (by simp only []; rw [if_pos hb2])
  obtain ⟨r2, h2⟩ := thumbG2_isSome _ (some '/') g2 (g3 ++ rest) [(1, g1)] _ hg.2.1 h3
  exact thumbG1_isSome _ prev g1 _ [] _ hg.1 h2

/-! ### A match of `thumb` is determined by where it starts -/

theorem path_ext_nil (c : Str) (w3 w3' : Char) (Z Z' : Str) (hc : ∀ x ∈ c, pathCls x = true)
    (h : w3 :: 'j' :: 'p' :: 'g' :: Z = c ++ w3' :: 'j' :: 'p' :: 'g' :: Z') : c = [] := by
  rcases c with _ | ⟨c1, _ | ⟨c2, c⟩⟩
  · rfl
  · simp at h
  · simp only [List.cons_append, List.cons.injEq] at h
    have := hc c2 (by simp)
    rw [← h.2.1] at this
    exact absurd this (by decide)

theorem digit_ext_nil (c : Str) (Z Z' : Str) (hc : ∀ x ∈ c, Char.isDigit x = true)
    (h : 'x' :: Z = c ++ 'x' :: Z') : c = [] := by
  rcases c with _ | ⟨c1, c⟩
  · rfl
  · simp only [List.cons_append, List.cons.injEq] at h
    have := hc c1 (by simp)
    rw [← h.1] at this
    exact absurd this (by decide)

theorem host_ext_nil (c : Str) (w1 w2 w1' : Char) (d Z Z' : Str)
    (hc : ∀ x ∈ c, hostCls x = true) (hd : ∀ x ∈ d, Char.isDigit x = true) (hne : d ≠ [])
    (h : w1 :: 'p' :: 'i' :: 'n' :: 'i' :: 'm' :: 'g' :: w2 :: 'c' :: 'o' :: 'm' :: '/' :: (d ++ Z)
      = c ++ w1' :: 'p' :: 'i' :: 'n' :: Z') : c = [] := by
  rcases c with _ | ⟨c1, c⟩
  · rfl
  exfalso
  rcases c with _ | ⟨c2, c⟩
  · simp at h
  rcases c with _ | ⟨c3, c⟩
  · simp at h
  rcases c with _ | ⟨c4, c⟩
  · simp at h
  rcases c with _ | ⟨c5, c⟩
  · simp at h
  rcases c with _ | ⟨c6, c⟩
  · simp at h
  rcases c with _ | ⟨c7, c⟩
  · simp at h
  rcases c with _ | ⟨c8, c⟩
  · simp at h
  rcases c with _ | ⟨c9, c⟩
  · simp at h
  rcases c with _ | ⟨c10, c⟩
  · simp at h
  rcases c with _ | ⟨c11, c⟩
  · simp at h
  rcases c with _ | ⟨c12, c⟩
  · simp only [List.cons_append, List.nil_append, List.cons.injEq] at h
    rcases d with _ | ⟨d0, d⟩
    · exact hne rfl
    · have := hd d0 (by simp)
      simp only [List.cons_append, List.cons.injEq] at h
      rw [h.2.2.2.2.2.2.2.2.2.2.2.2.1] at this
      exact absurd this (by decide)
  · simp only [List.cons_append, List.cons.injEq] at h
    have := hc c12 (by simp)
    rw [← h.2.2.2.2.2.2.2.2.2.2.2.1] at this
    exact absurd this (by decide)

theorem thumbText_eq (sch hh : Str) (w1 w2 : Char) (d p : Str) (w3 : Char) (rest : Str) :
    (sch ++ "://".toList ++ hh ++ w1 :: "pinimg".toList ++ w2 :: "com/".toList)
      ++ ((d ++ "x".toList) ++ (('/' :: p ++ w3 :: "jpg".toList) ++ rest))
    = sch ++ (':' :: '/' :: '/' :: (hh ++ (w1 :: 'p' :: 'i' :: 'n' :: 'i' :: 'm' :: 'g' :: w2
        :: 'c' :: 'o' :: 'm' :: '/' :: (d ++ ('x' :: '/' :: (p ++ (w3 :: 'j' :: 'p' :: 'g'
        :: rest))))))) := by
  simp

/-- Two runs of class characters that are followed by the same kind of text and
start at the same place: one extends the other. -/
theorem append_eq_append_cases (a b c d : Str) (h : a ++ b = c ++ d) :
    (∃ x, c = a ++ x ∧ b = x ++ d) ∨ (∃ x, a = c ++ x ∧ d = x ++ b) :=
  List.append_eq_append_iff.mp h

/-- A text holds at most one match of `thumb` at its start. -/
theorem isThumb_unique {g1 g2 g3 rest g1' g2' g3' rest' : Str} (h : IsThumb g1 g2 g3)
    (h' : IsThumb g1' g2' g3')
    (e : g1 ++ (g2 ++ (g3 ++ rest)) = g1' ++ (g2' ++ (g3' ++ rest'))) :
    g1 = g1' ∧ g2 = g2' ∧ g3 = g3' ∧ rest = rest' := by
  obtain ⟨⟨sch, hh, w1, w2, hsch, hne, hhost, -, -, rfl⟩, ⟨d, hdne, hd, rfl⟩,
    ⟨p, w3, hpne, hp, -, rfl⟩⟩ := h
  obtain ⟨⟨sch', hh', w1', w2', hsch', hne', hhost', -, -, rfl⟩, ⟨d', hdne', hd', rfl⟩,
    ⟨p', w3', hpne', hp', -, rfl⟩⟩ := h'
  rw [thumbText_eq, thumbText_eq] at e
  -- the scheme
  have hs : sch = sch' ∧ hh ++ (w1 :: 'p' :: 'i' :: 'n' :: 'i' :: 'm' :: 'g' :: w2
      :: 'c' :: 'o' :: 'm' :: '/' :: (d ++ ('x' :: '/' :: (p ++ (w3 :: 'j' :: 'p' :: 'g'
      :: rest))))) = hh' ++ (w1' :: 'p' :: 'i' :: 'n' :: 'i' :: 'm' :: 'g' :: w2'
      :: 'c' :: 'o' :: 'm' :: '/' :: (d' ++ ('x' :: '/' :: (p' ++ (w3' :: 'j' :: 'p' :: 'g'
      :: rest'))))) := by
    rcases hsch with rfl | rfl <;> rcases hsch' with rfl | rfl
    · exact ⟨rfl, by simpa using e⟩
    · simp at e
    · simp at e
    · exact ⟨rfl, by simpa using e⟩
  obtain ⟨rfl, e1⟩ := hs
  -- the host
  have hhost_eq : hh = hh' := by
    rcases append_eq_append_cases _ _ _ _ e1 with ⟨x, hx, e2⟩ | ⟨x, hx, e2⟩
    · have hxc : ∀ c ∈ x, hostCls c = true := fun c hc => hhost' c (by rw [hx]; simp [hc])
      have := host_ext_nil x w1 w2 w1' d _ _ hxc hd hdne e2
      rw [this, List.append_nil] at hx
      exact hx.symm
    · have hxc : ∀ c ∈ x, hostCls c = true := fun c hc => hhost c (by rw [hx]; simp [hc])
      have := host_ext_nil x w1' w2' w1 d' _ _ hxc hd' hdne' e2
      rw [this, List.append_nil] at hx
      exact hx
  subst hhost_eq
  have e2 := List.append_cancel_left e1
  simp only [List.cons.injEq, true_and] at e2
  obtain ⟨rfl, rfl, e3⟩ := e2
  -- the digits
  have hd_eq : d = d' := by
    rcases append_eq_append_cases _ _ _ _ e3 with ⟨x, hx, e4⟩ | ⟨x, hx, e4⟩
    · have hxc : ∀ c ∈ x, Char.isDigit c = true := fun c hc => hd' c (by rw [hx]; simp [hc])
      have := digit_ext_nil x _ _ hxc e4
      rw [this, List.append_nil] at hx
      exact hx.symm
    · have hxc : ∀ c ∈ x, Char.isDigit c = true := fun c hc => hd c (by rw [hx]; simp [hc])
      have := digit_ext_nil x _ _ hxc e4
      rw [this, List.append_nil] at hx
      exact hx
  subst hd_eq
  have e4 := List.append_cancel_left e3
  simp only [List.cons.injEq, true_and] at e4
  -- the path
  have hp_eq : p = p' := by
    rcases append_eq_append_cases _ _ _ _ e4 with ⟨x, hx, e5⟩ | ⟨x, hx, e5⟩
    · have hxc : ∀ c ∈ x, pathCls c = true := fun c hc => hp' c (by rw [hx]; simp [hc])
      have := path_ext_nil x _ _ _ _ hxc e5
      rw [this, List.append_nil] at hx
      exact hx.symm
    · have hxc : ∀ c ∈ x, pathCls c = true := fun c hc => hp c (by rw [hx]; simp [hc])
      have := path_ext_nil x _ _ _ _ hxc e5
      rw [this, List.append_nil] at hx
      exact hx
  subst hp_eq
  have e5 := List.append_cancel_left e4
  simp only [List.cons.injEq, true_and] at e5
  obtain ⟨rfl, rfl⟩ := e5
  exact ⟨rfl, rfl, rfl, rfl⟩

/-- The pattern `thumb` on a text of its shape between two non-word positions:
the match is that text, with its three groups. -/
theorem thumb_run_eq (prev : Option Char) (g1 g2 g3 rest : Str) (hg : IsThumb g1 g2 g3)
    (hprev : prev.any isWordChar = false) (hrest : headIsWord rest = false) :
    thumb.run some ⟨prev, g1 ++ g2 ++ g3 ++ rest, []⟩
      = some ⟨some 'g', rest, [(3, g3), (2, g2), (1, g1)]⟩ := by
  obtain ⟨st, hst⟩ := thumb_complete prev g1 g2 g3 rest hg hprev hrest
  obtain ⟨g1', g2', g3', hg', e, hcaps, hp, -, -⟩ := thumb_sound _ _ _ hst
  obtain ⟨rfl, rfl, rfl, hr⟩ := isThumb_unique hg hg' (by simpa using e)
  rw [hst]
  obtain ⟨sp, sr, sc⟩ := st
  simp only at hcaps hp hr
  rw [hcaps, hp, ← hr]

/-! ### The replacement loop, unfolded by leftmost matches -/

/-- The text after a non-empty match is shorter than the text searched. -/
theorem search_rest_length (re : Re) (prev : Option Char) (s : Str) (f : Found)
    (h : re.search prev s = some f) (hne : f.sub.headD [] ≠ []) :
    f.rest.length < s.length := by
  obtain ⟨s', st, e, -, hsub, hrest, -⟩ := search_some _ _ _ _ h
  rw [hsub] at hne
  simp only [Re.subs, List.headD_cons] at hne
  have hlen : 0 < (s'.take (s'.length - st.rest.length)).length := List.length_pos.mpr hne
  rw [List.length_take] at hlen
  rw [e, hrest, List.length_append]
  omega

/-- The loop does not depend on its fuel once the fuel exceeds the length of
the text. -/
theorem replaceAllLoop_fuel (re : Re) (uni : Char → Bool) (repl : Str) (fuel fuel' : Nat)
    (prev : Option Char) (s : Str) (h : s.length < fuel) (h' : s.length < fuel') :
    re.replaceAllLoop uni repl fuel prev s = re.replaceAllLoop uni repl fuel' prev s := by
  induction fuel generalizing fuel' prev s with
  | zero => omega
  | succ n ih =>
    obtain ⟨m, rfl⟩ : ∃ m, fuel' = m + 1 := ⟨fuel' - 1, by omega⟩
    rw [replaceAllLoop_succ, replaceAllLoop_succ]
    cases hs : re.search prev s with
    | none => rfl
    | some f =>
      simp only []
      by_cases hne : f.sub.headD [] = []
      · rw [if_pos hne, if_pos hne]
      · rw [if_neg hne, if_neg hne]
        have := search_rest_length re prev s f hs hne
        rw [ih m _ f.rest (by omega) (by omega)]

theorem replaceAll_eq_replaceFrom (re : Re) (uni : Char → Bool) (src repl : Str) :
    re.ReplaceAll uni src repl = re.replaceFrom uni repl none src := rfl

theorem replaceFrom_of_search_none (re : Re) (uni : Char → Bool) (repl : Str)
    (prev : Option Char) (s : Str) (h : re.search prev s = none) :
    re.replaceFrom uni repl prev s = s := by
  simp only [Re.replaceFrom, replaceAllLoop_succ, h]

theorem replaceFrom_of_search_some (re : Re) (uni : Char → Bool) (repl : Str)
    (prev : Option Char) (s : Str) (f : Found) (h : re.search prev s = some f)
    (hne : f.sub.headD [] ≠ []) :
    re.replaceFrom uni repl prev s = f.pre ++ expand uni f.sub repl
      ++ re.replaceFrom uni repl (lastOr prev (f.pre ++ f.sub.headD [])) f.rest := by
  have hlt := search_rest_length re prev s f h hne
  unfold Re.replaceFrom
  rw [replaceAllLoop_succ, h]
  simp only [if_neg hne]
  rw [replaceAllLoop_fuel re uni repl s.length (f.rest.length + 1) _ f.rest hlt (by omega)]

/-- The template `urlReplacement`: group 1, `1200x`, group 3. -/
theorem expand_urlReplacement (uni : Char → Bool) (w g1 g2 g3 : Str) :
    expand uni [w, g1, g2, g3] urlReplacement = g1 ++ "1200x".toList ++ g3 := by
  have : expand uni [w, g1, g2, g3] urlReplacement
      = [] ++ g1 ++ ("1200x".toList ++ g3 ++ []) := rfl
  rw [this]
  simp

theorem numSubexp_thumb : thumb.numSubexp = 3 := rfl

/-- What a successful search for `thumb` found. -/
theorem thumb_search_some (prev : Option Char) (s : Str) (f : Found)
    (h : thumb.search prev s = some f) :
    ∃ g1 g2 g3, IsThumb g1 g2 g3 ∧ s = f.pre ++ (g1 ++ g2 ++ g3 ++ f.rest) ∧
      f.sub = [g1 ++ g2 ++ g3, g1, g2, g3] ∧
      (lastOr prev f.pre).any isWordChar = false ∧ headIsWord f.rest = false ∧
      ∀ u v, f.pre = u ++ v → v ≠ [] →
        thumb.run some ⟨lastOr prev u, v ++ (g1 ++ g2 ++ g3 ++ f.rest), []⟩ = none := by
  obtain ⟨s', st, e, hrun, hsub, hrest, hmin⟩ := search_some _ _ _ _ h
  obtain ⟨g1, g2, g3, hg, es', hcaps, -, hp, hr⟩ := thumb_sound _ _ _ hrun
  refine ⟨g1, g2, g3, hg, by rw [e, es', hrest], ?_, hp, by rw [hrest]; exact hr, ?_⟩
  · rw [hsub]
    simp only [Re.subs, numSubexp_thumb, hcaps]
    have : s'.take (s'.length - st.rest.length) = g1 ++ g2 ++ g3 := by
      conv => lhs; rw [es']
      exact take_length_sub _ _
    rw [this]
    rfl
  · rw [hrest, ← es']
    exact hmin

/-- The leftmost match of `thumb`: a text of its shape between two non-word
positions, after a stretch at no position of which `thumb` matches. -/
theorem thumb_search (prev : Option Char) (pre g1 g2 g3 rest : Str) (hg : IsThumb g1 g2 g3)
    (hprev : (lastOr prev pre).any isWordChar = false) (hrest : headIsWord rest = false)
    (hmin : ∀ u v, pre = u ++ v → v ≠ [] →
      thumb.run some ⟨lastOr prev u, v ++ (g1 ++ g2 ++ g3 ++ rest), []⟩ = none) :
    thumb.search prev (pre ++ (g1 ++ g2 ++ g3 ++ rest))
      = some ⟨pre, [g1 ++ g2 ++ g3, g1, g2, g3], rest⟩ := by
  rw [search_skip _ _ _ _ hmin, search_here _ _ _ _ (thumb_run_eq _ g1 g2 g3 rest hg hprev hrest)]
  simp only [Option.map_some', List.append_nil, Re.subs, numSubexp_thumb]
  rw [take_length_sub]
  rfl

theorem lastOr_isG3 (q : Option Char) (x g3 : Str) (h : IsG3 g3) :
    lastOr q (x ++ g3) = some 'g' := by
  obtain ⟨p, w3, -, -, -, rfl⟩ := h
  have : x ++ ('/' :: p ++ w3 :: "jpg".toList) = (x ++ '/' :: p ++ [w3, 'j', 'p']) ++ ['g'] := by
    simp
  rw [this, lastOr_append]
  rfl

/-- One turn of the loop of `thumb.ReplaceAll` at a leftmost match. -/
theorem thumb_replaceFrom_some (uni : Char → Bool) (prev : Option Char) (s pre : Str)
    (g1 g2 g3 rest : Str) (hg : IsThumb g1 g2 g3)
    (h : thumb.search prev s = some ⟨pre, [g1 ++ g2 ++ g3, g1, g2, g3], rest⟩) :
    thumb.replaceFrom uni urlReplacement prev s
      = pre ++ (g1 ++ "1200x".toList ++ g3)
        ++ thumb.replaceFrom uni urlReplacement (some 'g') rest := by
  obtain ⟨t, ht⟩ := isG1_head g1 hg.1
  have hne : (Found.mk pre [g1 ++ g2 ++ g3, g1, g2, g3] rest).sub.headD [] ≠ [] := by
    simp [ht]
  rw [replaceFrom_of_search_some thumb uni urlReplacement prev s _ h hne]
  simp only [List.headD_cons, expand_urlReplacement]
  have e : pre ++ (g1 ++ g2 ++ g3) = (pre ++ (g1 ++ g2)) ++ g3 := by simp
  rw [e, lastOr_isG3 _ _ _ hg.2.2]

theorem thumb_run_none_of_head (prev : Option Char) (s : Str) (h : s.head? ≠ some 'h') :
    thumb.run some ⟨prev, s, []⟩ = none := by
  cases hr : thumb.run some ⟨prev, s, []⟩ with
  | none => rfl
  | some st =>
    obtain ⟨g1, g2, g3, hg, e, -⟩ := thumb_sound _ _ _ hr
    obtain ⟨t, ht⟩ := isG1_head g1 hg.1
    rw [e, ht] at h
    simp at h

/-- The loop copies a character at which the pattern does not match. -/
theorem replaceFrom_cons_of_run_none (re : Re) (uni : Char → Bool) (repl : Str)
    (prev : Option Char) (c : Char) (t : Str) (h : re.run some ⟨prev, c :: t, []⟩ = none) :
    re.replaceFrom uni repl prev (c :: t) = c :: re.replaceFrom uni repl (some c) t := by
  unfold Re.replaceFrom
  rw [replaceAllLoop_succ, replaceAllLoop_succ, search_cons, h]
  cases hs : re.search (some c) t with
  | none => rfl
  | some f =>
    simp only []
    by_cases hne : f.sub.headD [] = []
    · rw [if_pos hne, if_pos hne]
    · rw [if_neg hne, if_neg hne]
      have hlt := search_rest_length re (some c) t f hs hne
      rw [replaceAllLoop_fuel re uni repl (c :: t).length t.length _ f.rest
        (by simp only [List.length_cons]; omega) hlt]
      simp

theorem thumb_replaceFrom_nil (uni : Char → Bool) (prev : Option Char) :
    thumb.replaceFrom uni urlReplacement prev [] = [] := by
  apply replaceFrom_of_search_none
  simp only [Re.search, thumb_run_none_of_head prev [] (by simp)]

/-- A well-shaped URL has the shape of a match of `thumb`. -/
theorem wellShaped_isThumb (u : Str × Str × Str × Str) (h : WellShaped u) :
    ∃ g1 g3, IsThumb g1 (u.2.2.1 ++ "x".toList) g3 ∧
      urlOf u = g1 ++ (u.2.2.1 ++ "x".toList) ++ g3 ∧
      upgradeOf u = g1 ++ "1200x".toList ++ g3 := by
  refine ⟨u.1 ++ "://".toList ++ u.2.1 ++ '.' :: "pinimg".toList ++ '.' :: "com/".toList,
    '/' :: u.2.2.2 ++ '.' :: "jpg".toList, ⟨?_, ?_, ?_⟩, ?_, ?_⟩
  · exact ⟨u.1, u.2.1, '.', '.', h.scheme, h.host_ne, h.host, by decide, by decide, rfl⟩
  · exact ⟨u.2.2.1, h.digits_ne, h.digits, rfl⟩
  · exact ⟨u.2.2.2, '.', h.path_ne, h.path, by decide, rfl⟩
  · simp [urlOf, urlText]
  · simp [upgradeOf, urlText]

/-- The loop of `thumb.ReplaceAll` on well-shaped URLs joined by single spaces. -/
theorem thumb_replaceFrom_urls (uni : Char → Bool) (us : List (Str × Str × Str × Str))
    (h : ∀ u ∈ us, WellShaped u) (prev : Option Char) (hprev : prev.any isWordChar = false) :
    thumb.replaceFrom uni urlReplacement prev (joinSpaces (us.map urlOf))
      = joinSpaces (us.map upgradeOf) := by
  induction us generalizing prev with
  | nil => exact thumb_replaceFrom_nil uni prev
  | cons u r ih =>
    obtain ⟨g1, g3, hg, eu, eup⟩ := wellShaped_isThumb u (h u (by simp))
    cases r with
    | nil =>
      simp only [List.map_cons, List.map_nil, joinSpaces]
      have hs := thumb_search prev [] g1 _ g3 [] hg (by simpa using hprev) (by decide)
        (fun u v e hv => by
          have : v = [] := by
            have := congrArg List.length e
            simp at this
            exact List.eq_nil_of_length_eq_zero (by omega)
          exact absurd this hv)
      simp only [List.nil_append, List.append_nil] at hs
      rw [eu, thumb_replaceFrom_some uni prev _ [] g1 _ g3 [] hg hs, thumb_replaceFrom_nil, eup]
      simp
    | cons u' r' =>
      simp only [List.map_cons, joinSpaces]
      have ih' := ih (fun x hx => h x (by simp [hx])) (some ' ') (by decide)
      simp only [List.map_cons] at ih'
      have hs := thumb_search prev [] g1 _ g3
        (' ' :: joinSpaces (urlOf u' :: r'.map urlOf)) hg (by simpa using hprev) rfl
        (fun u v e hv => by
          have : v = [] := by
            have := congrArg List.length e
            simp at this
            exact List.eq_nil_of_length_eq_zero (by omega)
          exact absurd this hv)
      simp only [List.nil_append] at hs
      rw [eu, thumb_replaceFrom_some uni prev _ [] g1 _ g3 _ hg hs,
        replaceFrom_cons_of_run_none thumb uni urlReplacement (some 'g') ' ' _
          (thumb_run_none_of_head _ _ (by simp)), ih', eup]
      simp

/-! ### A second pass of `thumb.ReplaceAll` finds the same matches -/

theorem noOcc_of_head_not_mem (a : Char) (L run t : Str) (h : ∀ c ∈ run, c ≠ a) :
    NoOcc (a :: L) run t := by
  induction run with
  | nil => exact noOcc_nil _ _
  | cons c cs ih =>
    rw [noOcc_cons]
    refine ⟨?_, ih (fun d hd => h d (by simp [hd]))⟩
    intro hp
    have := h c (by simp)
    rw [List.cons_prefix_cons] at hp
    exact this hp.1.symm

theorem hostCls_ne_colon (c : Char) (h : hostCls c = true) : c ≠ ':' := by
  rintro rfl
  exact absurd h (by decide)

theorem pathCls_ne_colon (c : Char) (h : pathCls c = true) : c ≠ ':' := by
  rintro rfl
  exact absurd h (by decide)

theorem isDigit_ne_colon (c : Char) (h : Char.isDigit c = true) : c ≠ ':' := by
  rintro rfl
  exact absurd h (by decide)

/-- After the `://` of a match of `thumb` no `:` is followed by `/`. -/
theorem thumb_tail_no_colon_slash (hh : Str) (w1 w2 : Char) (d p : Str) (w3 : Char)
    (hhost : ∀ c ∈ hh, hostCls c = true) (hd : ∀ c ∈ d, Char.isDigit c = true)
    (hp : ∀ c ∈ p, pathCls c = true) :
    ¬ [':', '/'] <:+: '/' :: (hh ++ (w1 :: 'p' :: 'i' :: 'n' :: 'i' :: 'm' :: 'g' :: w2
      :: 'c' :: 'o' :: 'm' :: '/' :: (d ++ ('x' :: '/' :: (p ++ (w3 :: 'j' :: 'p' :: 'g'
      :: [])))))) := by
  have h1 : ¬ [':', '/'] <:+: w3 :: 'j' :: 'p' :: 'g' :: [] := by
    simp [List.infix_cons_iff]
  have h2 := not_infix_append_of_noOcc _ p _
    (noOcc_of_head_not_mem ':' ['/'] p _ (fun c hc => pathCls_ne_colon c (hp c hc))) h1
  have h3 : ¬ [':', '/'] <:+: 'x' :: '/' :: (p ++ (w3 :: 'j' :: 'p' :: 'g' :: [])) := by
    simp only [List.infix_cons_iff, not_or]
    exact ⟨by simp, by simp, h2⟩
  have h4 := not_infix_append_of_noOcc _ d _
    (noOcc_of_head_not_mem ':' ['/'] d _ (fun c hc => isDigit_ne_colon c (hd c hc))) h3
  have h5 : ¬ [':', '/'] <:+: w1 :: 'p' :: 'i' :: 'n' :: 'i' :: 'm' :: 'g' :: w2
      :: 'c' :: 'o' :: 'm' :: '/' :: (d ++ ('x' :: '/' :: (p ++ (w3 :: 'j' :: 'p' :: 'g'
      :: [])))) := by
    simp only [List.infix_cons_iff, not_or]
    exact ⟨by simp, by simp, by simp, by simp, by simp, by simp, by simp, by simp, by simp,
      by simp, by simp, by simp, h4⟩
  have h6 := not_infix_append_of_noOcc _ hh _
    (noOcc_of_head_not_mem ':' ['/'] hh _ (fun c hc => hostCls_ne_colon c (hhost c hc))) h5
  simp only [List.infix_cons_iff, not_or]
  exact ⟨by simp, h6⟩

/-- In a match of `thumb`, `:/` occurs only after the scheme. -/
theorem thumb_colon_slash (m1 m2 m3 X Y : Str) (hg : IsThumb m1 m2 m3)
    (e : m1 ++ m2 ++ m3 = X ++ ':' :: '/' :: Y) :
    X = "http".toList ∨ X = "https".toList := by
  obtain ⟨⟨sch, hh, w1, w2, hsch, -, hhost, -, -, rfl⟩, ⟨d, -, hd, rfl⟩,
    ⟨p, w3, -, hp, -, rfl⟩⟩ := hg
  have e0 : (sch ++ "://".toList ++ hh ++ w1 :: "pinimg".toList ++ w2 :: "com/".toList)
      ++ (d ++ "x".toList) ++ ('/' :: p ++ w3 :: "jpg".toList)
      = (sch ++ "://".toList ++ hh ++ w1 :: "pinimg".toList ++ w2 :: "com/".toList)
      ++ ((d ++ "x".toList) ++ (('/' :: p ++ w3 :: "jpg".toList) ++ [])) := by simp
  rw [e0, thumbText_eq] at e
  have hno := thumb_tail_no_colon_slash hh w1 w2 d p w3 hhost hd hp
  rcases append_eq_append_cases _ _ _ _ e with ⟨x, hx, e1⟩ | ⟨x, hx, e1⟩
  · -- `X = sch ++ x`
    rcases x with _ | ⟨x1, _ | ⟨x2, x⟩⟩
    · rw [List.append_nil] at hx
      rw [hx]
      exact hsch
    · simp at e1
    · exfalso
      simp only [List.cons_append, List.cons.injEq] at e1
      exact hno ⟨x, Y, by rw [e1.2.2]; simp⟩
  · -- `sch = X ++ x`
    rcases x with _ | ⟨x1, x⟩
    · rw [List.append_nil] at hx
      rw [← hx]
      exact hsch
    · exfalso
      simp only [List.cons_append, List.cons.injEq] at e1
      have hmem : ':' ∈ sch := by
        rw [hx, ← e1.1]
        simp
      rcases hsch with rfl | rfl <;> exact absurd hmem (by decide)

/-- A match of `thumb` does not run over the start of a later match. -/
theorem thumb_not_over_g1 (m1 m2 m3 v g1 : Str) (hg : IsThumb m1 m2 m3) (hg1 : IsG1 g1)
    (hv : v ≠ []) (h : v ++ g1 <+: m1 ++ m2 ++ m3) : False := by
  obtain ⟨z, hz⟩ := h
  obtain ⟨sch, hh, w1, w2, hsch, -, -, -, -, rfl⟩ := hg1
  have e : m1 ++ m2 ++ m3 = (v ++ sch) ++ ':' :: '/' ::
      ('/' :: (hh ++ w1 :: "pinimg".toList ++ w2 :: "com/".toList ++ z)) := by
    rw [← hz]
    simp
  have hX := thumb_colon_slash m1 m2 m3 _ _ hg e
  have hlen : 0 < v.length := List.length_pos.mpr hv
  rcases hsch with rfl | rfl <;> rcases hX with hX | hX
  · have := congrArg List.length hX
    simp at this
    exact hv this
  · rcases v with _ | ⟨c, _ | ⟨c2, v⟩⟩
    · exact hv rfl
    · simp at hX
    · have := congrArg List.length hX
      simp at this
  · have := congrArg List.length hX
    simp at this
  · have := congrArg List.length hX
    simp at this
    exact hv this

theorem headIsWord_append (a Z Z' : Str) (ha : a ≠ []) :
    headIsWord (a ++ Z) = headIsWord (a ++ Z') := by
  cases a with
  | nil => exact absurd rfl ha
  | cons c t => rfl

/-- Where `thumb` does not match before a later match, it does not match either
once the text after the first group of the later match is changed. -/
theorem thumb_run_none_stable (prev : Option Char) (v g1 Z Z' : Str) (hv : v ≠ [])
    (hg1 : IsG1 g1) (h : thumb.run some ⟨prev, v ++ (g1 ++ Z), []⟩ = none) :
    thumb.run some ⟨prev, v ++ (g1 ++ Z'), []⟩ = none := by
  cases hr : thumb.run some ⟨prev, v ++ (g1 ++ Z'), []⟩ with
  | none => rfl
  | some st =>
    exfalso
    obtain ⟨m1, m2, m3, hg, e, -, -, hp, hrest⟩ := thumb_sound _ _ _ hr
    rcases Nat.lt_or_ge (m1 ++ m2 ++ m3).length (v ++ g1).length with hlt | hge
    · -- the match ends inside `v ++ g1`
      have hpre : m1 ++ m2 ++ m3 <+: v ++ g1 :=
        List.prefix_of_prefix_length_le ⟨st.rest, e.symm⟩
          ⟨Z', by simp⟩ (by omega)
      obtain ⟨a, ha⟩ := hpre
      have hane : a ≠ [] := by
        intro h0
        rw [h0, List.append_nil] at ha
        rw [ha] at hlt
        omega
      have hst : st.rest = a ++ Z' := by
        have e' : m1 ++ m2 ++ m3 ++ st.rest = m1 ++ m2 ++ m3 ++ (a ++ Z') := by
          rw [← e, ← List.append_assoc (m1 ++ m2 ++ m3), ha]
          simp
        exact List.append_cancel_left e'
      have horig : v ++ (g1 ++ Z) = m1 ++ m2 ++ m3 ++ (a ++ Z) := by
        rw [← List.append_assoc (m1 ++ m2 ++ m3), ha]
        simp
      obtain ⟨st', hst'⟩ := thumb_complete prev m1 m2 m3 (a ++ Z) hg hp
        (by rw [headIsWord_append a Z Z' hane, ← hst]; exact hrest)
      rw [← horig, h] at hst'
      exact absurd hst' (by simp)
    · -- the match runs over `g1`
      have hpre : v ++ g1 <+: m1 ++ m2 ++ m3 :=
        List.prefix_of_prefix_length_le ⟨Z', by simp⟩ ⟨st.rest, e.symm⟩ hge
      exact thumb_not_over_g1 m1 m2 m3 v g1 hg hg1 hv hpre

theorem thumb_replaceFrom_head (uni : Char → Bool) (prev : Option Char) (s : Str) :
    headIsWord (thumb.replaceFrom uni urlReplacement prev s) = headIsWord s := by
  cases hs : thumb.search prev s with
  | none => rw [replaceFrom_of_search_none _ _ _ _ _ hs]
  | some f =>
    obtain ⟨g1, g2, g3, hg, e, hsub, -, -, -⟩ := thumb_search_some _ _ _ hs
    have hs' : thumb.search prev s = some ⟨f.pre, [g1 ++ g2 ++ g3, g1, g2, g3], f.rest⟩ := by
      rw [hs, ← hsub]
    rw [thumb_replaceFrom_some uni prev s f.pre g1 g2 g3 f.rest hg hs', e]
    obtain ⟨t, ht⟩ := isG1_head g1 hg.1
    cases hpre : f.pre with
    | nil => rw [ht]; rfl
    | cons c t' => rfl

/-- A second pass of the loop of `thumb.ReplaceAll` changes nothing. -/
theorem thumb_replaceFrom_idem (uni : Char → Bool) (n : Nat) :
    ∀ (s : Str) (prev : Option Char), s.length ≤ n →
      thumb.replaceFrom uni urlReplacement prev (thumb.replaceFrom uni urlReplacement prev s)
        = thumb.replaceFrom uni urlReplacement prev s := by
  induction n with
  | zero =>
    intro s prev hn
    have : s = [] := List.eq_nil_of_length_eq_zero (by omega)
    rw [this, thumb_replaceFrom_nil, thumb_replaceFrom_nil]
  | succ n ih =>
    intro s prev hn
    cases hs : thumb.search prev s with
    | none =>
      rw [replaceFrom_of_search_none _ _ _ _ _ hs, replaceFrom_of_search_none _ _ _ _ _ hs]
    | some f =>
      obtain ⟨g1, g2, g3, hg, e, hsub, hprev, hrest, hmin⟩ := thumb_search_some _ _ _ hs
      have hs' : thumb.search prev s
          = some ⟨f.pre, [g1 ++ g2 ++ g3, g1, g2, g3], f.rest⟩ := by
        rw [hs, ← hsub]
      have hlt : f.rest.length < s.length := by
        apply search_rest_length thumb prev s f hs
        rw [hsub]
        obtain ⟨t, ht⟩ := isG1_head g1 hg.1
        simp [ht]
      rw [thumb_replaceFrom_some uni prev s f.pre g1 g2 g3 f.rest hg hs']
      -- the match of the second pass
      have hg' : IsThumb g1 "1200x".toList g3 :=
        ⟨hg.1, ⟨"1200".toList, by decide, by decide, rfl⟩, hg.2.2⟩
      have hsearch : thumb.search prev (f.pre ++ (g1 ++ "1200x".toList ++ g3
          ++ thumb.replaceFrom uni urlReplacement (some 'g') f.rest))
          = some ⟨f.pre, [g1 ++ "1200x".toList ++ g3, g1, "1200x".toList, g3],
              thumb.replaceFrom uni urlReplacement (some 'g') f.rest⟩ := by
        apply thumb_search prev f.pre g1 _ g3 _ hg' hprev
        · rw [thumb_replaceFrom_head]
          exact hrest
        · intro u v euv hv
          have h0 := hmin u v euv hv
          have e1 : v ++ (g1 ++ g2 ++ g3 ++ f.rest) = v ++ (g1 ++ (g2 ++ g3 ++ f.rest)) := by
            simp
          have e2 : v ++ (g1 ++ "1200x".toList ++ g3
              ++ thumb.replaceFrom uni urlReplacement (some 'g') f.rest)
              = v ++ (g1 ++ ("1200x".toList ++ g3
              ++ thumb.replaceFrom uni urlReplacement (some 'g') f.rest)) := by simp
          rw [e1] at h0
          rw [e2]
          exact thumb_run_none_stable _ v g1 _ _ hv hg.1 h0
      have e3 : f.pre ++ (g1 ++ "1200x".toList ++ g3)
          ++ thumb.replaceFrom uni urlReplacement (some 'g') f.rest
          = f.pre ++ (g1 ++ "1200x".toList ++ g3
          ++ thumb.replaceFrom uni urlReplacement (some 'g') f.rest) := by simp
      rw [e3, thumb_replaceFrom_some uni prev _ f.pre g1 _ g3 _ hg' hsearch,
        ih f.rest (some 'g') (by omega)]
      simp

/-! ## Claims on the URL translator -/

/-- C4: for `u` and `f` without `/`, `feedURL` maps `/u.rss` to
`origin + "/" + u + "/feed.rss"` and `/u/f.rss` to `origin + "/" + u + "/" + g + ".rss"`
with `g = f`, or `feed` when `f` is empty; the paths `/u` and `/u/f` without the
suffix give the same results whenever they do not themselves end in `.rss`; in
particular `feedURL("/alice") = origin + "/alice/feed.rss"`. -/
theorem feedURL_one_or_two_segments (u f : Str) (hu : '/' ∉ u) (hf : '/' ∉ f) :
    feedURL ("/".toList ++ u ++ ".rss".toList)
        = origin ++ "/".toList ++ u ++ "/feed.rss".toList
    ∧ feedURL ("/".toList ++ u ++ "/".toList ++ f ++ ".rss".toList)
        = origin ++ "/".toList ++ u ++ "/".toList
            ++ (if f = [] then "feed".toList else f) ++ ".rss".toList
    ∧ (¬ ".rss".toList <:+ "/".toList ++ u →
        feedURL ("/".toList ++ u) = origin ++ "/".toList ++ u ++ "/feed.rss".toList)
    ∧ (¬ ".rss".toList <:+ "/".toList ++ u ++ "/".toList ++ f →
        feedURL ("/".toList ++ u ++ "/".toList ++ f)
          = origin ++ "/".toList ++ u ++ "/".toList
              ++ (if f = [] then "feed".toList else f) ++ ".rss".toList)
    ∧ feedURL "/alice".toList = origin ++ "/alice/feed.rss".toList := by
  have e1 : "/".toList ++ u = '/' :: u := rfl
  have e2 : "/".toList ++ u ++ "/".toList ++ f = '/' :: (u ++ '/' :: f) := by
    show ['/'] ++ u ++ ['/'] ++ f = _
    simp
  have r1 : origin ++ "/".toList ++ u ++ "/".toList ++ "feed".toList ++ ".rss".toList
      = origin ++ "/".toList ++ u ++ "/feed.rss".toList := by
    show origin ++ ['/'] ++ u ++ ['/'] ++ ['f', 'e', 'e', 'd'] ++ ['.', 'r', 's', 's']
      = origin ++ ['/'] ++ u ++ ['/', 'f', 'e', 'e', 'd', '.', 'r', 's', 's']
    simp
  refine ⟨?_, ?_, ?_, ?_, by decide!⟩
  · rw [feedURL_of_address _ u [] (by rw [userAndFeed_rss, e1, addressOf_one u hu]), if_pos rfl]
    exact r1
  · exact feedURL_of_address _ u f (by rw [userAndFeed_rss, e2, addressOf_two u f hu hf])
  · intro h
    rw [feedURL_of_address _ u [] (by rw [userAndFeed_plain _ h, e1, addressOf_one u hu]),
      if_pos rfl]
    exact r1
  · intro h
    exact feedURL_of_address _ u f
      (by rw [userAndFeed_plain _ h, e2, addressOf_two u f hu hf])

/-- C4 at `u = "alice"`, `f = "boards"`. -/
theorem feedURL_one_or_two_segments_witness :
    feedURL "/alice.rss".toList = origin ++ "/alice/feed.rss".toList
    ∧ feedURL "/alice/boards".toList = origin ++ "/alice/boards.rss".toList := by
  have h := feedURL_one_or_two_segments "alice".toList "boards".toList (by decide) (by decide)
  exact ⟨h.1, h.2.2.2.1 (by decide)⟩

/-! ## Claims on the title reconstructor -/

theorem rewriteItem_of_no_dollar (uni : Char → Bool) (it : Str × Str × Str)
    (h : '$' ∉ fullTitleOf (itemText it)) :
    rewriteItem uni it = itemWithTitle it (fullTitleOf (itemText it)) := by
  have hd : '$' ∉ "<title>".toList ++ fullTitleOf (itemText it) ++ "</title>".toList := by
    simp only [List.mem_append, not_or]
    exact ⟨⟨by decide, h⟩, by decide⟩
  simp only [rewriteItem, itemWithTitle, expand_of_no_dollar uni _ _ hd]
  simp

/-- C1: for `N ≥ 1` and a single-line document `D = H + I_1 + ... + I_N +
"</channel></rss>"` whose parts hold no line break and no `</channel>`, whose head
holds `</lastBuildDate>` and no `<item>`, whose items are
`<item>a<title>t</title>b</item>` with no `</item>` in `a`, `t`, `b`, no `<title>`
in `a`, `b` and no `</title>` in `t`, and for which `getFullTitle` of every item
holds no `$`: `replaceTitles(D)` returns, with a nil error, exactly `H + I'_1 + ...
+ I'_N + "</channel></rss>"`, where `I'_k` is `I_k` with the text returned by
`getFullTitle(I_k)` as inner text of its title element; so the output holds `N`
item fragments in the original order. -/
theorem replaceTitles_reassembles (uni : Char → Bool) (H : Str)
    (items : List (Str × Str × Str)) (hN : 1 ≤ items.length) (hH : WfHead H)
    (hI : ∀ it ∈ items, WfItem it)
    (hD : ∀ it ∈ items, ∀ ft e, getFullTitle (itemText it) = some (ft, e) → '$' ∉ ft) :
    replaceTitles uni (feedText H items) =
        some (H ++ (items.map (fun it => itemWithTitle it (fullTitleOf (itemText it)))).flatten
          ++ "</channel></rss>".toList, none)
    ∧ (∀ it ∈ items, getFullTitle (itemText it) = some (fullTitleOf (itemText it), none))
    ∧ (items.map (fun it => itemWithTitle it (fullTitleOf (itemText it)))).length
        = items.length := by
  refine ⟨?_, fun it _ => getFullTitle_eq _, by simp⟩
  have hne : items ≠ [] := by
    intro h
    rw [h] at hN
    simp at hN
  rw [replaceTitles_wf uni H items hne hH hI]
  have : items.map (rewriteItem uni)
      = items.map (fun it => itemWithTitle it (fullTitleOf (itemText it))) := by
    apply List.map_congr_left
    intro it hit
    exact rewriteItem_of_no_dollar uni it (hD it hit _ _ (getFullTitle_eq _))
  rw [this]

/-- C1 on a feed with one channel-style item. -/
theorem replaceTitles_reassembles_witness :
    replaceTitles (fun _ => false)
      ("<rss><channel></lastBuildDate><item><title>Full...</title><description>&lt;/a&gt;&lt;/p&gt;&lt;p&gt;Full Title Here&lt;/p&gt;</description></item></channel></rss>").toList
    = some (("<rss><channel></lastBuildDate><item><title>Full Title Here</title><description>&lt;/a&gt;&lt;/p&gt;&lt;p&gt;Full Title Here&lt;/p&gt;</description></item></channel></rss>").toList,
        none) := by
  have h := (replaceTitles_reassembles (fun _ => false) "<rss><channel></lastBuildDate>".toList
    [([], "Full...".toList,
      "<description>&lt;/a&gt;&lt;/p&gt;&lt;p&gt;Full Title Here&lt;/p&gt;</description>".toList)]
    (by decide)
    ⟨by decide, by decide, by decide, by decide⟩
    (by
      intro it hit
      rw [List.mem_singleton] at hit
      subst hit
      exact ⟨by decide!, by decide!, by decide!, by decide!, by decide!, by decide!,
        by decide!, by decide!⟩)
    (by
      intro it hit ft e hft
      rw [List.mem_singleton] at hit
      subst hit
      have h0 : getFullTitle (itemText ([], "Full...".toList,
          "<description>&lt;/a&gt;&lt;/p&gt;&lt;p&gt;Full Title Here&lt;/p&gt;</description>".toList))
          = some ("Full Title Here".toList, none) := by decide!
      rw [h0] at hft
      simp only [Option.some.injEq, Prod.mk.injEq] at hft
      rw [← hft.1]
      decide)).1
  have e : fullTitleOf (itemText ([], "Full...".toList,
      "<description>&lt;/a&gt;&lt;/p&gt;&lt;p&gt;Full Title Here&lt;/p&gt;</description>".toList))
      = "Full Title Here".toList := by decide!
  simp only [List.map_cons, List.map_nil, e] at h
  exact h

theorem fullTitleOf_of_no_marker (r : Str)
    (hc : ¬ ∃ pre mid post, r = pre ++ "/a&gt;&lt;/p&gt;&lt;p&gt;".toList ++ mid
      ++ "&lt;/p&gt;".toList ++ post)
    (hb : ¬ ∃ pre mid post, r = pre ++ "&gt;&lt;/a&gt;".toList ++ mid
      ++ "</description>".toList ++ post) : fullTitleOf r = [] := by
  have h1 : fullTitleChannel.search none r = none := by
    unfold fullTitleChannel
    apply search_between_none
    rintro ⟨pre, mid, post, e, -⟩
    exact hc ⟨pre, mid, post, by rw [e]; simp⟩
  have h2 : fullTitleBoard.search none r = none := by
    unfold fullTitleBoard
    apply search_between_none
    rintro ⟨pre, mid, post, e, -⟩
    exact hb ⟨pre, mid, post, by rw [e]; simp⟩
  simp [fullTitleOf, getFullTitle_neither r h1 h2]

/-- C10: in a well-formed single-line feed, an item with one title element that
holds neither the channel marker followed by `&lt;/p&gt;` nor the board marker
followed by `</description>` comes out as the input item with its title element
replaced by `<title></title>` (the items before and after it as the loop rewrites
them). -/
theorem replaceTitles_empty_title (uni : Char → Bool) (H : Str)
    (before after : List (Str × Str × Str)) (it : Str × Str × Str) (hH : WfHead H)
    (hI : ∀ i ∈ before ++ it :: after, WfItem i)
    (hc : ¬ ∃ pre mid post, itemText it = pre ++ "/a&gt;&lt;/p&gt;&lt;p&gt;".toList ++ mid
      ++ "&lt;/p&gt;".toList ++ post)
    (hb : ¬ ∃ pre mid post, itemText it = pre ++ "&gt;&lt;/a&gt;".toList ++ mid
      ++ "</description>".toList ++ post) :
    replaceTitles uni (feedText H (before ++ it :: after)) =
      some (H ++ (before.map (rewriteItem uni)).flatten
        ++ ("<item>".toList ++ it.1 ++ "<title></title>".toList ++ it.2.2 ++ "</item>".toList)
        ++ (after.map (rewriteItem uni)).flatten ++ "</channel></rss>".toList, none) := by
  rw [replaceTitles_wf uni H _ (by simp) hH hI]
  have h0 := fullTitleOf_of_no_marker _ hc hb
  have h1 : rewriteItem uni it
      = "<item>".toList ++ it.1 ++ "<title></title>".toList ++ it.2.2 ++ "</item>".toList := by
    rw [rewriteItem_of_no_dollar uni it (by rw [h0]; simp), h0]
    simp [itemWithTitle]
  simp [h1]

/-- C10 on a feed whose one item has no full-title pattern. -/
theorem replaceTitles_empty_title_witness :
    replaceTitles (fun _ => false)
      "<rss><channel></lastBuildDate><item><title>Short</title><description>text</description></item></channel></rss>".toList
    = some ("<rss><channel></lastBuildDate><item><title></title><description>text</description></item></channel></rss>".toList,
        none) :=
  replaceTitles_empty_title (fun _ => false) "<rss><channel></lastBuildDate>".toList [] []
    ([], "Short".toList, "<description>text</description>".toList)
    ⟨by decide, by decide, by decide, by decide⟩
    (by
      intro i hi
      simp only [List.nil_append, List.mem_singleton] at hi
      subst hi
      exact ⟨by decide!, by decide!, by decide!, by decide!, by decide!, by decide!,
        by decide!, by decide!⟩)
    (by
      rintro ⟨pre, mid, post, e⟩
      have h : "/a&gt;&lt;/p&gt;&lt;p&gt;".toList <:+: itemText
          ([], "Short".toList, "<description>text</description>".toList) :=
        ⟨pre, mid ++ "&lt;/p&gt;".toList ++ post, by rw [e]; simp⟩
      revert h
      decide!)
    (by
      rintro ⟨pre, mid, post, e⟩
      have h : "&gt;&lt;/a&gt;".toList <:+: itemText
          ([], "Short".toList, "<description>text</description>".toList) :=
        ⟨pre, mid ++ "</description>".toList ++ post, by rw [e]; simp⟩
      revert h
      decide!)

/-- C2, the code at a failing input: for the channel-style full title
`Win $100 now` the title element of the output is `<title>Win  now</title>`; the
`$100` of the text is read as a template variable by `ReplaceAll`. -/
theorem replaceTitles_dollar_title (uni : Char → Bool) :
    replaceTitles uni
      "<rss><channel></lastBuildDate><item><title>Win...</title><description>&lt;/a&gt;&lt;/p&gt;&lt;p&gt;Win $100 now&lt;/p&gt;</description></item></channel></rss>".toList
    = some ("<rss><channel></lastBuildDate><item><title>Win  now</title><description>&lt;/a&gt;&lt;/p&gt;&lt;p&gt;Win $100 now&lt;/p&gt;</description></item></channel></rss>".toList,
        none) := rfl

/-- C7, the code at a failing input: on a feed whose second item has no title
element `replaceTitles` does not return; it indexes the missing match of
`titlePat` and panics. -/
theorem replaceTitles_item_without_title (uni : Char → Bool) :
    replaceTitles uni
      "<rss><channel></lastBuildDate><item><title>A</title></item><item><description>x</description></item></channel></rss>".toList
    = none := rfl

/-- C5, the code on every body that lacks `<item>`, `</channel></rss>` or
`</lastBuildDate>`: `replaceTitles` does not return an error value; it indexes a
missing match and panics. -/
theorem replaceTitles_missing_marker (uni : Char → Bool) (body : Str)
    (h : ¬ "<item>".toList <:+: body ∨ ¬ "</channel></rss>".toList <:+: body
      ∨ ¬ "</lastBuildDate>".toList <:+: body) :
    replaceTitles uni body = none := by
  have hfeed : (¬ "<item>".toList <:+: body ∨ ¬ "</channel></rss>".toList <:+: body) →
      feedPat.FindSubmatch body = [] := by
    intro h'
    unfold feedPat
    rcases findSubmatch_headTail_cases "<item>".toList "</channel></rss>".toList body
      with h0 | ⟨w, pre, H, X, Y, e, -, -, -⟩
    · exact h0
    · exfalso
      rcases h' with h' | h'
      · exact h' ⟨pre ++ H, X ++ "</channel></rss>".toList ++ Y, by rw [e]; simp⟩
      · exact h' ⟨pre ++ H ++ "<item>".toList ++ X, Y, by rw [e]; simp⟩
  rcases h with h | h | h
  · simp [replaceTitles, hfeed (Or.inl h)]
  · simp [replaceTitles, hfeed (Or.inr h)]
  · have hitems : itemsPat.FindSubmatch body = [] := by
      unfold Re.FindSubmatch itemsPat
      rw [search_between_none_of_absent _ _ _ _ h]
    cases h1 : (feedPat.FindSubmatch body)[1]? <;>
      cases h2 : (feedPat.FindSubmatch body)[2]? <;>
      simp [replaceTitles, h1, h2, hitems]

/-- C5 on the body `hello`, which has none of the markers. -/
theorem replaceTitles_missing_marker_witness :
    replaceTitles (fun _ => false) "hello".toList = none :=
  replaceTitles_missing_marker (fun _ => false) "hello".toList (Or.inl (by decide))

/-! ### Head and tail -/

theorem noOcc_of_noOcc_append (L x y y' : Str) (h : NoOcc L x (y ++ y')) : NoOcc L x y := by
  intro u v e hv hp
  apply h u v e hv
  rw [← List.append_assoc]
  exact hp.trans (List.prefix_append _ _)

/-- The first occurrence of `L` lies at or before any other occurrence. -/
theorem first_occurrence_le (L P R A B : Str) (hfirst : NoOcc L P (L ++ R))
    (e : P ++ L ++ R = A ++ L ++ B) : ∃ R1, R = R1 ++ B := by
  have hPA : P <+: A := by
    rcases Nat.le_total P.length A.length with hle | hle
    · exact List.prefix_of_prefix_length_le ⟨L ++ R, (List.append_assoc P L R).symm⟩
        ⟨L ++ B, by rw [← List.append_assoc, ← e]⟩ hle
    · have hAP : A <+: P :=
        List.prefix_of_prefix_length_le ⟨L ++ B, by rw [← List.append_assoc, ← e]⟩
          ⟨L ++ R, (List.append_assoc P L R).symm⟩ hle
      obtain ⟨v, hv⟩ := hAP
      by_cases hvn : v = []
      · rw [hvn, List.append_nil] at hv
        rw [hv]
      · exfalso
        apply hfirst A v hv.symm hvn
        rw [← hv] at e
        simp only [List.append_assoc] at e
        have := List.append_cancel_left e
        exact ⟨B, this.symm⟩
  obtain ⟨M, hM⟩ := hPA
  rw [← hM] at e
  simp only [List.append_assoc] at e
  have e' := List.append_cancel_left e
  have hsuf : B <:+ R := by
    apply List.suffix_of_suffix_length_le ⟨M ++ L, by rw [e']; simp⟩ ⟨L, rfl⟩
    have := congrArg List.length e'
    simp only [List.length_append] at this
    omega
  obtain ⟨R1, hR1⟩ := hsuf
  exact ⟨R1, hR1.symm⟩

/-- What `replaceTitles` returns starts with group 1 of `feedPat` and ends with
its group 2. -/
theorem replaceTitles_some (uni : Char → Bool) (body out : Str) (e : Option Error)
    (h : replaceTitles uni body = some (out, e)) :
    ∃ head tail buf, (feedPat.FindSubmatch body)[1]? = some head ∧
      (feedPat.FindSubmatch body)[2]? = some tail ∧ out = head ++ buf ++ tail ∧ e = none := by
  unfold replaceTitles at h
  cases h1 : (feedPat.FindSubmatch body)[1]? with
  | none => simp [h1] at h
  | some head =>
    cases h2 : (feedPat.FindSubmatch body)[2]? with
    | none => simp [h1, h2] at h
    | some tail =>
      cases h3 : (itemsPat.FindSubmatch body)[1]? with
      | none => simp [h1, h2, h3] at h
      | some itemsElements =>
        cases h4 : (itemPat.FindAllSubmatch itemsElements).foldlM (replaceTitlesStep uni) []
          with
        | none => simp [h1, h2, h3, h4] at h
        | some buf =>
          simp only [h1, h2, h3, h4, Option.bind_eq_bind, Option.some_bind, Option.pure_def,
            Option.some.injEq, Prod.mk.injEq] at h
          exact ⟨head, tail, buf, rfl, rfl, h.1.symm, h.2.symm⟩

/-- A text `P` with no `<item>` that starts in it has no occurrence of `<item>` in
`P` followed by `<item>`. -/
theorem noOcc_item_of_first (P z : Str) (h : ¬ "<item>".toList <:+: P ++ "<item".toList) :
    NoOcc "<item>".toList P ("<item>".toList ++ z) := by
  intro u v e hv hpre
  apply h
  have e1 : v ++ ("<item>".toList ++ z) = (v ++ "<item".toList) ++ (">".toList ++ z) := by
    simp
  rw [e1] at hpre
  have hlen : ("<item>".toList).length ≤ (v ++ "<item".toList).length := by
    have : 0 < v.length := List.length_pos.mpr hv
    simp only [List.length_append]
    have h6 : ("<item>".toList).length = 6 := rfl
    have h5 : ("<item".toList).length = 5 := rfl
    omega
  have hp : "<item>".toList <+: v ++ "<item".toList :=
    List.prefix_of_prefix_length_le hpre (List.prefix_append _ _) hlen
  obtain ⟨t, ht⟩ := hp
  exact ⟨u, t, by rw [e, List.append_assoc, ht]; simp only [List.append_assoc]⟩

/-- C6 as amended: for every body on which `replaceTitles` returns a document
(line breaks and bytes after the closing marker allowed), the output ends with
the marker `</channel></rss>` itself; and when the bytes `P` that precede the
first `<item>` of the body hold no line break and a closing marker follows the
first `<item>` with no line break in between, the output has `P` as a prefix.
The bytes after that closing marker may be any bytes. -/
theorem replaceTitles_head_tail (uni : Char → Bool) (body out : Str) (e : Option Error)
    (h : replaceTitles uni body = some (out, e)) :
    "</channel></rss>".toList <:+ out
    ∧ ∀ P X Y, body = P ++ "<item>".toList ++ X ++ "</channel></rss>".toList ++ Y →
        ¬ "<item>".toList <:+: P ++ "<item".toList → '\n' ∉ P → '\n' ∉ X → P <+: out := by
  obtain ⟨head, tail, buf, h1, h2, hout, -⟩ := replaceTitles_some uni body out e h
  have hfp : feedPat = Re.cat [.group 1 (.lazyStar isDot), .lit "<item>".toList, .star isDot,
      .group 2 (.lit "</channel></rss>".toList)] := rfl
  refine ⟨?_, ?_⟩
  · have hcases := findSubmatch_headTail_cases "<item>".toList "</channel></rss>".toList body
    rw [← hfp] at hcases
    rcases hcases with h0 | ⟨w, pre, H, X, Y, -, -, -, hw⟩
    · rw [h0] at h1
      simp at h1
    · rw [hw] at h2
      simp only [List.getElem?_cons_succ, List.getElem?_cons_zero, Option.some.injEq] at h2
      subst h2
      exact ⟨head ++ buf, by rw [hout]⟩
  · intro P X Y eb hfirst hP hX
    obtain ⟨w, hw⟩ := findSubmatch_headTail "<item>".toList "</channel></rss>".toList P
      X Y hP hX (noOcc_item_of_first P _ hfirst)
    have eb2 : body = P ++ ("<item>".toList ++ X ++ "</channel></rss>".toList ++ Y) := by
      rw [eb]
      simp only [List.append_assoc]
    rw [← hfp, ← eb2] at hw
    rw [hw] at h1
    simp only [List.getElem?_cons_succ, List.getElem?_cons_zero, Option.some.injEq] at h1
    subst h1
    exact ⟨buf ++ tail, by rw [hout]; simp only [List.append_assoc]⟩

/-- C6 as amended, on a one-line feed followed by a line break and further bytes. -/
theorem replaceTitles_head_tail_witness :
    "</channel></rss>".toList
        <:+ "<rss></lastBuildDate><item><title></title></item></channel></rss>".toList
    ∧ "<rss></lastBuildDate>".toList
        <+: "<rss></lastBuildDate><item><title></title></item></channel></rss>".toList :=
  have h := replaceTitles_head_tail (fun _ => false)
    "<rss></lastBuildDate><item><title>a</title></item></channel></rss>\n<!-- end -->\n".toList
    "<rss></lastBuildDate><item><title></title></item></channel></rss>".toList none
    (by decide!)
  ⟨h.1, h.2 "<rss></lastBuildDate>".toList "<title>a</title></item>".toList
    "\n<!-- end -->\n".toList (by decide) (by decide) (by decide) (by decide)⟩

/-- C6 fails as stated: on a feed with a line before the line of the items and a
line break after the closing marker, `replaceTitles` returns a document that
lacks the bytes before the first `<item>` that stand on the earlier line, and
lacks the line break after `</channel></rss>`. -/
theorem replaceTitles_head_tail_lost :
    (∀ uni, replaceTitles uni
      "<?xml?>\n<rss></lastBuildDate><item><title>a</title></item></channel></rss>\n".toList
      = some ("<rss></lastBuildDate><item><title></title></item></channel></rss>".toList, none))
    ∧ "<?xml?>\n<rss></lastBuildDate><item><title>a</title></item></channel></rss>\n".toList
      = "<?xml?>\n<rss></lastBuildDate>".toList ++ "<item>".toList
        ++ "<title>a</title></item></channel></rss>\n".toList
    ∧ ¬ "<item>".toList <:+: "<?xml?>\n<rss></lastBuildDate>".toList ++ "<item".toList
    ∧ ¬ "<?xml?>\n<rss></lastBuildDate>".toList
        <+: "<rss></lastBuildDate><item><title></title></item></channel></rss>".toList
    ∧ "<?xml?>\n<rss></lastBuildDate><item><title>a</title></item></channel></rss>\n".toList
      = "<?xml?>\n<rss></lastBuildDate><item><title>a</title></item>".toList
        ++ "</channel></rss>\n".toList
    ∧ ¬ "</channel></rss>\n".toList
        <:+ "<rss></lastBuildDate><item><title></title></item></channel></rss>".toList :=
  ⟨fun _ => rfl, by decide, by decide, by decide, by decide, by decide⟩

/-! ## Claims on the thumbnail rewriter -/

/-- C9, the code at a failing input: the buffer holds no `.pinimg.com/`, its URL
is on the host `notpinimg.com`, and `replaceThumbs` rewrites it all the same; the
`.` before `pinimg` in the pattern matches any character. -/
theorem replaceThumbs_other_host (uni : Char → Bool) :
    ¬ ".pinimg.com/".toList <:+: "see https://notpinimg.com/736x/ab/cd/ef.jpg".toList
    ∧ replaceThumbs uni ("see https://notpinimg.com/736x/ab/cd/ef.jpg".toList, none)
      = ("see https://notpinimg.com/1200x/ab/cd/ef.jpg".toList, none) :=
  ⟨by decide, rfl⟩

/-- C3: for every finite list of well-shaped URLs (the empty list included),
`replaceThumbs` applied to the URLs joined by single spaces returns, without
error, their upgrades joined by single spaces: scheme, host and path suffix are
kept and the resolution segment becomes `1200`; in particular
`https://i.pinimg.com/736x/ab/cd/ef.jpg` becomes
`https://i.pinimg.com/1200x/ab/cd/ef.jpg`. -/
theorem replaceThumbs_upgrades (uni : Char → Bool) (us : List (Str × Str × Str × Str))
    (h : ∀ u ∈ us, WellShaped u) :
    replaceThumbs uni (joinSpaces (us.map urlOf), none)
        = (joinSpaces (us.map upgradeOf), none)
    ∧ replaceThumbs uni ("https://i.pinimg.com/736x/ab/cd/ef.jpg".toList, none)
        = ("https://i.pinimg.com/1200x/ab/cd/ef.jpg".toList, none) := by
  refine ⟨?_, rfl⟩
  simp only [replaceThumbs, replaceAll_eq_replaceFrom]
  rw [thumb_replaceFrom_urls uni us h none rfl]

/-- C3 on two URLs, one `http` and one `https`. -/
theorem replaceThumbs_upgrades_witness :
    replaceThumbs (fun _ => false)
      ("http://a-1.pinimg.com/75x/0f/aa.jpg https://i.pinimg.com/736x/ab/cd/ef.jpg".toList, none)
    = ("http://a-1.pinimg.com/1200x/0f/aa.jpg https://i.pinimg.com/1200x/ab/cd/ef.jpg".toList,
        none) :=
  (replaceThumbs_upgrades (fun _ => false)
    [("http".toList, "a-1".toList, "75".toList, "0f/aa".toList),
     ("https".toList, "i".toList, "736".toList, "ab/cd/ef".toList)]
    (by
      intro u hu
      simp only [List.mem_cons, List.mem_singleton, List.not_mem_nil, or_false] at hu
      rcases hu with rfl | rfl
      · exact ⟨by decide, by decide, by decide, by decide, by decide, by decide, by decide⟩
      · exact ⟨by decide, by decide, by decide, by decide, by decide, by decide, by decide⟩)).1

/-- C8: the thumbnail rewrite is idempotent; for every buffer `b`, applying
`thumb.ReplaceAll` with `urlReplacement` to its own output gives the same buffer
as applying it once. -/
theorem thumb_replaceAll_idempotent (uni : Char → Bool) (b : Str) :
    thumb.ReplaceAll uni (thumb.ReplaceAll uni b urlReplacement) urlReplacement
      = thumb.ReplaceAll uni b urlReplacement := by
  simp only [replaceAll_eq_replaceFrom]
  exact thumb_replaceFrom_idem uni b.length b none (Nat.le_refl _)

/-! ## More claims on the URL translator -/

theorem cut_eq_none (sep : Char) (s : Str) (h : cut sep s = none) : sep ∉ s := by
  induction s with
  | nil => simp
  | cons c t ih =>
    simp only [cut] at h
    by_cases hc : c = sep
    · simp [hc] at h
    · simp only [hc, if_false] at h
      cases ht : cut sep t with
      | none =>
        have := ih ht
        simp only [List.mem_cons, not_or]
        exact ⟨fun e => hc e.symm, this⟩
      | some ab => simp [ht] at h

theorem cut_eq_some (sep : Char) (s a b : Str) (h : cut sep s = some (a, b)) :
    s = a ++ sep :: b ∧ sep ∉ a := by
  induction s generalizing a with
  | nil => simp [cut] at h
  | cons c t ih =>
    simp only [cut] at h
    by_cases hc : c = sep
    · simp only [hc, if_true, Option.some.injEq, Prod.mk.injEq] at h
      obtain ⟨rfl, rfl⟩ := h
      simp [hc]
    · simp only [hc, if_false] at h
      cases ht : cut sep t with
      | none => simp [ht] at h
      | some ab =>
        obtain ⟨a', b'⟩ := ab
        simp only [ht, Option.some.injEq, Prod.mk.injEq] at h
        obtain ⟨rfl, rfl⟩ := h
        obtain ⟨e, hn⟩ := ih a' ht
        refine ⟨by simp [e], ?_⟩
        simp only [List.mem_cons, not_or]
        exact ⟨fun e' => hc e'.symm, hn⟩

/-- Every piece of a split is free of the separator, except possibly the last of
a split that was cut short; that one is no longer than what the cuts left. -/
theorem splitLoop_piece (sep : Char) (k : Nat) (s : Str) (i : Nat) (p : Str)
    (h : (splitLoop sep k s)[i]? = some p) :
    sep ∉ p ∨ (i = k ∧ p.length + k ≤ s.length) := by
  induction k generalizing s i with
  | zero =>
    simp only [splitLoop] at h
    cases i with
    | zero =>
      simp only [List.getElem?_cons_zero, Option.some.injEq] at h
      subst h
      exact Or.inr ⟨rfl, by simp⟩
    | succ j => simp at h
  | succ k ih =>
    simp only [splitLoop] at h
    cases hc : cut sep s with
    | none =>
      simp only [hc] at h
      cases i with
      | zero =>
        simp only [List.getElem?_cons_zero, Option.some.injEq] at h
        subst h
        exact Or.inl (cut_eq_none sep _ hc)
      | succ j => simp at h
    | some ab =>
      obtain ⟨a, b⟩ := ab
      simp only [hc] at h
      obtain ⟨e, hn⟩ := cut_eq_some sep s a b hc
      cases i with
      | zero =>
        simp only [List.getElem?_cons_zero, Option.some.injEq] at h
        subst h
        exact Or.inl hn
      | succ j =>
        simp only [List.getElem?_cons_succ] at h
        rcases ih b j h with h1 | ⟨h1, h2⟩
        · exact Or.inl h1
        · refine Or.inr ⟨by omega, ?_⟩
          rw [e]
          simp only [List.length_append, List.length_cons]
          omega

/-- The second and third pieces of `SplitN(path, "/", 4)` hold no `/`. -/
theorem splitN_piece (s : Str) (i : Nat) (p : Str) (hi : i = 1 ∨ i = 2)
    (h : (splitN s '/' 4)[i]? = some p) : '/' ∉ p := by
  simp only [splitN, show (4 : Nat) ≠ 0 by decide, if_false] at h
  rcases splitLoop_piece '/' _ s i p h with h1 | ⟨h1, h2⟩
  · exact h1
  · have hp : p = [] := List.eq_nil_of_length_eq_zero (by omega)
    rw [hp]
    simp

theorem getD_no_slash (ps : List Str) (i : Nat) (h : ∀ p, ps[i]? = some p → '/' ∉ p) :
    '/' ∉ ps.getD i [] := by
  rw [List.getD_eq_getElem?_getD]
  cases hp : ps[i]? with
  | none => simp
  | some p => simpa using h p hp

theorem userAndFeed_no_slash (path : Str) :
    '/' ∉ (userAndFeed path).1 ∧ '/' ∉ (userAndFeed path).2 := by
  simp only [userAndFeed]
  constructor
  · split
    · exact getD_no_slash _ 1 (fun p h => splitN_piece _ 1 p (Or.inl rfl) h)
    · simp
  · split
    · exact getD_no_slash _ 2 (fun p h => splitN_piece _ 2 p (Or.inr rfl) h)
    · simp

theorem trimSuffix_after_slash (a rest : Str) :
    ∃ rest', trimSuffix (a ++ '/' :: rest) ".rss".toList = a ++ '/' :: rest' := by
  by_cases h : ".rss".toList <:+ a ++ '/' :: rest
  · have h1 : ".rss".toList <:+ '/' :: rest := by
      rcases List.suffix_or_suffix_of_suffix h (List.suffix_append a ('/' :: rest)) with h' | h'
      · exact h'
      · exact absurd (h'.subset (List.mem_cons_self _ _)) (by decide)
    have h2 : ".rss".toList <:+ rest := by
      rcases List.suffix_cons_iff.mp h1 with h' | h'
      · exact absurd h' (by simp)
      · exact h'
    obtain ⟨r, hr⟩ := h2
    refine ⟨r, ?_⟩
    have e : a ++ '/' :: rest = (a ++ '/' :: r) ++ ".rss".toList := by
      rw [← hr]
      simp
    rw [e, trimSuffix_append]
  · exact ⟨rest, trimSuffix_of_not_suffix _ _ h⟩

theorem splitN_three (u f rest : Str) (hu : '/' ∉ u) (hf : '/' ∉ f) :
    splitN ('/' :: (u ++ '/' :: (f ++ '/' :: rest))) '/' 4 = [[], u, f, rest] := by
  have hk : min 4 (('/' :: (u ++ '/' :: (f ++ '/' :: rest))).length + 1) - 1 = 0 + 1 + 1 + 1 := by
    simp only [List.length_cons, List.length_append]
    omega
  have e := splitLoop_succ_append '/' (0 + 1 + 1) [] (u ++ '/' :: (f ++ '/' :: rest)) (by simp)
  simp only [List.nil_append] at e
  unfold splitN
  rw [if_neg (by decide), hk, e, splitLoop_succ_append '/' _ u _ hu,
    splitLoop_succ_append '/' _ f _ hf]
  rfl

/-- C11: for `u` and `f` without `/` and every `rest`, `feedURL("/" + u + "/" + f +
"/" + rest)` is `origin + "/" + u + "/" + g + ".rss"` with `g = f`, or `feed` when
`f` is empty; in particular `feedURL("/alice/boards/x") = origin +
"/alice/boards.rss"`. -/
theorem feedURL_ignores_rest (u f rest : Str) (hu : '/' ∉ u) (hf : '/' ∉ f) :
    feedURL ("/".toList ++ u ++ "/".toList ++ f ++ "/".toList ++ rest)
        = origin ++ "/".toList ++ u ++ "/".toList
            ++ (if f = [] then "feed".toList else f) ++ ".rss".toList
    ∧ feedURL "/alice/boards/x".toList = origin ++ "/alice/boards.rss".toList := by
  refine ⟨?_, by decide!⟩
  have e : "/".toList ++ u ++ "/".toList ++ f ++ "/".toList ++ rest
      = ('/' :: (u ++ '/' :: f)) ++ '/' :: rest := by
    show ['/'] ++ u ++ ['/'] ++ f ++ ['/'] ++ rest = _
    simp
  obtain ⟨rest', hr⟩ := trimSuffix_after_slash ('/' :: (u ++ '/' :: f)) rest
  apply feedURL_of_address
  unfold userAndFeed
  rw [e, hr]
  have e2 : '/' :: (u ++ '/' :: f) ++ '/' :: rest' = '/' :: (u ++ '/' :: (f ++ '/' :: rest')) := by
    simp
  simp only [e2, splitN_three u f rest' hu hf]
  simp

/-- C11 at `u = "alice"`, `f = "boards"` and a rest that holds `/` and ends in
`.rss`. -/
theorem feedURL_ignores_rest_witness :
    feedURL "/alice/boards/x/y.rss".toList = origin ++ "/alice/boards.rss".toList :=
  (feedURL_ignores_rest "alice".toList "boards".toList "x/y.rss".toList
    (by decide) (by decide)).1

/-- C12, the code at failing inputs: the URL built for `/alice/boards` and for
`/alice` has two slashes after the host, since `origin` ends in `/` and `feedURL`
adds another; every URL `feedURL` builds starts with
`https://www.pinterest.com//`. -/
theorem feedURL_double_slash :
    feedURL "/alice/boards".toList = "https://www.pinterest.com//alice/boards.rss".toList
    ∧ feedURL "/alice".toList = "https://www.pinterest.com//alice/feed.rss".toList
    ∧ feedURL "/alice/boards".toList ≠ "https://www.pinterest.com/alice/boards.rss".toList
    ∧ feedURL "/alice".toList ≠ "https://www.pinterest.com/alice/feed.rss".toList
    ∧ ∀ path, "https://www.pinterest.com//".toList <+: feedURL path := by
  refine ⟨by decide!, by decide!, by decide!, by decide!, ?_⟩
  intro path
  have e : origin ++ "/".toList = "https://www.pinterest.com//".toList := by decide
  simp only [feedURL, e, List.append_assoc]
  exact List.prefix_append _ _

/-- C20: for every path there are `u` and `g` without `/`, `g` non-empty, such
that `feedURL(path) = origin + "/" + u + "/" + g + ".rss"`. -/
theorem feedURL_two_segments (path : Str) :
    ∃ u g, '/' ∉ u ∧ '/' ∉ g ∧ g ≠ [] ∧
      feedURL path = origin ++ "/".toList ++ u ++ "/".toList ++ g ++ ".rss".toList := by
  obtain ⟨h1, h2⟩ := userAndFeed_no_slash path
  refine ⟨(userAndFeed path).1,
    if (userAndFeed path).2 = [] then "feed".toList else (userAndFeed path).2, h1, ?_, ?_,
    feedURL_of_address path _ _ rfl⟩
  · split
    · decide
    · exact h2
  · split
    · decide
    · assumption

/-! ## Header maps -/

theorem lookup_filter_ne (h : Header) (k name : Str) (hne : name ≠ k) :
    (h.filter (fun e => e.1 != k)).lookup name = h.lookup name := by
  induction h with
  | nil => rfl
  | cons e t ih =>
    obtain ⟨a, b⟩ := e
    by_cases hak : a = k
    · subst hak
      have h1 : (name == a) = false := by simpa using hne
      simp [List.filter_cons, List.lookup_cons, h1, ih]
    · have h2 : (a != k) = true := by simpa using hak
      simp only [List.filter_cons, h2, if_true, List.lookup_cons, ih]

theorem lookup_put (h : Header) (k name : Str) (vs : List Str) :
    (Header.put h k vs).lookup name = if name = k then some vs else h.lookup name := by
  unfold Header.put
  by_cases hne : name = k
  · subst hne
    simp [List.lookup_cons]
  · have h1 : (name == k) = false := by simpa using hne
    simp only [List.lookup_cons, h1, if_neg hne, lookup_filter_ne h k name hne]

theorem values_put (h : Header) (k name : Str) (vs : List Str) :
    Header.values (Header.put h k vs) name = if name = k then vs else Header.values h name := by
  unfold Header.values
  rw [lookup_put]
  split <;> rfl

theorem values_nil (name : Str) : Header.values [] name = [] := rfl

theorem values_cons (k : Str) (vs : List Str) (t : Header) (name : Str) :
    Header.values ((k, vs) :: t) name = if name = k then vs else Header.values t name := by
  unfold Header.values
  by_cases hne : name = k
  · subst hne
    simp [List.lookup_cons]
  · have h1 : (name == k) = false := by simpa using hne
    simp only [List.lookup_cons, h1, if_neg hne]

theorem values_of_not_key (h : Header) (name : Str) (hk : name ∉ h.map Prod.fst) :
    Header.values h name = [] := by
  induction h with
  | nil => rfl
  | cons e t ih =>
    obtain ⟨a, b⟩ := e
    simp only [List.map_cons, List.mem_cons, not_or] at hk
    rw [values_cons, if_neg hk.1, ih hk.2]

theorem values_addAll (k : Str) (vals : List Str) (acc : Header) (name : Str) :
    Header.values (vals.foldl (fun acc val => Header.Add acc k val) acc) name
      = if name = canonicalHeaderKey k
          then Header.values acc (canonicalHeaderKey k) ++ vals
          else Header.values acc name := by
  induction vals generalizing acc with
  | nil => by_cases hne : name = canonicalHeaderKey k <;> simp [hne]
  | cons v t ih =>
    rw [List.foldl_cons, ih]
    by_cases hne : name = canonicalHeaderKey k
    · simp only [if_pos hne, Header.Add, values_put, if_true, List.append_assoc,
        List.singleton_append]
    · simp only [if_neg hne, Header.Add, values_put]

theorem canonical_acceptEncoding :
    canonicalHeaderKey "Accept-Encoding".toList = "Accept-Encoding".toList := by decide

theorem values_of_mem (h : Header) (e : Str × List Str) (hn : (h.map Prod.fst).Nodup)
    (he : e ∈ h) : Header.values h e.1 = e.2 := by
  induction h with
  | nil => cases he
  | cons x t ih =>
    obtain ⟨a, b⟩ := x
    simp only [List.map_cons, List.nodup_cons] at hn
    rw [values_cons]
    rcases List.mem_cons.1 he with h1 | h1
    · subst h1
      rw [if_pos rfl]
    · have hne : e.1 ≠ a := by
        intro h2
        exact hn.1 (h2 ▸ List.mem_map_of_mem Prod.fst h1)
      rw [if_neg hne, ih hn.2 h1]

theorem values_forwardLoop (inbound : Header) (acc : Header) (name : Str)
    (hnodup : (inbound.map (fun e => canonicalHeaderKey e.1)).Nodup) :
    Header.values (inbound.foldl
        (fun acc e => e.2.foldl (fun acc val => Header.Add acc e.1 val) acc) acc) name
      = Header.values acc name
          ++ Header.values (inbound.map (fun e => (canonicalHeaderKey e.1, e.2))) name := by
  induction inbound generalizing acc with
  | nil => simp [values_nil]
  | cons e t ih =>
    obtain ⟨a, b⟩ := e
    simp only [List.map_cons, List.nodup_cons] at hnodup
    rw [List.foldl_cons, ih _ hnodup.2, values_addAll, List.map_cons, values_cons]
    by_cases hne : name = canonicalHeaderKey a
    · subst hne
      have hk : canonicalHeaderKey a
          ∉ (t.map (fun e => (canonicalHeaderKey e.1, e.2))).map Prod.fst := by
        rw [List.map_map]
        exact hnodup.1
      simp only [if_true, values_of_not_key _ _ hk, List.append_nil]
    · simp only [if_neg hne]

theorem values_forwardHeaders (inbound : Header) (name : Str)
    (hnodup : (inbound.map (fun e => canonicalHeaderKey e.1)).Nodup) :
    Header.values (forwardHeaders inbound) name
      = if name = "Accept-Encoding".toList then ["gzip, deflate".toList]
        else Header.values (inbound.map (fun e => (canonicalHeaderKey e.1, e.2))) name := by
  unfold forwardHeaders
  simp only [Header.Set, values_put, canonical_acceptEncoding]
  by_cases hne : name = "Accept-Encoding".toList
  · rw [if_pos hne, if_pos hne]
  · rw [if_neg hne, if_neg hne, values_forwardLoop _ _ _ hnodup, values_nil, List.nil_append]

theorem canonical_of_mem_headers (name : Str) (h : name ∈ headers) :
    canonicalHeaderKey name = name := by
  have : ∀ k ∈ headers, canonicalHeaderKey k = k := by decide
  exact this name h

theorem lookup_copyLoop (resHeader : Header) (keys : List Str) (out : Header) (name : Str)
    (hcanon : ∀ k ∈ keys, canonicalHeaderKey k = k) :
    (keys.foldl
        (fun out key =>
          let val := Header.Get resHeader key
          if val ≠ [] then Header.Set out key val else out) out).lookup name
      = if name ∈ keys ∧ Header.Get resHeader name ≠ []
          then some [Header.Get resHeader name] else out.lookup name := by
  induction keys generalizing out with
  | nil => simp
  | cons k t ih =>
    have hk : canonicalHeaderKey k = k := hcanon k (List.mem_cons_self _ _)
    rw [List.foldl_cons, ih _ (fun k hk => hcanon k (List.mem_cons_of_mem _ hk))]
    by_cases hmem : name ∈ t ∧ Header.Get resHeader name ≠ []
    · rw [if_pos hmem, if_pos ⟨List.mem_cons_of_mem _ hmem.1, hmem.2⟩]
    · rw [if_neg hmem]
      show (if Header.Get resHeader k ≠ [] then Header.Set out k (Header.Get resHeader k)
          else out).lookup name = _
      by_cases hval : Header.Get resHeader k ≠ []
      · rw [if_pos hval, Header.Set, lookup_put, hk]
        by_cases hne : name = k
        · subst hne
          rw [if_pos rfl, if_pos ⟨List.mem_cons_self _ _, hval⟩]
        · have : ¬ (name ∈ k :: t ∧ Header.Get resHeader name ≠ []) := by
            rintro ⟨h1, h2⟩
            rcases List.mem_cons.1 h1 with h1 | h1
            · exact hne h1
            · exact hmem ⟨h1, h2⟩
          rw [if_neg hne, if_neg this]
      · rw [if_neg hval]
        have : ¬ (name ∈ k :: t ∧ Header.Get resHeader name ≠ []) := by
          rintro ⟨h1, h2⟩
          rcases List.mem_cons.1 h1 with h1 | h1
          · subst h1
            exact hval h2
          · exact hmem ⟨h1, h2⟩
        rw [if_neg this]

/-! ## Claims on the request handler -/

/-- C14: after the header-copy loop of `pinFeed`, started on an empty outbound
header map, a name is present in the outbound map exactly when it is in the
fixed list `headers` and the first value the response has for it is not empty,
and it is then mapped to that single value; every other name is absent. -/
theorem copyHeaders_allow_list (resHeader : Header) (name : Str) :
    (copyHeaders resHeader []).lookup name
      = if name ∈ headers ∧ (Header.values resHeader name).headD [] ≠ []
          then some [(Header.values resHeader name).headD []] else none := by
  unfold copyHeaders
  rw [lookup_copyLoop resHeader headers [] name canonical_of_mem_headers]
  by_cases hm : name ∈ headers
  · simp only [Header.Get, canonical_of_mem_headers name hm]
    rfl
  · simp [hm]

/-- C15: for a request with a path other than `/` whose outbound request is built
and fetched with an upstream status 304, `pinFeed` writes status 304, leaves the
header map and the body of the writer as they were, calls none of `decodeBody`,
`replaceThumbs` and `replaceTitles`, and does not panic. -/
theorem pinFeed_not_modified (env : Env) (w : Writer) (r : Request) (res : Response)
    (hpath : r.path ≠ "/".toList)
    (hnew : env.newRequestErr r.method (feedURL r.path) = none)
    (hdo : env.doRequest (outboundRequest r) = .ok res)
    (h304 : res.statusCode = 304)
    (hw : w.status = none) :
    (pinFeed env w r).w.status = some 304
    ∧ (pinFeed env w r).w.header = w.header
    ∧ (pinFeed env w r).w.body = w.body
    ∧ (pinFeed env w r).calls = []
    ∧ (pinFeed env w r).panicked = false := by
  simp only [pinFeed, if_neg hpath, hnew, hdo, h304, if_true, Writer.WriteHeader, hw]
  simp

theorem pinFeed_not_modified_witness :
    (pinFeed ⟨fun _ => false, fun _ _ => none,
        fun _ => .ok ⟨304, [("Etag".toList, ["x".toList])], ("<rss>".toList, none)⟩,
        fun res => (res, some "never called"), fun w _ _ _ => w⟩
      ⟨[], none, []⟩ ⟨"GET".toList, "/alice".toList, []⟩).w.status = some 304
    ∧ (pinFeed ⟨fun _ => false, fun _ _ => none,
        fun _ => .ok ⟨304, [("Etag".toList, ["x".toList])], ("<rss>".toList, none)⟩,
        fun res => (res, some "never called"), fun w _ _ _ => w⟩
      ⟨[], none, []⟩ ⟨"GET".toList, "/alice".toList, []⟩).w.header = [] :=
  have h := pinFeed_not_modified ⟨fun _ => false, fun _ _ => none,
        fun _ => .ok ⟨304, [("Etag".toList, ["x".toList])], ("<rss>".toList, none)⟩,
        fun res => (res, some "never called"), fun w _ _ _ => w⟩
      ⟨[], none, []⟩ ⟨"GET".toList, "/alice".toList, []⟩
      ⟨304, [("Etag".toList, ["x".toList])], ("<rss>".toList, none)⟩
      (by decide) rfl rfl rfl rfl
  ⟨h.1, h.2.1⟩

/-- C17 as amended: when no two keys of the inbound header map have the same
canonical form, the outbound request built by `pinFeed` carries, for every
inbound entry that does not name `Accept-Encoding`, exactly the values of the
entry in the same order under the canonical spelling of its name; it carries no
value under a name that is neither `Accept-Encoding` nor the canonical spelling
of an inbound name; and it carries `Accept-Encoding` with the single value
`gzip, deflate`, whether or not the inbound map names `Accept-Encoding`. -/
theorem outboundRequest_headers (r : Request)
    (hnodup : (r.header.map (fun e => canonicalHeaderKey e.1)).Nodup) :
    (∀ e ∈ r.header, canonicalHeaderKey e.1 ≠ "Accept-Encoding".toList →
        Header.values (outboundRequest r).header (canonicalHeaderKey e.1) = e.2)
    ∧ (∀ name, name ≠ "Accept-Encoding".toList →
        (∀ e ∈ r.header, canonicalHeaderKey e.1 ≠ name) →
        Header.values (outboundRequest r).header name = [])
    ∧ (outboundRequest r).header.lookup "Accept-Encoding".toList
        = some ["gzip, deflate".toList] := by
  refine ⟨?_, ?_, ?_⟩
  · intro e he hne
    show Header.values (forwardHeaders r.header) _ = _
    rw [values_forwardHeaders _ _ hnodup, if_neg hne]
    have hn : ((r.header.map (fun e => (canonicalHeaderKey e.1, e.2))).map Prod.fst).Nodup := by
      rw [List.map_map]
      exact hnodup
    exact values_of_mem _ (canonicalHeaderKey e.1, e.2) hn
      (List.mem_map_of_mem (fun e => (canonicalHeaderKey e.1, e.2)) he)
  · intro name hne hall
    show Header.values (forwardHeaders r.header) _ = _
    rw [values_forwardHeaders _ _ hnodup, if_neg hne]
    apply values_of_not_key
    rw [List.map_map]
    intro hmem
    obtain ⟨e, he, h1⟩ := List.mem_map.1 hmem
    exact hall e he h1
  · show (forwardHeaders r.header).lookup _ = _
    unfold forwardHeaders
    simp only [Header.Set, lookup_put, canonical_acceptEncoding, if_true]

theorem outboundRequest_headers_witness :
    Header.values (outboundRequest ⟨"GET".toList, "/alice".toList,
        [("x-tag".toList, ["a".toList, "b".toList]),
          ("accept-encoding".toList, ["br".toList])]⟩).header "X-Tag".toList
      = ["a".toList, "b".toList]
    ∧ (outboundRequest ⟨"GET".toList, "/alice".toList,
        [("x-tag".toList, ["a".toList, "b".toList]),
          ("accept-encoding".toList, ["br".toList])]⟩).header.lookup "Accept-Encoding".toList
      = some ["gzip, deflate".toList] :=
  have h := outboundRequest_headers ⟨"GET".toList, "/alice".toList,
        [("x-tag".toList, ["a".toList, "b".toList]),
          ("accept-encoding".toList, ["br".toList])]⟩ (by decide)
  ⟨h.1 ("x-tag".toList, ["a".toList, "b".toList]) (List.mem_cons_self _ _) (by decide), h.2.2⟩

/-- C17 fails as stated: on an inbound map with the keys `x-tag` and `X-Tag`,
which spell the same header name, the outbound request carries under `X-Tag`
the values of both entries, in the order in which the loop visits them, and
nothing under `x-tag`; neither is the inbound list of values of the name. -/
theorem outboundRequest_merges_spellings :
    Header.values (outboundRequest ⟨"GET".toList, "/alice".toList,
        [("x-tag".toList, ["a".toList]), ("X-Tag".toList, ["b".toList])]⟩).header
        "X-Tag".toList = ["a".toList, "b".toList]
    ∧ Header.values (outboundRequest ⟨"GET".toList, "/alice".toList,
        [("X-Tag".toList, ["b".toList]), ("x-tag".toList, ["a".toList])]⟩).header
        "X-Tag".toList = ["b".toList, "a".toList]
    ∧ Header.values [("x-tag".toList, ["a".toList]), ("X-Tag".toList, ["b".toList])]
        "X-Tag".toList = ["b".toList]
    ∧ Header.values (outboundRequest ⟨"GET".toList, "/alice".toList,
        [("x-tag".toList, ["a".toList]), ("X-Tag".toList, ["b".toList])]⟩).header
        "x-tag".toList = []
    ∧ Header.values [("x-tag".toList, ["a".toList]), ("X-Tag".toList, ["b".toList])]
        "x-tag".toList = ["a".toList] := by
  decide

/-- C13, the code at the failing inputs: for a request with a path other than `/`
whose upstream response has a status other than 304 and is decoded without
error, `pinFeed` writes the status of the response before it reads the body; when
reading the body in `replaceThumbs` fails, the status of the writer is therefore
the status of the response, not 500, and no body byte is written.  The status
of the response is one that `WriteHeader` accepts, from 100 to 999. -/
theorem pinFeed_read_failure (env : Env) (w : Writer) (r : Request) (res res1 : Response)
    (buf : Str) (err : Error)
    (hpath : r.path ≠ "/".toList)
    (hnew : env.newRequestErr r.method (feedURL r.path) = none)
    (hdo : env.doRequest (outboundRequest r) = .ok res)
    (h304 : res.statusCode ≠ 304)
    (hdec : env.decodeBody res = (res1, none))
    (_hcode : 100 ≤ res1.statusCode ∧ res1.statusCode ≤ 999)
    (hread : res1.body = (buf, some err))
    (hw : w.status = none) :
    (pinFeed env w r).w.status = some res1.statusCode
    ∧ (pinFeed env w r).w.body = w.body
    ∧ (pinFeed env w r).panicked = false := by
  simp only [pinFeed, if_neg hpath, hnew, hdo, if_neg h304, hdec, hread, replaceThumbs,
    Writer.WriteHeader, hw]
  simp

theorem pinFeed_read_failure_witness :
    (pinFeed ⟨fun _ => false, fun _ _ => none,
        fun _ => .ok ⟨200, [], ("<rss".toList, some "unexpected EOF")⟩,
        fun res => (res, none), fun w _ _ _ => w⟩
      ⟨[], none, []⟩ ⟨"GET".toList, "/alice".toList, []⟩).w.status = some 200 :=
  (pinFeed_read_failure ⟨fun _ => false, fun _ _ => none,
        fun _ => .ok ⟨200, [], ("<rss".toList, some "unexpected EOF")⟩,
        fun res => (res, none), fun w _ _ _ => w⟩
      ⟨[], none, []⟩ ⟨"GET".toList, "/alice".toList, []⟩
      ⟨200, [], ("<rss".toList, some "unexpected EOF")⟩
      ⟨200, [], ("<rss".toList, some "unexpected EOF")⟩
      "<rss".toList "unexpected EOF"
      (by decide) rfl rfl (by decide) rfl (by decide) rfl rfl).1

/-! ## Claims on the full title -/

/-- Leftmost match of `o(.*?)c` at the first `o` that is followed on the same line
by `c`. -/
theorem search_between_first (o c : Str) (prev : Option Char) (r mid : Str)
    (h : FirstBetween o c r mid) :
    ∃ pre post, r = pre ++ (o ++ mid ++ c ++ post) ∧
      (Re.cat [.lit o, .group 1 (.lazyStar isDot), .lit c]).search prev r
        = some ⟨pre, [o ++ mid ++ c, mid], post⟩ := by
  obtain ⟨pre, post, e, hmid, hc, hfirst⟩ := h
  refine ⟨pre, post, e, ?_⟩
  rw [e, search_skip]
  · rw [search_here _ _ _ _ (run_between o c some _ mid post [] _ hmid hc rfl)]
    simp only [Option.map_some', List.append_nil, Re.subs, numSubexp_between]
    rw [take_length_sub]
    rfl
  · intro u v e1 hv
    cases hr : (Re.cat [.lit o, .group 1 (.lazyStar isDot), .lit c]).run some
        ⟨lastOr prev u, v ++ (o ++ mid ++ c ++ post), []⟩ with
    | none => rfl
    | some st =>
      obtain ⟨mid1, post1, e2, hmid1, -⟩ := run_between_some _ _ _ _ _ _ _ hr
      exact absurd ⟨mid1, post1, e2, hmid1⟩ (hfirst u v e1 hv)

/-- A text with a marker has a first marker. -/
theorem exists_first_marker (o c r : Str) (h : HasMarker o c r) :
    ∃ pre s, r = pre ++ s ∧ MarkerAt o c s ∧
      ∀ u v, pre = u ++ v → v ≠ [] → ¬ MarkerAt o c (v ++ s) := by
  induction r with
  | nil =>
    obtain ⟨pre, mid, post, e, hmid⟩ := h
    have hp : pre = [] := by
      cases pre with
      | nil => rfl
      | cons x t => simp at e
    subst hp
    refine ⟨[], [], rfl, ⟨mid, post, by simpa using e, hmid⟩, ?_⟩
    intro u v e1 hv
    exact absurd (List.append_eq_nil.1 e1.symm).2 hv
  | cons x t ih =>
    by_cases hat : MarkerAt o c (x :: t)
    · refine ⟨[], x :: t, rfl, hat, ?_⟩
      intro u v e1 hv
      exact absurd (List.append_eq_nil.1 e1.symm).2 hv
    · obtain ⟨pre, mid, post, e, hmid⟩ := h
      cases pre with
      | nil => exact absurd ⟨mid, post, by simpa using e, hmid⟩ hat
      | cons y pre1 =>
        simp only [List.cons_append, List.cons.injEq] at e
        obtain ⟨pre2, s, e2, hs, hfirst⟩ := ih ⟨pre1, mid, post, e.2, hmid⟩
        refine ⟨x :: pre2, s, by rw [e2]; rfl, hs, ?_⟩
        intro u v e1 hv
        cases u with
        | nil =>
          simp only [List.nil_append] at e1
          subst e1
          rw [List.cons_append, ← e2]
          exact hat
        | cons z u1 =>
          simp only [List.cons_append, List.cons.injEq] at e1
          exact hfirst u1 v e1.2 hv

/-- A text with a marker `op` followed on the same line by `cl` has a text
between the first such marker and the nearest following `cl`. -/
theorem firstBetween_exists (o c r : Str) (h : HasMarker o c r) :
    ∃ mid, FirstBetween o c r mid := by
  obtain ⟨pre, s, e, ⟨mid0, post0, es, hmid0⟩, hfirst⟩ := exists_first_marker o c r h
  obtain ⟨x, y, exy, hx⟩ :=
    exists_first_occurrence c (mid0 ++ c ++ post0) ⟨mid0, post0, rfl⟩
  obtain ⟨R1, hR1⟩ := first_occurrence_le c x y mid0 post0 (hx y) exy.symm
  have e3 : x ++ (c ++ R1) = mid0 ++ c := by
    have h1 : x ++ c ++ R1 ++ post0 = mid0 ++ c ++ post0 := by
      rw [exy, hR1]
      simp only [List.append_assoc]
    have h2 := List.append_cancel_right h1
    simpa only [List.append_assoc] using h2
  have hpre : x <+: mid0 := by
    have hlen : x.length ≤ mid0.length := by
      have := congrArg List.length e3
      simp only [List.length_append] at this
      omega
    exact List.prefix_of_prefix_length_le ⟨c ++ R1, e3⟩ (List.prefix_append mid0 c) hlen
  have hxn : '\n' ∉ x := fun hm => hmid0 (hpre.subset hm)
  have es2 : s = o ++ x ++ c ++ y := by
    rw [es]
    simp only [List.append_assoc] at exy ⊢
    rw [exy]
  refine ⟨x, pre, y, by rw [e, es2], hxn, hx y, ?_⟩
  intro u v e1 hv
  rw [← es2]
  exact hfirst u v e1 hv

/-- C18: `getFullTitle` tries the channel pattern first and the board pattern as
a fallback.  When `mid` is the text between the first `/a&gt;&lt;/p&gt;&lt;p&gt;`
of `r` that is followed on the same line by `&lt;/p&gt;` and the nearest
following `&lt;/p&gt;`, `getFullTitle r` is `mid`, whether or not the board
pattern matches; when `r` has no such channel marker and `mid` is the text
between the first `&gt;&lt;/a&gt;` that is followed on the same line by
`</description>` and the nearest following `</description>`, it is `mid`; when
`r` has neither marker it is empty.  The error is nil in the three cases, and a
text that has a marker has such a text `mid`. -/
theorem getFullTitle_channel_then_board (r : Str) :
    (∀ mid, FirstBetween "/a&gt;&lt;/p&gt;&lt;p&gt;".toList "&lt;/p&gt;".toList r mid →
        getFullTitle r = some (mid, none))
    ∧ (¬ HasMarker "/a&gt;&lt;/p&gt;&lt;p&gt;".toList "&lt;/p&gt;".toList r →
        ∀ mid, FirstBetween "&gt;&lt;/a&gt;".toList "</description>".toList r mid →
          getFullTitle r = some (mid, none))
    ∧ (¬ HasMarker "/a&gt;&lt;/p&gt;&lt;p&gt;".toList "&lt;/p&gt;".toList r →
        ¬ HasMarker "&gt;&lt;/a&gt;".toList "</description>".toList r →
          getFullTitle r = some ([], none))
    ∧ (∀ op cl, HasMarker op cl r → ∃ mid, FirstBetween op cl r mid) := by
  refine ⟨?_, ?_, ?_, fun op cl h => firstBetween_exists op cl r h⟩
  · intro mid h
    obtain ⟨pre, post, -, hs⟩ := search_between_first _ _ none r mid h
    obtain ⟨mid1, hsub, hg⟩ := getFullTitle_channel r _ hs
    simp only [List.cons.injEq, and_true] at hsub
    rw [hg, hsub.2]
  · intro hno mid h
    have hc : fullTitleChannel.search none r = none := search_between_none _ _ _ _ hno
    obtain ⟨pre, post, -, hs⟩ := search_between_first _ _ none r mid h
    obtain ⟨mid1, hsub, hg⟩ := getFullTitle_board r _ hc hs
    simp only [List.cons.injEq, and_true] at hsub
    rw [hg, hsub.2]
  · intro hno hnb
    exact getFullTitle_neither r (search_between_none _ _ _ _ hno)
      (search_between_none _ _ _ _ hnb)

theorem getFullTitle_channel_then_board_witness :
    getFullTitle
        "/a&gt;&lt;/p&gt;&lt;p&gt;T&lt;/p&gt;&gt;&lt;/a&gt;B</description>".toList
      = some ("T".toList, none) :=
  (getFullTitle_channel_then_board
      "/a&gt;&lt;/p&gt;&lt;p&gt;T&lt;/p&gt;&gt;&lt;/a&gt;B</description>".toList).1
    "T".toList
    ⟨[], "&gt;&lt;/a&gt;B</description>".toList, by decide, by decide,
      (noOcc_cons _ _ _ _).2 ⟨by decide, noOcc_nil _ _⟩,
      fun u v e hv => absurd (List.append_eq_nil.1 e.symm).2 hv⟩

/-! ## Claims on the title element -/

/-- C16, the code at a failing input: the item of this well-formed single-line
feed holds two title elements, the first with inner text `a` and a later one
with inner text `b`; in the output both title elements hold the full title
`Full`.  `titlePat.ReplaceAll` replaces every title element of the item, so the
later title element does not stay unchanged. -/
theorem replaceTitles_later_title_rewritten :
    (∀ uni, replaceTitles uni
      "<rss></lastBuildDate><item><title>a</title><media><title>b</title></media><description>/a&gt;&lt;/p&gt;&lt;p&gt;Full&lt;/p&gt;</description></item></channel></rss>".toList
    = some ("<rss></lastBuildDate><item><title>Full</title><media><title>Full</title></media><description>/a&gt;&lt;/p&gt;&lt;p&gt;Full&lt;/p&gt;</description></item></channel></rss>".toList,
        none))
    ∧ feedText "<rss></lastBuildDate>".toList
        [([], "a".toList,
          "<media><title>b</title></media><description>/a&gt;&lt;/p&gt;&lt;p&gt;Full&lt;/p&gt;</description>".toList)]
      = "<rss></lastBuildDate><item><title>a</title><media><title>b</title></media><description>/a&gt;&lt;/p&gt;&lt;p&gt;Full&lt;/p&gt;</description></item></channel></rss>".toList
    ∧ ¬ "<media><title>b</title></media>".toList <:+:
        "<rss></lastBuildDate><item><title>Full</title><media><title>Full</title></media><description>/a&gt;&lt;/p&gt;&lt;p&gt;Full&lt;/p&gt;</description></item></channel></rss>".toList :=
  ⟨fun _ => rfl, by decide, by decide!⟩

/-! ## Claims on the structural markers -/

/-- The search succeeds when the pattern matches somewhere. -/
theorem search_isSome_of_run (re : Re) (u v : Str) (prev : Option Char) (st : St)
    (h : re.run some ⟨lastOr prev u, v, []⟩ = some st) :
    ∃ f, re.search prev (u ++ v) = some f := by
  induction u generalizing prev with
  | nil => exact ⟨_, search_here re prev v st h⟩
  | cons c t ih =>
    rw [List.cons_append, search_cons]
    cases hr : re.run some ⟨prev, c :: (t ++ v), []⟩ with
    | some st1 => exact ⟨_, rfl⟩
    | none =>
      rw [lastOr_cons] at h
      obtain ⟨f, hf⟩ := ih (some c) h
      simp only [hf]
      exact ⟨_, rfl⟩

theorem prefix_append_cases (p a b : Str) (h : p <+: a ++ b) :
    ∃ z q, p = z ++ q ∧ z <+: a ∧ q <+: b := by
  rcases Nat.le_total p.length a.length with hl | hl
  · exact ⟨p, [], by simp, List.prefix_of_prefix_length_le h (List.prefix_append a b) hl,
      List.nil_prefix⟩
  · obtain ⟨q, hq⟩ := List.prefix_of_prefix_length_le (List.prefix_append a b) h hl
    refine ⟨a, q, hq.symm, List.prefix_refl a, ?_⟩
    rw [← hq] at h
    exact (List.prefix_append_right_inj a).1 h

/-- Leftmost match of `o(.*?)c` at the first `o` that is followed on the same line
by `c`. -/
theorem search_between_at_first (o c : Str) (prev : Option Char) (pre mid post : Str)
    (hmid : '\n' ∉ mid) (hc : NoOcc c mid (c ++ post))
    (hfirst : ∀ u v, pre = u ++ v → v ≠ [] →
      ¬ MarkerAt o c (v ++ (o ++ mid ++ c ++ post))) :
    (Re.cat [.lit o, .group 1 (.lazyStar isDot), .lit c]).search prev
      (pre ++ (o ++ mid ++ c ++ post)) = some ⟨pre, [o ++ mid ++ c, mid], post⟩ := by
  rw [search_skip]
  · rw [search_here _ _ _ _ (run_between o c some _ mid post [] _ hmid hc rfl)]
    simp only [Option.map_some', List.append_nil, Re.subs, numSubexp_between]
    rw [take_length_sub]
    rfl
  · intro u v e1 hv
    cases hr : (Re.cat [.lit o, .group 1 (.lazyStar isDot), .lit c]).run some
        ⟨lastOr prev u, v ++ (o ++ mid ++ c ++ post), []⟩ with
    | none => rfl
    | some st =>
      obtain ⟨mid1, post1, e2, hmid1, -⟩ := run_between_some _ _ _ _ _ _ _ hr
      exact absurd ⟨mid1, post1, e2, hmid1⟩ (hfirst u v e1 hv)

/-- Leftmost match of `(o)(.*?)(c)` at the first `o` that is followed on the same
line by `c`. -/
theorem search_groups3_at_first (o c : Str) (prev : Option Char) (pre mid post : Str)
    (hmid : '\n' ∉ mid) (hc : NoOcc c mid (c ++ post))
    (hfirst : ∀ u v, pre = u ++ v → v ≠ [] →
      ¬ MarkerAt o c (v ++ (o ++ mid ++ c ++ post))) :
    (Re.cat [.group 1 (.lit o), .group 2 (.lazyStar isDot), .group 3 (.lit c)]).search prev
      (pre ++ (o ++ mid ++ c ++ post)) = some ⟨pre, [o ++ mid ++ c, o, mid, c], post⟩ := by
  rw [search_skip]
  · rw [search_here _ _ _ _ (run_groups3 o c some _ mid post [] _ hmid hc rfl)]
    simp only [Option.map_some', List.append_nil, Re.subs, numSubexp_groups3]
    rw [take_length_sub]
    rfl
  · intro u v e1 hv
    cases hr : (Re.cat [.group 1 (.lit o), .group 2 (.lazyStar isDot),
        .group 3 (.lit c)]).run some
        ⟨lastOr prev u, v ++ (o ++ mid ++ c ++ post), []⟩ with
    | none => rfl
    | some st =>
      obtain ⟨mid1, post1, e2, hmid1, -⟩ := run_groups3_some _ _ _ _ _ _ _ hr
      exact absurd ⟨mid1, post1, e2, hmid1⟩ (hfirst u v e1 hv)

/-- One step of the loop of `replaceTitles` returns on an item that holds a title
element on one line. -/
theorem replaceTitlesStep_some (uni : Char → Bool) (buf item g : Str)
    (h : HasMarker "<title>".toList "</title>".toList item) :
    ∃ out, replaceTitlesStep uni buf [item, g] = some out := by
  obtain ⟨mid, pre, post, e, hmid, hc, hfirst⟩ := firstBetween_exists _ _ _ h
  have hs := search_groups3_at_first "<title>".toList "</title>".toList none pre mid post
    hmid hc hfirst
  rw [← e] at hs
  have hf : titlePat.FindSubmatch item
      = ["<title>".toList ++ mid ++ "</title>".toList, "<title>".toList, mid,
        "</title>".toList] := by
    unfold Re.FindSubmatch titlePat
    rw [hs]
  refine ⟨buf ++ titlePat.ReplaceAll uni item
    ("<title>".toList ++ fullTitleOf item ++ "</title>".toList), ?_⟩
  simp [replaceTitlesStep, getFullTitle_eq, hf]

theorem foldlM_replaceTitlesStep_some (uni : Char → Bool) (l : List (List Str))
    (hl : ∀ m ∈ l, ∀ buf, ∃ out, replaceTitlesStep uni buf m = some out) (buf : Str) :
    ∃ out, l.foldlM (replaceTitlesStep uni) buf = some out := by
  induction l generalizing buf with
  | nil => exact ⟨buf, rfl⟩
  | cons m rest ih =>
    obtain ⟨b1, h1⟩ := hl m (List.mem_cons_self _ _) buf
    obtain ⟨out, h2⟩ := ih (fun m hm => hl m (List.mem_cons_of_mem _ hm)) b1
    exact ⟨out, by simp only [List.foldlM_cons, h1, Option.bind_eq_bind, Option.some_bind, h2]⟩

theorem not_infix_of_head_not_mem (d : Char) (L w : Str) (h : d ∉ w) : ¬ d :: L <:+: w := by
  rintro ⟨u, v, e⟩
  apply h
  rw [← e]
  simp

/-- No `o ... c` pair lies in a proper prefix of `o ++ x ++ c` when `x` holds no
`c`. -/
theorem no_pair_in_proper_prefix (o c x P s pre mid post : Str) (hs : s ≠ [])
    (hx : NoOcc c x c) (e : P ++ s = o ++ x ++ c)
    (hP : P = pre ++ (o ++ mid ++ c ++ post)) : False := by
  subst hP
  -- the closing text found starts inside `x`
  have e1 : (pre ++ o ++ mid) ++ (c ++ (post ++ s)) = o ++ (x ++ c) := by
    rw [← List.append_assoc o x c, ← e]
    simp only [List.append_assoc]
  have hlen : o.length ≤ (pre ++ o ++ mid).length := by
    simp only [List.length_append]
    omega
  obtain ⟨x1, hx1⟩ := List.prefix_of_prefix_length_le (List.prefix_append o (x ++ c))
    (e1 ▸ List.prefix_append (pre ++ o ++ mid) (c ++ (post ++ s))) hlen
  rw [← hx1, List.append_assoc] at e1
  have e2 := List.append_cancel_left e1
  have hx0 : NoOcc c x (c ++ []) := by simpa using hx
  obtain ⟨R1, hR1⟩ := first_occurrence_le c x [] x1 (post ++ s) hx0
    (by simp only [List.append_nil, List.append_assoc]; exact e2.symm)
  have := List.append_eq_nil.1 hR1.symm
  exact hs (List.append_eq_nil.1 this.2).2

/-- The matches of `itemPat` in a prefix of `I_1 w_1 ... I_N w_N`, after a text
without `<item>`, are items of the run. -/
theorem findAllLoop_run_prefix (items : List (Str × Str))
    (hI : ∀ p ∈ items, '\n' ∉ p.1 ∧ ¬ "</item>".toList <:+: p.1 ∧ '<' ∉ p.2)
    (Z P : Str) (hZ : ¬ "<item>".toList <:+: Z) (hP : P <+: itemsRun items)
    (prev : Option Char) (fuel : Nat) :
    ∀ m ∈ itemPat.findAllLoop fuel prev (Z ++ P),
      ∃ p ∈ items, m = ["<item>".toList ++ p.1 ++ "</item>".toList, p.1] := by
  induction items generalizing Z P prev fuel with
  | nil =>
    have hP0 : P = [] := List.prefix_nil.1 hP
    subst hP0
    cases fuel with
    | zero => intro m hm; simp [Re.findAllLoop] at hm
    | succ n =>
      intro m hm
      unfold itemPat at hm
      rw [findAllLoop_succ, List.append_nil,
        search_between_none_of_absent _ _ prev Z hZ] at hm
      simp at hm
  | cons p rest ih =>
    obtain ⟨hx, hxc, hw⟩ := hI p (List.mem_cons_self _ _)
    have hrest : ∀ q ∈ rest, '\n' ∉ q.1 ∧ ¬ "</item>".toList <:+: q.1 ∧ '<' ∉ q.2 :=
      fun q hq => hI q (List.mem_cons_of_mem _ hq)
    cases fuel with
    | zero => intro m hm; simp [Re.findAllLoop] at hm
    | succ n =>
      intro m hm
      by_cases hfull : "<item>".toList ++ p.1 ++ "</item>".toList <+: P
      · -- the first item lies in the prefix
        obtain ⟨P1, hP1⟩ := hfull
        have hP1r : P1 <+: p.2 ++ itemsRun rest := by
          rw [← hP1] at hP
          simp only [itemsRun, List.append_assoc] at hP
          have h1 := (List.prefix_append_right_inj _).1 hP
          have h2 := (List.prefix_append_right_inj _).1 h1
          exact (List.prefix_append_right_inj _).1 h2
        have hocc : NoOcc "<item>".toList Z
            ("<item>".toList ++ p.1 ++ "</item>".toList ++ P1) :=
          noOcc_of_absent _ _ _ hZ (by simp)
        have hcl : NoOcc "</item>".toList p.1 ("</item>".toList ++ P1) :=
          noOcc_of_absent _ _ _ hxc (by simp)
        unfold itemPat at hm
        rw [← hP1, findAllLoop_succ,
          search_between _ _ prev Z p.1 P1 hocc hx hcl] at hm
        have hhd : ¬ ("<item>".toList ++ p.1 ++ "</item>".toList = []) := by simp
        simp only [List.headD_cons, hhd, if_false, List.mem_cons] at hm
        rcases hm with hm | hm
        · exact ⟨p, List.mem_cons_self _ _, hm⟩
        · obtain ⟨z, q, e, hz, hq⟩ := prefix_append_cases P1 p.2 (itemsRun rest) hP1r
          have hzi : ¬ "<item>".toList <:+: z :=
            not_infix_of_head_not_mem '<' "item>".toList z
              (fun hm => hw (hz.subset hm))
          rw [e] at hm
          obtain ⟨p1, hp1, hm1⟩ := ih hrest z q hzi hq _ n m hm
          exact ⟨p1, List.mem_cons_of_mem _ hp1, hm1⟩
      · -- the prefix ends inside the first item: no match
        exfalso
        have hPi : P <+: "<item>".toList ++ p.1 ++ "</item>".toList := by
          have h2 : "<item>".toList ++ p.1 ++ "</item>".toList <+: itemsRun (p :: rest) := by
            simp only [itemsRun, List.append_assoc]
            exact ⟨p.2 ++ itemsRun rest, by simp only [List.append_assoc]⟩
          rcases List.prefix_or_prefix_of_prefix hP h2 with h | h
          · exact h
          · exact absurd h hfull
        obtain ⟨s, hs⟩ := hPi
        have hsne : s ≠ [] := by
          intro h0
          rw [h0, List.append_nil] at hs
          exact hfull (hs ▸ List.prefix_refl _)
        unfold itemPat at hm
        rw [findAllLoop_succ] at hm
        cases hsr : (Re.cat [.lit "<item>".toList, .group 1 (.lazyStar isDot),
            .lit "</item>".toList]).search prev (Z ++ P) with
        | none =>
          rw [hsr] at hm
          exact absurd hm (List.not_mem_nil _)
        | some f =>
          obtain ⟨mid, e, -, -⟩ := search_between_some _ _ _ _ _ hsr
          -- the match starts inside `P`
          have hPne : P ≠ [] := by
            intro h0
            rw [h0, List.append_nil] at e
            exact hZ ⟨f.pre, mid ++ "</item>".toList ++ f.rest, by
              rw [e]; simp only [List.append_assoc]⟩
          have hPhead : ∀ d, P.head? = some d → d ∉ ("<item>".toList).tail := by
            intro d hd
            cases P with
            | nil => exact absurd rfl hPne
            | cons a P2 =>
              have ha : a = '<' := by
                have := congrArg List.head? hs
                simpa using this
              simp only [List.head?_cons, Option.some.injEq] at hd
              rw [← hd, ha]
              decide
          have hno : NoOcc "<item>".toList Z P := noOcc_of_absent _ _ _ hZ hPhead
          rcases List.append_eq_append_iff.1 e with ⟨a, ha, hb⟩ | ⟨a, ha, hb⟩
          · -- `f.pre = Z ++ a`
            exact no_pair_in_proper_prefix "<item>".toList "</item>".toList p.1 P s a mid
              f.rest hsne (noOcc_of_absent _ _ _ hxc (by simp)) hs hb
          · -- `Z = f.pre ++ a`
            by_cases ha0 : a = []
            · subst ha0
              simp only [List.nil_append] at hb
              exact no_pair_in_proper_prefix "<item>".toList "</item>".toList p.1 P s [] mid
                f.rest hsne (noOcc_of_absent _ _ _ hxc (by simp)) hs
                (by simpa using hb.symm)
            · apply hno f.pre a ha ha0
              exact ⟨mid ++ "</item>".toList ++ f.rest, by
                rw [← hb]; simp only [List.append_assoc]⟩

/-- `feedPat` finds a match in a body that holds `<item>` and, later on the same
line, the closing marker. -/
theorem findSubmatch_feed_some (Zf X : Str) (hX : '\n' ∉ X) :
    ∃ w h t, feedPat.FindSubmatch
      (Zf ++ ("<item>".toList ++ X ++ "</channel></rss>".toList)) = [w, h, t] := by
  obtain ⟨r, hr, -⟩ := run_headTail "<item>".toList "</channel></rss>".toList
    (lastOr none Zf) [] X [] (by simp) hX (noOcc_nil _ _)
  obtain ⟨f, hf⟩ := search_isSome_of_run _ Zf _ none r hr
  obtain ⟨s1, st, -, -, hsub, -, -⟩ := search_some _ _ _ _ hf
  have e : Zf ++ ("<item>".toList ++ X ++ "</channel></rss>".toList)
      = Zf ++ ([] ++ ("<item>".toList ++ X ++ "</channel></rss>".toList ++ [])) := by simp
  refine ⟨s1.take (s1.length - st.rest.length), (st.caps.lookup 1).getD [],
    (st.caps.lookup 2).getD [], ?_⟩
  unfold Re.FindSubmatch feedPat
  rw [e, hf]
  simp only [hsub, Re.subs, numSubexp_headTail]
  rfl

theorem whitespace_no_lt (w : Str) (h : ∀ c ∈ w, c.isWhitespace = true) : '<' ∉ w :=
  fun hm => absurd (h _ hm) (by decide)

theorem whitespace_border (w : Str) (h : ∀ c ∈ w, c.isWhitespace = true) :
    ∀ d, w.head? = some d → d ∉ ("<item>".toList).tail := by
  intro d hd hmem
  have hdw : d ∈ w := by
    cases w with
    | nil => simp at hd
    | cons a t =>
      simp only [List.head?_cons, Option.some.injEq] at hd
      rw [← hd]
      exact List.mem_cons_self _ _
  have hws := h d hdw
  have : ∀ c ∈ ("<item>".toList).tail, c.isWhitespace = false := by decide
  rw [this d hmem] at hws
  exact absurd hws (by simp)

/-- `itemsPat` on a body whose text after `</lastBuildDate>` holds no line break:
group 1 is a text without `<item>` followed by a prefix of the run of items. -/
theorem findSubmatch_items_spaced (H w0 : Str) (items : List (Str × Str))
    (hH : ¬ "<item>".toList <:+: H) (hbreak : '\n' ∉ w0 ++ itemsRun items)
    (hw0 : ∀ c ∈ w0, c.isWhitespace = true) :
    ∃ w Z P, itemsPat.FindSubmatch (spacedFeed H w0 items) = [w, Z ++ P] ∧
      ¬ "<item>".toList <:+: Z ∧ P <+: itemsRun items := by
  have ht : "</channel></rss>".toList = "</channel>".toList ++ "</rss>".toList := by decide
  have ebody : spacedFeed H w0 items = H ++ ("</lastBuildDate>".toList
      ++ (w0 ++ itemsRun items) ++ "</channel>".toList ++ "</rss>".toList) := by
    rw [spacedFeed, ht]
    simp only [List.append_assoc]
  have hM : HasMarker "</lastBuildDate>".toList "</channel>".toList (spacedFeed H w0 items) :=
    ⟨H, w0 ++ itemsRun items, "</rss>".toList, ebody, hbreak⟩
  obtain ⟨mid, pre, post, e, hmid, hc, hfirst⟩ := firstBetween_exists _ _ _ hM
  have hs := search_between_at_first "</lastBuildDate>".toList "</channel>".toList none
    pre mid post hmid hc hfirst
  rw [← e] at hs
  have e2 : H ++ ("</lastBuildDate>".toList ++ (w0 ++ itemsRun items) ++ "</channel>".toList
      ++ "</rss>".toList)
      = pre ++ ("</lastBuildDate>".toList ++ mid ++ "</channel>".toList ++ post) := by
    rw [← ebody, e]
  -- the first marker is not after the one of the body
  have hle : pre.length ≤ H.length := by
    by_contra hlt
    obtain ⟨v, hv⟩ := List.prefix_of_prefix_length_le (List.prefix_append H _)
      (e2 ▸ List.prefix_append pre _) (by omega)
    have hvne : v ≠ [] := by
      intro h0
      rw [h0, List.append_nil] at hv
      rw [hv] at hlt
      omega
    apply hfirst H v hv.symm hvne
    refine ⟨w0 ++ itemsRun items, "</rss>".toList, ?_, hbreak⟩
    have e2a : H ++ ("</lastBuildDate>".toList ++ (w0 ++ itemsRun items)
        ++ "</channel>".toList ++ "</rss>".toList)
        = H ++ (v ++ ("</lastBuildDate>".toList ++ mid ++ "</channel>".toList ++ post)) := by
      rw [e2, ← hv, List.append_assoc]
    exact (List.append_cancel_left e2a).symm
  obtain ⟨K, hK⟩ := List.prefix_of_prefix_length_le (e2 ▸ List.prefix_append pre _)
    (List.prefix_append H _) hle
  have e3 : "</lastBuildDate>".toList ++ (mid ++ ("</channel>".toList ++ post))
      = (K ++ "</lastBuildDate>".toList ++ w0)
        ++ (itemsRun items ++ ("</channel>".toList ++ "</rss>".toList)) := by
    rw [← hK] at e2
    simp only [List.append_assoc] at e2 ⊢
    exact (List.append_cancel_left e2).symm
  obtain ⟨Z1, hZ1⟩ := List.prefix_of_prefix_length_le (List.prefix_append _ _)
    (e3 ▸ List.prefix_append (K ++ "</lastBuildDate>".toList ++ w0) _)
    (by simp only [List.length_append]; omega)
  have e4 : mid ++ "</channel>".toList ++ post
      = (Z1 ++ itemsRun items) ++ "</channel>".toList ++ "</rss>".toList := by
    rw [← hZ1] at e3
    simp only [List.append_assoc] at e3 ⊢
    exact List.append_cancel_left e3
  have hfull : ¬ "<item>".toList <:+: H ++ "</lastBuildDate>".toList ++ w0 :=
    not_infix_append _ _ _
      (not_infix_append _ H _ hH (by decide) (by simp))
      (not_infix_of_head_not_mem '<' "item>".toList w0 (whitespace_no_lt w0 hw0))
      (whitespace_border w0 hw0)
  have hZ1i : ¬ "<item>".toList <:+: Z1 := by
    intro hi
    apply hfull
    have : H ++ "</lastBuildDate>".toList ++ w0 = pre ++ "</lastBuildDate>".toList ++ Z1 := by
      rw [← hK]
      simp only [List.append_assoc] at hZ1 ⊢
      rw [hZ1]
    rw [this]
    exact hi.trans (List.suffix_append _ _).isInfix
  obtain ⟨R1, hR1⟩ := first_occurrence_le "</channel>".toList mid post (Z1 ++ itemsRun items)
    "</rss>".toList hc e4
  have hpre : mid <+: Z1 ++ itemsRun items := by
    rw [hR1] at e4
    have e5 : (mid ++ "</channel>".toList ++ R1) ++ "</rss>".toList
        = (Z1 ++ itemsRun items ++ "</channel>".toList) ++ "</rss>".toList := by
      simp only [List.append_assoc] at e4 ⊢
      exact e4
    have e6 := List.append_cancel_right e5
    have hlen : mid.length ≤ (Z1 ++ itemsRun items).length := by
      have := congrArg List.length e6
      simp only [List.length_append] at this ⊢
      omega
    have h1 : mid <+: Z1 ++ itemsRun items ++ "</channel>".toList :=
      ⟨"</channel>".toList ++ R1, by rw [← e6]; simp only [List.append_assoc]⟩
    exact List.prefix_of_prefix_length_le h1 (List.prefix_append _ _) hlen
  obtain ⟨Z, P, emid, hZ, hP⟩ := prefix_append_cases mid Z1 (itemsRun items) hpre
  refine ⟨"</lastBuildDate>".toList ++ mid ++ "</channel>".toList, Z, P, ?_,
    fun hi => hZ1i (hi.trans hZ.isInfix), hP⟩
  unfold Re.FindSubmatch itemsPat
  rw [hs, emid]

theorem mem_itemsRun (items : List (Str × Str)) (p : Str × Str) (hp : p ∈ items) :
    ∀ c ∈ p.1, c ∈ itemsRun items := by
  induction items with
  | nil => cases hp
  | cons q rest ih =>
    intro c hc
    rcases List.mem_cons.1 hp with h | h
    · subst h
      simp [itemsRun, hc]
    · have := ih h c hc
      simp [itemsRun, this]

/-- C19, as amended: for every body `H + "</lastBuildDate>" + w_0 + I_1 + w_1 + ...
+ I_N + w_N + "</channel></rss>"` with `N ≥ 1`, where `H` holds no `<item>`, the
text after `</lastBuildDate>` holds no line break, each `w_k` is a run of
whitespace, and each `I_k` is `<item>` + `x_k` + `</item>` with no `</item>`
in `x_k` and a `<title>...</title>` element in `x_k`, `replaceTitles` returns
a document with a nil error and does not panic. -/
theorem replaceTitles_returns (uni : Char → Bool) (H w0 : Str) (items : List (Str × Str))
    (hN : items ≠ []) (hH : ¬ "<item>".toList <:+: H)
    (hbreak : '\n' ∉ w0 ++ itemsRun items)
    (hw0 : ∀ c ∈ w0, c.isWhitespace = true)
    (hI : ∀ p ∈ items, ¬ "</item>".toList <:+: p.1
      ∧ (∃ a t b, p.1 = a ++ "<title>".toList ++ t ++ "</title>".toList ++ b)
      ∧ ∀ c ∈ p.2, c.isWhitespace = true) :
    ∃ out, replaceTitles uni (spacedFeed H w0 items) = some (out, none) := by
  have hx : ∀ p ∈ items, '\n' ∉ p.1 := by
    intro p hp hm
    exact hbreak (List.mem_append.2 (Or.inr (mem_itemsRun items p hp _ hm)))
  -- the head and the tail
  obtain ⟨w1, h, t, hfeed⟩ : ∃ w h t, feedPat.FindSubmatch (spacedFeed H w0 items)
      = [w, h, t] := by
    cases items with
    | nil => exact absurd rfl hN
    | cons p rest =>
      have e : spacedFeed H w0 (p :: rest) = (H ++ "</lastBuildDate>".toList ++ w0)
          ++ ("<item>".toList ++ (p.1 ++ "</item>".toList ++ p.2 ++ itemsRun rest)
            ++ "</channel></rss>".toList) := by
        simp only [spacedFeed, itemsRun, List.append_assoc]
      rw [e]
      apply findSubmatch_feed_some
      intro hm
      apply hbreak
      simp only [itemsRun, List.mem_append] at hm ⊢
      tauto
  -- the items
  obtain ⟨w2, Z, P, hitems, hZ, hP⟩ := findSubmatch_items_spaced H w0 items hH hbreak hw0
  have hall := findAllLoop_run_prefix items
    (fun p hp => ⟨hx p hp, (hI p hp).1, whitespace_no_lt _ (hI p hp).2.2⟩)
    Z P hZ hP none ((Z ++ P).length + 1)
  obtain ⟨buf, hfold⟩ := foldlM_replaceTitlesStep_some uni (itemPat.FindAllSubmatch (Z ++ P))
    (by
      intro m hm buf
      obtain ⟨p, hp, rfl⟩ := hall m hm
      obtain ⟨a, t, b, e⟩ := (hI p hp).2.1
      apply replaceTitlesStep_some
      refine ⟨"<item>".toList ++ a, t, b ++ "</item>".toList, ?_, ?_⟩
      · rw [e]
        simp only [List.append_assoc]
      · intro hm
        apply hx p hp
        rw [e]
        simp [hm]) []
  exact ⟨h ++ buf ++ t, by simp [replaceTitles, hfeed, hitems, hfold]⟩

theorem replaceTitles_returns_witness :
    ∃ out, replaceTitles (fun _ => false)
      (spacedFeed "<rss>\n<channel>".toList " ".toList
        [("<title>a</title>".toList, "  ".toList), ("<title>b</title>".toList, [])])
      = some (out, none) :=
  replaceTitles_returns (fun _ => false) "<rss>\n<channel>".toList " ".toList
    [("<title>a</title>".toList, "  ".toList), ("<title>b</title>".toList, [])]
    (by simp) (by decide) (by decide) (by decide)
    (by
      intro p hp
      simp only [List.mem_cons, List.mem_singleton, List.not_mem_nil, or_false] at hp
      rcases hp with rfl | rfl
      · exact ⟨by decide, ⟨[], "a".toList, [], by decide⟩, by decide⟩
      · exact ⟨by decide, ⟨[], "b".toList, [], by decide⟩, by decide⟩)

/-- C19 at a body with a line break before the closing marker (`w_1` is a line
break): `replaceTitles` does not return; it indexes the missing match of
`feedPat` and panics. -/
theorem replaceTitles_line_break_panics :
    (∀ uni, replaceTitles uni
      (spacedFeed "<rss>".toList [] [("<title>a</title>".toList, "\n".toList)]) = none)
    ∧ spacedFeed "<rss>".toList [] [("<title>a</title>".toList, "\n".toList)]
      = "<rss></lastBuildDate><item><title>a</title></item>\n</channel></rss>".toList
    ∧ ∀ c ∈ "\n".toList, c.isWhitespace = true :=
  ⟨fun _ => rfl, by decide, by decide⟩

end Pintrss
